import Mathlib

/-!
# The flag registry and the argument scanner of `cli.go`

A shallow embedding of `initFlagSet` and `parse` (src/cli.go, lines 85–210) and the
properties of the specification that concern them.

The code of `cli.go` calls into parts of the package that live in other files:
`newFlag`, `(*flag).set`, `(*flag).name`, `flagSlice.String`, `red`, `newFlagSet`,
and the constants `dashOne`, `dashTwo`.  The functions are taken as the fields of an
environment `Env`, so that every theorem below holds for whatever they compute; the two
constants are given the values the specification names.

The state carries a ghost `trace`: the flag tokens examined, the setter calls made, the
outcome of each test `fl.err == nil` that follows a setter call, and whether the
validation pass was entered.  It is written by the model only and read by the theorems
only.
-/

namespace Cli

/-! ## Strings, maps, errors -/

/-- A Go string: its bytes in order, each byte held as the character with that code. -/
abbrev Str := List Char

/-- Modelled from the spec: the constant `dashOne` is declared outside src/; §4.3 calls it
the single-marker prefix, the text `-`. -/
def dashOne : Str := ['-']

/-- Modelled from the spec: the constant `dashTwo` is declared outside src/; §4.3 calls it
the double marker, the text `--`. -/
def dashTwo : Str := ['-', '-']

/-- Go's `strings.HasPrefix(s, p)`. -/
def HasPrefix (s p : Str) : Bool := p.isPrefixOf s

/-- Go's `strings.TrimPrefix(s, p)`. -/
def TrimPrefix (s p : Str) : Str := if HasPrefix s p then s.drop p.length else s

/-- Go's `strings.Split(s, sep)` for a one-byte separator: the pieces of `s` around every
occurrence of `sep`; one piece more than there are occurrences, so never the empty list. -/
def Split : Str → Char → List Str
  | [], _ => [[]]
  | c :: cs, sep =>
    if c = sep then [] :: Split cs sep
    else
      match Split cs sep with
      | [] => [[c]]
      | p :: ps => (c :: p) :: ps

/-- Reading `m[k]` of a Go map held as an association list with distinct keys. -/
def lookup {α : Type} (k : Str) : List (Str × α) → Option α
  | [] => none
  | (k', a) :: m => if k' = k then some a else lookup k m

/-- The assignment `m[k] = a` of a Go map: the entry of `k` is replaced, or added. -/
def insert {α : Type} (k : Str) (a : α) : List (Str × α) → List (Str × α)
  | [] => [(k, a)]
  | (k', a') :: m => if k' = k then (k, a) :: m else (k', a') :: insert k a m

/-- A Go `error` value.  Errors are objects: one made by `fmt.Errorf` inside `cli.go` is
never the object that `newFlag` or a setter handed back, whatever its text. -/
inductive GoError where
  | errorf (text : Str)
  | returned (text : Str)
  deriving DecidableEq, Repr

/-- The method `Error()` of an error value: its text. -/
def GoError.text : GoError → Str
  | .errorf t => t
  | .returned t => t

/-- The text of `fmt.Errorf("flag `%s` repeat", name)`. -/
def repeatText (name : Str) : Str := "flag `".toList ++ name ++ "` repeat".toList

/-- The text of `fmt.Errorf("unknown flag `%s`", arg)`. -/
def unknownText (arg : Str) : Str := "unknown flag `".toList ++ arg ++ "`".toList

/-- The text of `fmt.Errorf("too many(%d) value for flag `%s`", n, arg)`. -/
def tooManyText (n : Nat) (arg : Str) : Str :=
  "too many(".toList ++ (Nat.repr n).toList ++ ") value for flag `".toList ++ arg ++ "`".toList

/-! ## Descriptors, the registry, the environment -/

/-- The part of a descriptor's tag that `cli.go` reads: `fl.tag.shortNames`,
`fl.tag.longNames`, `fl.tag.required`. -/
structure Tag where
  shortNames : List Str
  longNames : List Str
  required : Bool
  deriving DecidableEq, Repr

/-- The descriptor `flag`, as far as `cli.go` reads it: the tag, the field's storage slot
`v` (a value of type `V`), `assigned`, and the recorded conversion error `err` (its text). -/
structure flag (V : Type) where
  tag : Tag
  v : V
  assigned : Bool
  err : Option Str
  deriving DecidableEq, Repr

/-- What the scanner did, in order (ghost): token `i` passed the test of line 132 and is
processed as a flag token; `fl.set(raw)` was called for the descriptor at position `k` of
the ordered list while token `i` was processed; after the setter call made for `name`
while token `i` was processed, the test `fl.err == nil` of lines 168 and 187 gave `ok` for
the descriptor at position `k`, whose value then had the string form `shown`; the
validation pass (line 192) began. -/
inductive Event where
  | flagToken (i : Nat)
  | set (i k : Nat) (raw : Str)
  | checked (i : Nat) (name : Str) (k : Nat) (ok : Bool) (shown : Str)
  | validate
  deriving DecidableEq, Repr

/-- The `FlagSet`.  Descriptors are shared by pointer between `slice` and `flags` in the
source; here `slice` holds them and `flags` maps a name to a position of `slice`. -/
structure FlagSet (V : Type) where
  slice : List (flag V)
  flags : List (Str × Nat)
  Values : List (Str × List Str)
  Error : Option GoError
  Usage : Str
  trace : List Event
  deriving DecidableEq, Repr

/-- The functions `cli.go` calls that are defined in other files of the package, and the
two renderings of `fmt` it relies on.  `F` is a struct field as reflection shows it
(`tfield`, `vfield`), `V` a field's stored value.
* `newFlag f`: the pair `(fl, err)` of `newFlag(tfield, vfield)`; `fl = none` is the nil
  descriptor of an excluded field; the descriptor's `v` is the field's slot `vfield`.
* `set fl raw`: the descriptor after `fl.set(raw)` and the error it returned.
* `sprintV v`: `fmt.Sprintf("%v", v)`.
* `name fl`: `fl.name()`.  `red s`: `red(s)`.  `usage fls`: `flagSlice(fls).String()`.
* `errorf0 s`: the text of `fmt.Errorf(s)`, the format `s` rendered with no operand. -/
structure Env (F V : Type) where
  newFlag : F → Option (flag V) × Option Str
  set : flag V → Str → flag V × Option Str
  sprintV : V → Str
  name : flag V → Str
  red : Str → Str
  usage : List (flag V) → Str
  errorf0 : Str → Str

/-- The result of `newFlagSet()`: no descriptor, empty maps, no error. -/
def newFlagSet (V : Type) : FlagSet V :=
  { slice := [], flags := [], Values := [], Error := none, Usage := [], trace := [] }

/-! ## `initFlagSet` (lines 85–121) -/

/-- The loop over `names` (lines 109–118) for the descriptor `fl` stored at position `k`.
The boolean tells that `initFlagSet` returned (line 112). -/
def addNames {V : Type} (fl : flag V) (k : Nat) (value : Str) :
    List Str → FlagSet V → FlagSet V × Bool
  | [], fs => (fs, false)
  | name :: names, fs =>
    if (lookup name fs.flags).isSome then
      ({ fs with Error := some (.errorf (repeatText name)) }, true)
    else
      addNames fl k value names
        { fs with
          flags := insert name k fs.flags
          Values := if fl.assigned then insert name [value] fs.Values else fs.Values }

/-- The loop over the fields (lines 91–119).  The boolean tells that `initFlagSet`
returned from inside the loop (lines 96, 112). -/
def initFields {F V : Type} (E : Env F V) : List F → FlagSet V → FlagSet V × Bool
  | [], fs => (fs, false)
  | f :: fields, fs =>
    let r := E.newFlag f
    let fs := { fs with Error := r.2.map GoError.returned }
    if r.2.isSome then (fs, true)
    else
      match r.1 with
      | none => initFields E fields fs
      | some fl =>
        let k := fs.slice.length
        let fs := { fs with slice := fs.slice ++ [fl] }
        let value := if fl.assigned then E.sprintV fl.v else []
        match addNames fl k value (fl.tag.shortNames ++ fl.tag.longNames) fs with
        | (fs, true) => (fs, true)
        | (fs, false) => initFields E fields fs

/-- The function `initFlagSet`: `fields` are the fields of the struct in declaration
order; `Usage` is rendered only when the loop ran to its end (line 120). -/
def initFlagSet {F V : Type} (E : Env F V) (fields : List F) (fs : FlagSet V) : FlagSet V :=
  match initFields E fields fs with
  | (fs, true) => fs
  | (fs, false) => { fs with Usage := E.usage fs.slice }

/-! ## `parse` (lines 123–210) -/

/-- The call `flagSet.Error = fl.set(raw)` for the descriptor at position `k`, made while
token `i` is processed.  Every position held by `flags` is a position of `slice`
(`initFlagSet` stores no other), so the first case does not arise in a run of `parse`. -/
def callSet {F V : Type} (E : Env F V) (i k : Nat) (raw : Str) (fs : FlagSet V) : FlagSet V :=
  match fs.slice[k]? with
  | none => fs
  | some fl =>
    { fs with
      slice := fs.slice.set k (E.set fl raw).1
      Error := (E.set fl raw).2.map GoError.returned
      trace := fs.trace ++ [Event.set i k raw] }

/-- Lines 168–170 and 187–189, `if fl.err == nil { flagSet.Values[name] = ... }`, for the
descriptor at position `k` while token `i` is processed. -/
def recordValue {F V : Type} (E : Env F V) (i : Nat) (name : Str) (k : Nat) (fs : FlagSet V) :
    FlagSet V :=
  match fs.slice[k]? with
  | none => fs
  | some fl =>
    if fl.err.isNone then
      { fs with
        Values := insert name [E.sprintV fl.v] fs.Values
        trace := fs.trace ++ [Event.checked i name k true (E.sprintV fl.v)] }
    else { fs with trace := fs.trace ++ [Event.checked i name k false (E.sprintV fl.v)] }

/-- The loop over the bytes of a cluster (lines 159–172) while token `i` is processed.
The boolean tells that `parse` returned (lines 163, 166). -/
def cluster {F V : Type} (E : Env F V) (i : Nat) : List Char → FlagSet V → FlagSet V × Bool
  | [], fs => (fs, false)
  | c :: chars, fs =>
    let tmp := dashOne ++ [c]
    match lookup tmp fs.flags with
    | none => ({ fs with Error := some (.errorf (unknownText tmp)) }, true)
    | some k =>
      let fs := callSet E i k [] fs
      if fs.Error.isSome then (fs, true)
      else cluster E i chars (recordValue E i tmp k fs)

/-- Lines 144–189: the flag token `arg` at index `i` with the collected `values`.
The boolean tells that `parse` returned (lines 155, 163, 166, 185); otherwise the loop
goes on with the next index. -/
def flagArg {F V : Type} (E : Env F V) (i : Nat) (arg : Str) (values : List Str)
    (fs : FlagSet V) : FlagSet V × Bool :=
  match Split arg '=' with
  | [] => (fs, false)
  | arg :: inline =>
    match lookup arg fs.flags with
    | none =>
      if HasPrefix arg dashTwo then
        ({ fs with Error := some (.errorf (unknownText arg)) }, true)
      else cluster E i (TrimPrefix arg dashOne) fs
    | some k =>
      let values := inline ++ values
      let fs :=
        match values with
        | [] => callSet E i k [] fs
        | [v] => callSet E i k v fs
        | _ => { fs with Error := some (.errorf (tooManyText values.length arg)) }
      if fs.Error.isSome then (fs, true)
      else (recordValue E i arg k fs, false)

/-- A token that does not begin with `dashOne` (the negation of the test of line 137). -/
def noDash (a : Str) : Bool := !HasPrefix a dashOne

/-- The inner loop of lines 135–141: the tokens after index `i` up to the first one that
begins with `dashOne`. -/
def collect (args : List Str) (i : Nat) : List Str :=
  (args.drop (i + 1)).takeWhile noDash

/-- The loop of lines 130–190 from index `i`.  `fuel` bounds the number of iterations;
`parse` enters with `fuel = size`, which is never used up since `i` grows in every
iteration (`scanLoop_eq_scan`).  The boolean tells that `parse` returned inside the loop. -/
def scanLoop {F V : Type} (E : Env F V) (args : List Str) :
    Nat → Nat → FlagSet V → FlagSet V × Bool
  | 0, _, fs => (fs, false)
  | fuel + 1, i, fs =>
    match args[i]? with
    | none => (fs, false)
    | some arg =>
      if !HasPrefix arg dashOne then scanLoop E args fuel (i + 1) fs
      else
        let values := collect args i
        match flagArg E i arg values { fs with trace := fs.trace ++ [Event.flagToken i] } with
        | (fs, true) => (fs, true)
        | (fs, false) => scanLoop E args fuel (i + values.length + 1) fs

/-- The text `"<red ERR!> required argument `<name>` missing"` of line 198. -/
def requiredLine {F V : Type} (E : Env F V) (fl : flag V) : Str :=
  E.red "ERR!".toList ++ " required argument `".toList ++ E.name fl ++ "` missing".toList

/-- The text `"<red ERR!> assigned argument `<name>` invalid: <cause>"` of line 204. -/
def invalidLine {F V : Type} (E : Env F V) (fl : flag V) (cause : Str) : Str :=
  E.red "ERR!".toList ++ " assigned argument `".toList ++ E.name fl ++ "` invalid: ".toList
    ++ cause

/-- Writing one line to the buffer, after a newline when the buffer is not empty
(lines 195–198, 201–204). -/
def writeLine (buff line : Str) : Str :=
  (if buff.length > 0 then buff ++ ['\n'] else buff) ++ line

/-- The body of the validation loop for one descriptor (lines 194–205). -/
def validateFlag {F V : Type} (E : Env F V) (buff : Str) (fl : flag V) : Str :=
  let buff := if !fl.assigned && fl.tag.required then writeLine buff (requiredLine E fl) else buff
  match fl.err with
  | some cause => if fl.assigned then writeLine buff (invalidLine E fl cause) else buff
  | none => buff

/-- The buffer `buff` after the loop of lines 193–206 over the ordered list. -/
def validationBuffer {F V : Type} (E : Env F V) (fls : List (flag V)) : Str :=
  fls.foldl (validateFlag E) []

/-- The validation pass (lines 192–209). -/
def validate {F V : Type} (E : Env F V) (fs : FlagSet V) : FlagSet V :=
  let buff := validationBuffer E fs.slice
  let fs := { fs with trace := fs.trace ++ [Event.validate] }
  if buff.length > 0 then { fs with Error := some (.errorf (E.errorf0 buff)) } else fs

/-- The function `parse` on the fields of the target struct and the token list; the flag
set passed in is the fresh one of `Parse`. -/
def parse {F V : Type} (E : Env F V) (fields : List F) (args : List Str) : FlagSet V :=
  let fs := initFlagSet E fields (newFlagSet V)
  if fs.Error.isSome then fs
  else
    match scanLoop E args args.length 0 fs with
    | (fs, true) => fs
    | (fs, false) => validate E fs

/-! ## Reading the trace, and the loop as a recursion on the tokens -/

/-- The token index an event belongs to; the validation event belongs to none. -/
def Event.tok : Event → Option Nat
  | .flagToken i => some i
  | .set i _ _ => some i
  | .checked i _ _ _ _ => some i
  | .validate => none

/-- The setter calls made while token `i` was processed, in order: the position of the
descriptor in the ordered list and the text passed. -/
def setCalls (i : Nat) : List Event → List (Nat × Str)
  | [] => []
  | .set j k raw :: tr => if j = i then (k, raw) :: setCalls i tr else setCalls i tr
  | _ :: tr => setCalls i tr

/-- The loop of lines 130–190 as a recursion on the tokens that remain, `i` being the
index of the first of them.  The tokens that line 142 jumps over do not begin with
`dashOne`, so line 133 would skip them one by one: `scanLoop_eq_scan`. -/
def scan {F V : Type} (E : Env F V) : Nat → List Str → FlagSet V → FlagSet V × Bool
  | _, [], fs => (fs, false)
  | i, arg :: rest, fs =>
    if !HasPrefix arg dashOne then scan E (i + 1) rest fs
    else
      match flagArg E i arg (rest.takeWhile noDash)
          { fs with trace := fs.trace ++ [Event.flagToken i] } with
      | (fs, true) => (fs, true)
      | (fs, false) => scan E (i + 1) rest fs

/-- The bare name of a flag token: `strs[0]` of line 149. -/
def bareName (arg : Str) : Str := (Split arg '=').headD []

/-- The inline values of a flag token: `strs[1:]` of line 176. -/
def inlineValues (arg : Str) : List Str := (Split arg '=').tail

/-- The run of `parse` ended while token `i` or an earlier one was processed: the trace
holds no event of a later token, and the validation pass was not entered. -/
def StoppedAt {V : Type} (i : Nat) (fs : FlagSet V) : Prop :=
  Event.validate ∉ fs.trace ∧ ∀ e ∈ fs.trace, ∀ j, e.tok = some j → j ≤ i

/-- From `fs` to `fs'` the name map and the number of descriptors are kept, and the
trace grows by events of the tokens `lo ≤ j < hi` only. -/
structure Keeps {V : Type} (lo hi : Nat) (fs fs' : FlagSet V) : Prop where
  flags : fs'.flags = fs.flags
  length : fs'.slice.length = fs.slice.length
  trace : ∃ new, fs'.trace = fs.trace ++ new ∧ ∀ e ∈ new, ∃ j, e.tok = some j ∧ lo ≤ j ∧ j < hi

/-- The end of `parse` after the loop: the state as it is when the loop returned, the
validation pass otherwise. -/
def finish {F V : Type} (E : Env F V) (r : FlagSet V × Bool) : FlagSet V :=
  match r with
  | (fs, true) => fs
  | (fs, false) => validate E fs

/-- Every position held by the name map is a position of the ordered list. -/
def Bound {V : Type} (fs : FlagSet V) : Prop :=
  ∀ name k, lookup name fs.flags = some k → k < fs.slice.length

/-- A descriptor that the validation pass reports: required and not assigned, or assigned
and carrying a conversion error. -/
def Reported {V : Type} (fl : flag V) : Prop :=
  (fl.tag.required = true ∧ fl.assigned = false) ∨ (fl.assigned = true ∧ fl.err ≠ none)

/-- From `fs` to `fs'` a descriptor that no setter call of the trace names is left as it
was. -/
def SliceKept {V : Type} (fs fs' : FlagSet V) : Prop :=
  ∀ k, (∀ j raw, Event.set j k raw ∉ fs'.trace) → fs'.slice[k]? = fs.slice[k]?

/-- The names that the descriptors of the fields declare, in the order of line 108: field
by field in declaration order, a descriptor's short names before its long names; an
excluded field declares none. -/
def allNames {F V : Type} (E : Env F V) (fields : List F) : List Str :=
  fields.flatMap (fun f =>
    match (E.newFlag f).1 with
    | some fl => fl.tag.shortNames ++ fl.tag.longNames
    | none => [])

/-- The first name of a sequence that repeats a name before it or one of `seen`. -/
def firstRepeat : List Str → List Str → Option Str
  | _, [] => none
  | seen, n :: ns => if n ∈ seen then some n else firstRepeat (n :: seen) ns

/-- The keys of the name map are the names of `seen`. -/
def KeysAre {V : Type} (fs : FlagSet V) (seen : List Str) : Prop :=
  ∀ n, (lookup n fs.flags).isSome = true ↔ n ∈ seen

/-- Every name of the name map leads to a descriptor of the ordered list that declares
it. -/
def Owns {V : Type} (fs : FlagSet V) : Prop :=
  ∀ n k, lookup n fs.flags = some k →
    ∃ fl, fs.slice[k]? = some fl ∧ n ∈ fl.tag.shortNames ++ fl.tag.longNames

/-- What a `checked` event tells about the name `n`: the outcome of the test and the
string form of the value. -/
def checkedFor (n : Str) : Event → Option (Bool × Str)
  | .checked _ m _ ok s => if m = n then some (ok, s) else none
  | _ => none

/-- The outcome of the test `fl.err == nil` and the string form of the value at the last
occurrence of the name `n` (as the bare name of a found flag token or as `-c` of a
cluster) that got as far as the test. -/
def lastChecked (n : Str) : List Event → Option (Bool × Str)
  | [] => none
  | e :: tr => (lastChecked n tr).or (checkedFor n e)

/-- The `Values` map agrees with the trace: every entry is a list of one string, and a name
whose last occurrence passed the test `fl.err == nil` has as entry the string form the
value had then. -/
def Recorded {V : Type} (fs : FlagSet V) : Prop :=
  (∀ n s, lastChecked n fs.trace = some (true, s) → lookup n fs.Values = some [s]) ∧
  (∀ n vs, lookup n fs.Values = some vs → vs.length = 1)

/-! ## `Parse` and `Usage` (lines 47–83) -/

/-- The target `v` of `Parse` and `Usage` as reflection shows it at lines 49–55 and 72–77:
* the nil interface value: `reflect.TypeOf(v)` is nil, and `typ.Kind()` panics;
* a value that is not nil and whose kind is not `Ptr`;
* a nil pointer, whatever it points to: `reflect.Indirect(val)` is then the zero `Value`,
  and `.Type()` panics on it;
* a pointer that is not nil to a value that is not a struct;
* a pointer that is not nil to a struct, with the fields of the struct in declaration
  order. -/
inductive Target (F : Type) where
  | nilInterface
  | notPointer
  | nilPointer
  | pointerToOther
  | pointerToStruct (fields : List F)

/-- The function `Parse` (lines 47–65); `none` is a panic. -/
def Parse {F V : Type} (E : Env F V) (args : List Str) : Target F → Option (FlagSet V)
  | .nilInterface => none
  | .nilPointer => none
  | .pointerToStruct fields => some (parse E fields args)
  | .pointerToOther =>
    some { newFlagSet V with
      Error := some (.errorf "object pointer does not indirect a struct".toList) }
  | .notPointer =>
    some { newFlagSet V with Error := some (.errorf "type of object is not a pointer".toList) }

/-- The function `Usage` (lines 70–83); `none` is a panic. -/
def Usage {F V : Type} (E : Env F V) : Target F → Option Str
  | .nilInterface => none
  | .nilPointer => none
  | .pointerToStruct fields => some (initFlagSet E fields (newFlagSet V)).Usage
  | .pointerToOther => some []
  | .notPointer => some []

/-- An event with its token index moved up by `d`. -/
def Event.shift (d : Nat) : Event → Event
  | .flagToken i => .flagToken (i + d)
  | .set i k raw => .set (i + d) k raw
  | .checked i n k ok s => .checked (i + d) n k ok s
  | .validate => .validate

/-- A state with the token indices of its trace moved up by `d`; nothing else differs. -/
def FlagSet.shift {V : Type} (d : Nat) (fs : FlagSet V) : FlagSet V :=
  { fs with trace := fs.trace.map (Event.shift d) }

/-- All the setter calls of a trace, in order: the position of the descriptor and the
text passed. -/
def allCalls : List Event → List (Nat × Str)
  | [] => []
  | .set _ k raw :: tr => (k, raw) :: allCalls tr
  | _ :: tr => allCalls tr

/-- What a setter call of the trace was given, read against the token list: the call was
made for a token `arg` that begins with `dashOne`, and the text passed is empty or the one
element of `strs[1:]` followed by the collected values (line 176). -/
def SetOK (args : List Str) : Event → Prop
  | .set j _ raw =>
    ∃ arg, args[j]? = some arg ∧ HasPrefix arg dashOne = true ∧
      (raw = [] ∨ inlineValues arg ++ collect args j = [raw])
  | _ => True

/-- The loop over the fields (lines 91–119) once more, with a ghost beside its result: the
fields for which `newFlag` was called (line 94), in order.  The result itself is that of
`initFields` (`initFieldsCalls_fst`). -/
def initFieldsCalls {F V : Type} (E : Env F V) :
    List F → FlagSet V → (FlagSet V × Bool) × List F
  | [], fs => ((fs, false), [])
  | f :: fields, fs =>
    let r := E.newFlag f
    let fs := { fs with Error := r.2.map GoError.returned }
    if r.2.isSome then ((fs, true), [f])
    else
      match r.1 with
      | none => ((initFieldsCalls E fields fs).1, f :: (initFieldsCalls E fields fs).2)
      | some fl =>
        let k := fs.slice.length
        let fs := { fs with slice := fs.slice ++ [fl] }
        let value := if fl.assigned then E.sprintV fl.v else []
        match addNames fl k value (fl.tag.shortNames ++ fl.tag.longNames) fs with
        | (fs, true) => ((fs, true), [f])
        | (fs, false) => ((initFieldsCalls E fields fs).1, f :: (initFieldsCalls E fields fs).2)

/-- The `Values` map as lines 104–117 build it: the entry of a name is read off the
descriptor the name leads to, a list of the one string form of its value when the
descriptor is assigned, and no entry otherwise. -/
def ValuesBuilt {F V : Type} (E : Env F V) (fs : FlagSet V) : Prop :=
  ∀ n, lookup n fs.Values =
    (lookup n fs.flags).bind (fun k =>
      (fs.slice[k]?).bind (fun fl => if fl.assigned then some [E.sprintV fl.v] else none))

/-- Every name that a descriptor of the ordered list declares leads to the position of
that descriptor. -/
def Full {V : Type} (fs : FlagSet V) : Prop :=
  ∀ k fl, fs.slice[k]? = some fl →
    ∀ n ∈ fl.tag.shortNames ++ fl.tag.longNames, lookup n fs.flags = some k

/-- The indices of the tokens the scanner processed as flag tokens, in the order of the
trace. -/
def flagTokens : List Event → List Nat
  | [] => []
  | .flagToken i :: tr => i :: flagTokens tr
  | _ :: tr => flagTokens tr

/-- The indices of the tokens of `rest` that begin with `dashOne`, in order, `i` being the
index of the first token of `rest`. -/
def dashIndices : Nat → List Str → List Nat
  | _, [] => []
  | i, a :: rest =>
    if HasPrefix a dashOne then i :: dashIndices (i + 1) rest else dashIndices (i + 1) rest

/-- A setter call made outside the cluster loop (lines 178, 180): a call made while a token
was processed whose bare name is registered.  The calls of the cluster loop (line 165) are
made for tokens whose bare name is not registered. -/
def isFoundCall (flags : List (Str × Nat)) (args : List Str) : Event → Bool
  | .set i _ _ =>
    match args[i]? with
    | some a => (lookup (bareName a) flags).isSome
    | none => false
  | _ => false

/-- The setter calls of a trace made outside the cluster loop. -/
def foundCalls (flags : List (Str × Nat)) (args : List Str) (tr : List Event) : List Event :=
  tr.filter (isFoundCall flags args)

/-! ## `fmt.Errorf` of a format without operands

Line 208 hands the buffer to `fmt.Errorf` as the format and gives no operand.  The
definitions below are `(*pp).doPrintf` of Go's package `fmt` for that case: `len(a)` is 0,
so `argNum` stays 0 and no operand is ever formatted.  The index `i` of the source counts
the bytes read; here the bytes that remain are carried instead. -/

/-- The flags of a verb, read by the loop `simpleFormat`: `#`, `0`, `+`, `-` and the
blank. -/
def isFmtFlag (c : Char) : Bool := c == '#' || c == '0' || c == '+' || c == '-' || c == ' '

/-- The test `tooLarge` of package `fmt` (`max = 1e6`) on a number that is not negative. -/
def tooLarge (x : Nat) : Bool := decide (1000000 < x)

/-- The loop of `parsenum`: the number read so far, whether a digit was read, and the
bytes from `newi` on.  On overflow `parsenum` returns `newi = end`: nothing remains. -/
def parsenumLoop : Str → Nat → Bool → Nat × Bool × Str
  | [], num, isnum => (num, isnum, [])
  | c :: s, num, isnum =>
    if '0' ≤ c ∧ c ≤ '9' then
      if tooLarge num then (0, false, [])
      else parsenumLoop s (num * 10 + (c.toNat - '0'.toNat)) true
    else (num, isnum, c :: s)

/-- The function `parsenum(s, start, end)` of package `fmt` on the bytes `s[start:end]`. -/
def parsenum (s : Str) : Nat × Bool × Str := parsenumLoop s 0 false

/-- The function `parseArgNumber(format)` of package `fmt`, `format` beginning with `[`:
the index, the number of bytes to step over, and whether the bytes are `[n]` for a
number `n`. -/
def parseArgNumber (format : Str) : Int × Nat × Bool :=
  if format.length < 3 then (0, 1, false)
  else
    let inner := format.tail.takeWhile (fun c => c != ']')
    if inner.length + 1 < format.length then
      match parsenum inner with
      | (width, ok, rest) =>
        if !ok || !rest.isEmpty then (0, inner.length + 2, false)
        else ((width : Int) - 1, inner.length + 2, true)
    else (0, 1, false)

/-- The method `argNumber` of `pp` with `numArgs = 0`: the bytes that remain, `found`, and
`p.goodArgNum` (given as `good` before the call). -/
def argNumber (s : Str) (good : Bool) : Str × Bool × Bool :=
  match s with
  | '[' :: _ =>
    match parseArgNumber s with
    | (index, wid, ok) =>
      if ok && decide (0 ≤ index) && decide (index < 0) then (s.drop wid, true, good)
      else (s.drop wid, ok, false)
  | _ => (s, false, good)

/-- The bytes of `utf8.RuneError` (U+FFFD) in UTF-8. -/
def runeErrorBytes : Str := [Char.ofNat 0xEF, Char.ofNat 0xBF, Char.ofNat 0xBD]

/-- The verb at the head of `s` as `doPrintf` reads it (`utf8.DecodeRuneInString` for a
byte from `0x80` on): the bytes that `writeRune(verb)` appends, and `size`.  A rune that
decodes is written back as the bytes it was read from; bytes that do not decode give
`RuneError` and size 1. -/
def decodeVerb (s : Str) : Str × Nat :=
  match s with
  | [] => ([], 0)
  | c0 :: t =>
    if c0.toNat < 0x80 then ([c0], 1)
    else if c0.toNat < 0xC2 ∨ 0xF4 < c0.toNat then (runeErrorBytes, 1)
    else
      let sz := if c0.toNat < 0xE0 then 2 else if c0.toNat < 0xF0 then 3 else 4
      let lo := if c0.toNat = 0xE0 then 0xA0 else if c0.toNat = 0xF0 then 0x90 else 0x80
      let hi := if c0.toNat = 0xED then 0x9F else if c0.toNat = 0xF4 then 0x8F else 0xBF
      if s.length < sz then (runeErrorBytes, 1)
      else
        match t with
        | [] => (runeErrorBytes, 1)
        | c1 :: t1 =>
          if c1.toNat < lo ∨ hi < c1.toNat then (runeErrorBytes, 1)
          else if sz ≤ 2 then ([c0, c1], 2)
          else
            match t1 with
            | [] => (runeErrorBytes, 1)
            | c2 :: t2 =>
              if c2.toNat < 0x80 ∨ 0xBF < c2.toNat then (runeErrorBytes, 1)
              else if sz ≤ 3 then ([c0, c1, c2], 3)
              else
                match t2 with
                | [] => (runeErrorBytes, 1)
                | c3 :: _ =>
                  if c3.toNat < 0x80 ∨ 0xBF < c3.toNat then (runeErrorBytes, 1)
                  else ([c0, c1, c2, c3], 4)

/-- "Do we have width?": the text written, the bytes that remain, `afterIndex`,
`p.goodArgNum`.  With no operand `*` finds no width and `badWidthString` is written. -/
def widthStep (s : Str) (afterIndex good : Bool) : Str × Str × Bool × Bool :=
  match s with
  | '*' :: s' => ("%!(BADWIDTH)".toList, s', false, good)
  | _ =>
    match parsenum s with
    | (_, widPresent, rest) => ([], rest, afterIndex, if afterIndex && widPresent then false else good)

/-- "Do we have precision?" (`if i+1 < end && format[i] == '.'`: a `.` counts only when
a byte follows it): as `widthStep`; `*` writes `badPrecString`.  A `.` that ends the format
is left to be read as the verb. -/
def precStep (s : Str) (afterIndex good : Bool) : Str × Str × Bool × Bool :=
  match s with
  | '.' :: c :: s' =>
    match argNumber (c :: s') (if afterIndex then false else good) with
    | (s1, afterIndex, good) =>
      match s1 with
      | '*' :: s2 => ("%!(BADPREC)".toList, s2, false, good)
      | _ =>
        match parsenum s1 with
        | (_, _, rest) => ([], rest, afterIndex, good)
  | _ => ([], s, afterIndex, good)

/-- One verb ("Process one verb"), `s` being the bytes after the `%`: the text written
and the bytes that remain, or none when the format ended (`noVerbString`, `break`).  With
no operand a verb other than `%` writes `%!verb(BADINDEX)` or `%!verb(MISSING)`. -/
def verbStep (s : Str) : Str × Option Str :=
  match argNumber (s.dropWhile isFmtFlag) true with
  | (s1, afterIndex, good) =>
    match widthStep s1 afterIndex good with
    | (w1, s2, afterIndex, good) =>
      match precStep s2 afterIndex good with
      | (w2, s3, afterIndex, good) =>
        match (if !afterIndex then argNumber s3 good else (s3, afterIndex, good)) with
        | (s4, _, good) =>
          match s4 with
          | [] => (w1 ++ w2 ++ "%!(NOVERB)".toList, none)
          | c :: _ =>
            if c = '%' then (w1 ++ w2 ++ ['%'], some (s4.drop (decodeVerb s4).2))
            else if !good then
              (w1 ++ w2 ++ "%!".toList ++ (decodeVerb s4).1 ++ "(BADINDEX)".toList,
                some (s4.drop (decodeVerb s4).2))
            else
              (w1 ++ w2 ++ "%!".toList ++ (decodeVerb s4).1 ++ "(MISSING)".toList,
                some (s4.drop (decodeVerb s4).2))

/-- The loop `formatLoop` of `doPrintf` on the bytes `s` that remain: the text up to the
next `%` is copied, then one verb is processed.  `fuel` bounds the iterations; each reads
at least one byte, so `len(s) + 1` of them are never used up (`doPrintf_isSome`). -/
def doPrintf : Nat → Str → Option Str
  | 0, _ => none
  | fuel + 1, s =>
    match s.dropWhile (fun c => c != '%') with
    | [] => some (s.takeWhile (fun c => c != '%'))
    | _ :: s' =>
      match verbStep s' with
      | (out, none) => some (s.takeWhile (fun c => c != '%') ++ out)
      | (out, some rest) =>
        (doPrintf fuel rest).map (fun tail => s.takeWhile (fun c => c != '%') ++ out ++ tail)

/-- The text of `fmt.Errorf(format)`, a call without operands. -/
def Errorf0 (format : Str) : Str := (doPrintf (format.length + 1) format).getD []

/-- The lines that §4.3 (step 5) of the specification appends for one descriptor: the
"required argument missing" line when it is required and not assigned, the "assigned
argument invalid" line when it is assigned and carries a conversion error. -/
def specLinesOf {F V : Type} (E : Env F V) (fl : flag V) : List Str :=
  (if fl.tag.required && !fl.assigned then [requiredLine E fl] else []) ++
    (match fl.err with
      | some cause => if fl.assigned then [invalidLine E fl cause] else []
      | none => [])

/-- The lines of the specification for the descriptors of the ordered list, in its
order. -/
def specLines {F V : Type} (E : Env F V) (fls : List (flag V)) : List Str :=
  fls.flatMap (specLinesOf E)

/-- Lines joined by a single newline: none before the first line, none after the last. -/
def joinLines : List Str → Str
  | [] => []
  | [l] => l
  | l :: m :: ls => l ++ '\n' :: joinLines (m :: ls)

/-- The state in which `parse` processes the token at index `i` as a flag token, when the
run gets that far: the state in which the loop left the tokens before `i`, with the ghost
event of token `i` added. -/
def stateAt {F V : Type} (E : Env F V) (fields : List F) (args : List Str) (i : Nat) :
    FlagSet V :=
  { (scan E 0 (args.take i) (initFlagSet E fields (newFlagSet V))).1 with
    trace := (scan E 0 (args.take i) (initFlagSet E fields (newFlagSet V))).1.trace
      ++ [Event.flagToken i] }

/-- The descriptors after the setters of the positions `ks` were called one after the
other with the empty text, the descriptor each call returned being stored at its
position. -/
def setEach {F V : Type} (E : Env F V) : List Nat → List (flag V) → List (flag V)
  | [], sl => sl
  | k :: ks, sl =>
    match sl[k]? with
    | none => setEach E ks sl
    | some fl => setEach E ks (sl.set k (E.set fl []).1)

/-- The flag token `u` names `n`: its bare name is `n`, or `n` is `-c` for a byte `c` of
its bare name after the `-` (as it is for a member of a cluster).  A token that does not
name `n` cannot write `Values[n]` (lines 169, 188). -/
def mentions (n u : Str) : Bool :=
  bareName u == n || (TrimPrefix (bareName u) dashOne).any (fun c => dashOne ++ [c] == n)

/-! ## An environment for the examples -/

/-- Modelled from the spec: the stored value of a field of one of the built-in kinds of
§4.4 that the examples use (boolean, integer, string). -/
inductive Val where
  | bool (b : Bool)
  | int (n : Int)
  | str (s : Str)
  deriving DecidableEq, Repr

/-- Modelled from the spec: a struct field with its annotation already read (§4.1, §6):
the names, `required`, the default literal, the slot's value, and the ignore marker. -/
structure Field where
  shortNames : List Str
  longNames : List Str
  required : Bool
  dft : Option Str
  slot : Val
  ignored : Bool
  deriving DecidableEq, Repr

/-- The value of a run of decimal digits. -/
def parseDigits : Str → Option Nat
  | [] => none
  | cs => cs.foldl (fun acc c =>
      match acc with
      | some n => if c.isDigit then some (10 * n + (c.toNat - 48)) else none
      | none => none) (some 0)

/-- Modelled from the spec: the conversion of the built-in kinds (§4.4); the empty text
means "flag present without value", which a boolean reads as `true`. -/
def convert : Val → Str → Option Val
  | .bool _, raw =>
    if raw = [] ∨ raw = "true".toList then some (.bool true)
    else if raw = "false".toList then some (.bool false) else none
  | .int _, '-' :: raw => (parseDigits raw).map (fun n => .int (-(n : Int)))
  | .int _, raw => (parseDigits raw).map (fun n => .int n)
  | .str _, raw => some (.str raw)

/-- Modelled from the spec: the setter `(*flag).set`, absent from src/.  §4.3: "On success,
mark `assigned=true` ...; on setter failure, record the conversion error on the descriptor
but do not abort the overall scan": the conversion error goes to `err`, and no error is
returned. -/
def specSet (fl : flag Val) (raw : Str) : flag Val × Option Str :=
  match convert fl.v raw with
  | some v => ({ fl with v := v, assigned := true, err := none }, none)
  | none =>
    ({ fl with assigned := true, err := some ("cannot convert `".toList ++ raw ++ "`".toList) },
      none)

/-- Modelled from the spec: `newFlag`, absent from src/ (§4.1): an ignored field yields no
descriptor; a default is applied through the setter at once and marks the descriptor
assigned; a default that does not convert is the field's error. -/
def specNewFlag (f : Field) : Option (flag Val) × Option Str :=
  if f.ignored then (none, none)
  else
    let fl : flag Val :=
      { tag := { shortNames := f.shortNames, longNames := f.longNames, required := f.required }
        v := f.slot, assigned := false, err := none }
    match f.dft with
    | none => (some fl, none)
    | some d =>
      match (specSet fl d).1.err with
      | none => (some (specSet fl d).1, none)
      | some e => (none, some e)

/-- Modelled from the spec: `fmt.Sprintf("%v", v)` for the built-in kinds. -/
def specSprint : Val → Str
  | .bool b => if b then "true".toList else "false".toList
  | .int n => (toString n).toList
  | .str s => s

/-- Modelled from the spec: `fl.name()`, absent from src/: the first long name, else the
first short name. -/
def specName (fl : flag Val) : Str :=
  match fl.tag.longNames, fl.tag.shortNames with
  | n :: _, _ => n
  | [], n :: _ => n
  | [], [] => []

/-- Modelled from the spec: `flagSlice.String()`, absent from src/ (§4.2): one line per
descriptor in declaration order, holding its names. -/
def specUsage (fls : List (flag Val)) : Str :=
  (fls.map (fun fl => " ".toList.intercalate (fl.tag.shortNames ++ fl.tag.longNames) ++ ['\n'])).flatten

/-- The environment of the examples: the parts above, `red` without colour, and
`fmt.Errorf` of a text that holds no `%` (the text itself). -/
def specEnv : Env Field Val :=
  { newFlag := specNewFlag, set := specSet, sprintV := specSprint, name := specName,
    red := fun s => s, usage := specUsage, errorf0 := fun s => s }

/-- An integer field `--count`, also `-n`. -/
def countField : Field :=
  { shortNames := ["-n".toList], longNames := ["--count".toList], required := false,
    dft := none, slot := .int 0, ignored := false }

/-- A string field `--name` that also claims the short name `-n`. -/
def nameField : Field :=
  { shortNames := ["-n".toList], longNames := ["--name".toList], required := false,
    dft := none, slot := .str [], ignored := false }

/-- A field carrying the ignore marker. -/
def ignoredField : Field :=
  { shortNames := [], longNames := [], required := false,
    dft := none, slot := .str [], ignored := true }

/-- A required integer field `--port`. -/
def portField : Field :=
  { shortNames := [], longNames := ["--port".toList], required := true,
    dft := none, slot := .int 0, ignored := false }

/-- A boolean field with the one short name `-c`. -/
def boolField (c : Char) : Field :=
  { shortNames := [['-', c]], longNames := [], required := false,
    dft := none, slot := .bool false, ignored := false }

/-- An integer field with the names `-n` and `--num` and the default `7`. -/
def numField : Field :=
  { shortNames := ["-n".toList], longNames := ["--num".toList], required := false,
    dft := some "7".toList, slot := .int 0, ignored := false }

/-- An integer field `--bad` whose default `x` does not convert. -/
def badField : Field :=
  { shortNames := [], longNames := ["--bad".toList], required := false,
    dft := some "x".toList, slot := .int 0, ignored := false }

/-- The environment of the examples with `fmt.Errorf` as package `fmt` renders a format
without operands. -/
def fmtEnv : Env Field Val :=
  { newFlag := specNewFlag, set := specSet, sprintV := specSprint, name := specName,
    red := fun s => s, usage := specUsage, errorf0 := Errorf0 }

/-- Modelled from the spec: a setter of the contract `set(raw string) -> error` of §4.4
that, unlike `specSet`, hands the conversion error it records back to its caller as well:
the case for which lines 165–167 and 184–186 return. -/
def strictSet (fl : flag Val) (raw : Str) : flag Val × Option Str :=
  ((specSet fl raw).1, (specSet fl raw).1.err)

/-- The environment of the examples with the setter `strictSet`. -/
def strictEnv : Env Field Val :=
  { newFlag := specNewFlag, set := strictSet, sprintV := specSprint, name := specName,
    red := fun s => s, usage := specUsage, errorf0 := Errorf0 }

/-- An integer field with the one short name `-c`. -/
def shortInt (c : Char) : Field :=
  { shortNames := [['-', c]], longNames := [], required := false,
    dft := none, slot := .int 0, ignored := false }

/-- A required integer field whose long name `--p%d` holds a `%`. -/
def pctField : Field :=
  { shortNames := [], longNames := ["--p%d".toList], required := true,
    dft := none, slot := .int 0, ignored := false }

/-! ## Maps -/

theorem lookup_insert_self {α : Type} (k : Str) (a : α) (m : List (Str × α)) :
    lookup k (insert k a m) = some a := by
  induction m with
  | nil => simp [insert, lookup]
  | cons p m ih =>
    obtain ⟨k', a'⟩ := p
    by_cases h : k' = k <;> simp [insert, lookup, h, ih]

theorem lookup_insert_ne {α : Type} (k k' : Str) (a : α) (m : List (Str × α)) (h : k' ≠ k) :
    lookup k' (insert k a m) = lookup k' m := by
  induction m with
  | nil => simp [insert, lookup, h.symm]
  | cons p m ih =>
    obtain ⟨k0, a0⟩ := p
    by_cases h0 : k0 = k
    · subst h0
      have : ¬ k0 = k' := fun e => h e.symm
      simp [insert, lookup, this]
    · by_cases h1 : k0 = k'
      · subst h1
        simp [insert, lookup, h0]
      · simp [insert, lookup, h0, h1, ih]

/-! ## `Split` -/

theorem Split_ne_nil (s : Str) (sep : Char) : Split s sep ≠ [] := by
  cases s with
  | nil => simp [Split]
  | cons c cs =>
    unfold Split
    split
    · simp
    · split <;> simp

theorem Split_of_not_mem (s : Str) (sep : Char) (h : sep ∉ s) : Split s sep = [s] := by
  induction s with
  | nil => rfl
  | cons c cs ih =>
    have hc : ¬ c = sep := fun e => h (by simp [e])
    have hcs : sep ∉ cs := fun e => h (by simp [e])
    simp [Split, hc, ih hcs]

theorem Split_length (s : Str) (sep : Char) : (Split s sep).length = s.count sep + 1 := by
  induction s with
  | nil => rfl
  | cons c cs ih =>
    by_cases hc : c = sep
    · subst hc
      simp [Split, ih]
    · have hne : Split cs sep ≠ [] := Split_ne_nil cs sep
      have hb : (c == sep) = false := by simpa using hc
      unfold Split
      simp only [hc, if_false]
      cases hs : Split cs sep with
      | nil => exact absurd hs hne
      | cons p ps =>
        rw [hs] at ih
        simp [List.count_cons, hb] at ih ⊢
        omega

/-! ## What one step leaves alone -/

section Steps

variable {F V : Type} (E : Env F V)

theorem Keeps.refl (lo hi : Nat) (fs : FlagSet V) : Keeps lo hi fs fs :=
  ⟨rfl, rfl, [], by simp, by simp⟩

theorem Keeps.mono {lo hi lo' hi' : Nat} {a b : FlagSet V} (h : Keeps lo hi a b)
    (hlo : lo' ≤ lo) (hhi : hi ≤ hi') : Keeps lo' hi' a b := by
  obtain ⟨f1, l1, n1, t1, e1⟩ := h
  refine ⟨f1, l1, n1, t1, ?_⟩
  intro e he
  obtain ⟨j, hj, h1, h2⟩ := e1 e he
  exact ⟨j, hj, le_trans hlo h1, lt_of_lt_of_le h2 hhi⟩

theorem Keeps.trans {lo hi : Nat} {a b c : FlagSet V} (h1 : Keeps lo hi a b)
    (h2 : Keeps lo hi b c) : Keeps lo hi a c := by
  obtain ⟨f1, l1, n1, t1, e1⟩ := h1
  obtain ⟨f2, l2, n2, t2, e2⟩ := h2
  refine ⟨f2.trans f1, l2.trans l1, n1 ++ n2, by simp [t2, t1], ?_⟩
  intro e he
  rcases List.mem_append.mp he with h | h
  · exact e1 e h
  · exact e2 e h

theorem Keeps.of_event (i : Nat) (fs : FlagSet V) (e : Event) (he : e.tok = some i) :
    Keeps i (i + 1) fs { fs with trace := fs.trace ++ [e] } := by
  refine ⟨rfl, rfl, [e], rfl, ?_⟩
  intro e' he'
  simp at he'
  exact ⟨i, by simp [he', he], le_refl i, Nat.lt_succ_self i⟩

theorem Keeps.of_error (lo hi : Nat) (fs : FlagSet V) (err : Option GoError) :
    Keeps lo hi fs { fs with Error := err } :=
  ⟨rfl, rfl, [], by simp, by simp⟩

theorem callSet_keeps (i k : Nat) (raw : Str) (fs : FlagSet V) :
    Keeps i (i + 1) fs (callSet E i k raw fs) := by
  unfold callSet
  split
  · exact Keeps.refl _ _ fs
  · refine ⟨rfl, by simp, [Event.set i k raw], rfl, ?_⟩
    intro e he
    simp at he
    exact ⟨i, by simp [he, Event.tok], le_refl i, Nat.lt_succ_self i⟩

theorem recordValue_keeps (i : Nat) (name : Str) (k : Nat) (fs : FlagSet V) :
    Keeps i (i + 1) fs (recordValue E i name k fs) := by
  unfold recordValue
  split
  · exact Keeps.refl _ _ fs
  · split
    · refine ⟨rfl, rfl, [_], rfl, ?_⟩
      intro e he
      simp at he
      exact ⟨i, by simp [he, Event.tok], le_refl i, Nat.lt_succ_self i⟩
    · refine ⟨rfl, rfl, [_], rfl, ?_⟩
      intro e he
      simp at he
      exact ⟨i, by simp [he, Event.tok], le_refl i, Nat.lt_succ_self i⟩

theorem cluster_keeps (i : Nat) (chars : List Char) (fs : FlagSet V) :
    Keeps i (i + 1) fs (cluster E i chars fs).1 := by
  induction chars generalizing fs with
  | nil => exact Keeps.refl _ _ fs
  | cons c chars ih =>
    unfold cluster
    simp only
    split
    · exact Keeps.of_error _ _ fs _
    · rename_i k hk
      split
      · exact callSet_keeps E i k [] fs
      · exact (callSet_keeps E i k [] fs).trans
          ((recordValue_keeps E i _ k _).trans (ih _))

theorem flagArg_keeps (i : Nat) (arg : Str) (values : List Str) (fs : FlagSet V) :
    Keeps i (i + 1) fs (flagArg E i arg values fs).1 := by
  unfold flagArg
  split
  · exact Keeps.refl _ _ fs
  · rename_i arg0 inline hs
    split
    · split
      · exact Keeps.of_error _ _ fs _
      · exact cluster_keeps E i _ fs
    · rename_i k hk
      have h1 : Keeps i (i + 1) fs
          (match inline ++ values with
            | [] => callSet E i k [] fs
            | [v] => callSet E i k v fs
            | _ => { fs with Error := some (.errorf (tooManyText (inline ++ values).length arg0)) }) := by
        split
        · exact callSet_keeps E i k [] fs
        · exact callSet_keeps E i k _ fs
        · exact Keeps.of_error _ _ fs _
      simp only
      split
      · exact h1
      · exact h1.trans (recordValue_keeps E i _ k _)

theorem scan_keeps (i : Nat) (rest : List Str) (fs : FlagSet V) :
    Keeps i (i + rest.length) fs (scan E i rest fs).1 := by
  induction rest generalizing i fs with
  | nil => exact Keeps.refl _ _ fs
  | cons arg rest ih =>
    have hlen : i + (arg :: rest).length = i + 1 + rest.length := by simp; omega
    rw [hlen]
    unfold scan
    split
    · exact (ih (i + 1) fs).mono (Nat.le_succ i) (le_refl _)
    · have h0 : Keeps i (i + 1 + rest.length) fs { fs with trace := fs.trace ++ [Event.flagToken i] } :=
        (Keeps.of_event i fs (Event.flagToken i) rfl).mono (le_refl i) (by omega)
      have h1 := flagArg_keeps E i arg (rest.takeWhile noDash)
        { fs with trace := fs.trace ++ [Event.flagToken i] }
      split
      · rename_i fs' hfa
        rw [hfa] at h1
        exact h0.trans (h1.mono (le_refl i) (by omega))
      · rename_i fs' hfa
        rw [hfa] at h1
        exact h0.trans ((h1.mono (le_refl i) (by omega)).trans
          ((ih (i + 1) fs').mono (Nat.le_succ i) (le_refl _)))

/-! ### The error slot at the head of the loop -/

theorem recordValue_Error (i : Nat) (name : Str) (k : Nat) (fs : FlagSet V) :
    (recordValue E i name k fs).Error = fs.Error := by
  unfold recordValue
  split
  · rfl
  · split <;> rfl

theorem cluster_Error (i : Nat) (chars : List Char) (fs : FlagSet V) (h : fs.Error = none) :
    (cluster E i chars fs).2 = (cluster E i chars fs).1.Error.isSome := by
  induction chars generalizing fs with
  | nil => simp [cluster, h]
  | cons c chars ih =>
    unfold cluster
    simp only
    split
    · simp
    · rename_i k hk
      split
      · rename_i he
        simp [he]
      · rename_i he
        apply ih
        rw [recordValue_Error]
        simpa using he

theorem flagArg_Error (i : Nat) (arg : Str) (values : List Str) (fs : FlagSet V)
    (h : fs.Error = none) :
    (flagArg E i arg values fs).2 = (flagArg E i arg values fs).1.Error.isSome := by
  unfold flagArg
  split
  · simp [h]
  · split
    · split
      · simp
      · exact cluster_Error E i _ fs h
    · simp only
      split
      · rename_i he
        exact he.symm
      · rename_i he
        rw [recordValue_Error]
        exact (Bool.eq_false_iff.mpr he).symm

/-- The loop returns early exactly when it leaves an error; it is entered, and goes from
one token to the next, with the error slot empty. -/
theorem scan_Error (i : Nat) (rest : List Str) (fs : FlagSet V) (h : fs.Error = none) :
    (scan E i rest fs).2 = (scan E i rest fs).1.Error.isSome := by
  induction rest generalizing i fs with
  | nil => simp [scan, h]
  | cons arg rest ih =>
    unfold scan
    split
    · exact ih (i + 1) fs h
    · have h1 := flagArg_Error E i arg (rest.takeWhile noDash)
        { fs with trace := fs.trace ++ [Event.flagToken i] } h
      split
      · rename_i fs' hfa
        rw [hfa] at h1
        simpa using h1
      · rename_i fs' hfa
        rw [hfa] at h1
        apply ih
        simpa using h1.symm

end Steps

/-! ## The loop with an index and the recursion on the tokens agree -/

section Loop

variable {F V : Type} (E : Env F V)

theorem scan_skip (i : Nat) (rest : List Str) (fs : FlagSet V) :
    scan E i rest fs
      = scan E (i + (rest.takeWhile noDash).length) (rest.drop (rest.takeWhile noDash).length) fs := by
  induction rest generalizing i with
  | nil => simp
  | cons a rest ih =>
    by_cases h : noDash a = true
    · have h' : (!HasPrefix a dashOne) = true := h
      rw [List.takeWhile_cons_of_pos h]
      simp only [List.length_cons, List.drop_succ_cons]
      rw [scan.eq_2, if_pos h', ih (i + 1)]
      congr 1
      omega
    · rw [List.takeWhile_cons_of_neg h]
      simp

/-- The index loop never runs out of fuel when it starts with at least `size - i`, and
computes what the recursion on the remaining tokens computes. -/
theorem scanLoop_eq_scan (args : List Str) (fuel i : Nat) (fs : FlagSet V)
    (h : args.length - i ≤ fuel) :
    scanLoop E args fuel i fs = scan E i (args.drop i) fs := by
  induction fuel generalizing i fs with
  | zero =>
    have : args.length ≤ i := by omega
    simp [scanLoop, List.drop_eq_nil_of_le this, scan]
  | succ fuel ih =>
    unfold scanLoop
    cases hget : args[i]? with
    | none =>
      have : args.length ≤ i := by simpa using hget
      simp [List.drop_eq_nil_of_le this, scan]
    | some arg =>
      have hi : i < args.length := by
        by_contra hc
        have : args[i]? = none := by simp; omega
        simp [this] at hget
      have harg : args[i] = arg := by
        have := List.getElem?_eq_getElem hi
        rw [this] at hget
        exact Option.some.inj hget
      have hdrop : args.drop i = arg :: args.drop (i + 1) := by
        rw [← harg]
        exact List.drop_eq_getElem_cons hi
      simp only
      rw [hdrop, scan.eq_2]
      by_cases hd : (!HasPrefix arg dashOne) = true
      · rw [if_pos hd, if_pos hd]
        exact ih (i + 1) fs (by omega)
      · rw [if_neg hd, if_neg hd]
        have hc : collect args i = (args.drop (i + 1)).takeWhile noDash := rfl
        rw [hc]
        split
        · rfl
        · rename_i fs' hfa
          rw [ih _ fs' (by omega), scan_skip E (i + 1) (args.drop (i + 1)) fs']
          simp only [List.drop_drop]
          congr 1
          · omega
          · congr 1
            omega

end Loop

/-! ## The registry that `initFlagSet` builds holds positions of the ordered list -/

section Registry

variable {F V : Type} (E : Env F V)

theorem addNames_slice (fl : flag V) (k : Nat) (value : Str) (names : List Str)
    (fs : FlagSet V) : (addNames fl k value names fs).1.slice = fs.slice := by
  induction names generalizing fs with
  | nil => rfl
  | cons name names ih =>
    unfold addNames
    split
    · rfl
    · rw [ih]

theorem addNames_trace (fl : flag V) (k : Nat) (value : Str) (names : List Str)
    (fs : FlagSet V) : (addNames fl k value names fs).1.trace = fs.trace := by
  induction names generalizing fs with
  | nil => rfl
  | cons name names ih =>
    unfold addNames
    split
    · rfl
    · rw [ih]

theorem addNames_Bound (fl : flag V) (k : Nat) (value : Str) (names : List Str)
    (fs : FlagSet V) (hk : k < fs.slice.length) (h : Bound fs) :
    Bound (addNames fl k value names fs).1 := by
  induction names generalizing fs with
  | nil => exact h
  | cons name names ih =>
    unfold addNames
    split
    · exact h
    · apply ih
      · exact hk
      · intro n k' hn
        by_cases hnn : n = name
        · subst hnn
          simp only [lookup_insert_self] at hn
          have : k = k' := Option.some.inj hn
          subst this
          exact hk
        · simp only [lookup_insert_ne name n k fs.flags hnn] at hn
          exact h n k' hn

theorem initFields_trace (fields : List F) (fs : FlagSet V) :
    (initFields E fields fs).1.trace = fs.trace := by
  induction fields generalizing fs with
  | nil => rfl
  | cons f fields ih =>
    unfold initFields
    simp only
    split
    · rfl
    · split
      · rw [ih]
      · rename_i fl hfl
        split
        · rename_i fs' hadd
          have := addNames_trace fl fs.slice.length
            (if fl.assigned then E.sprintV fl.v else []) (fl.tag.shortNames ++ fl.tag.longNames)
            { fs with Error := (E.newFlag f).2.map GoError.returned, slice := fs.slice ++ [fl] }
          rw [hadd] at this
          exact this
        · rename_i fs' hadd
          have := addNames_trace fl fs.slice.length
            (if fl.assigned then E.sprintV fl.v else []) (fl.tag.shortNames ++ fl.tag.longNames)
            { fs with Error := (E.newFlag f).2.map GoError.returned, slice := fs.slice ++ [fl] }
          rw [hadd] at this
          rw [ih, this]

theorem initFields_Bound (fields : List F) (fs : FlagSet V) (h : Bound fs) :
    Bound (initFields E fields fs).1 := by
  induction fields generalizing fs with
  | nil => exact h
  | cons f fields ih =>
    unfold initFields
    simp only
    split
    · exact h
    · split
      · exact ih _ h
      · rename_i fl hfl
        have hb : Bound (addNames fl fs.slice.length
            (if fl.assigned then E.sprintV fl.v else []) (fl.tag.shortNames ++ fl.tag.longNames)
            { fs with Error := (E.newFlag f).2.map GoError.returned, slice := fs.slice ++ [fl] }).1 := by
          apply addNames_Bound
          · simp
          · intro n k hn
            have := h n k hn
            simp only [List.length_append, List.length_singleton]
            omega
        split
        · rename_i fs' hadd
          rw [hadd] at hb
          exact hb
        · rename_i fs' hadd
          rw [hadd] at hb
          exact ih _ hb

theorem initFlagSet_trace (fields : List F) (fs : FlagSet V) :
    (initFlagSet E fields fs).trace = fs.trace := by
  have := initFields_trace E fields fs
  unfold initFlagSet
  split
  · rename_i fs' h
    rw [h] at this
    exact this
  · rename_i fs' h
    rw [h] at this
    exact this

theorem initFlagSet_Bound (fields : List F) (fs : FlagSet V) (h : Bound fs) :
    Bound (initFlagSet E fields fs) := by
  have := initFields_Bound E fields fs h
  unfold initFlagSet
  split
  · rename_i fs' h
    rw [h] at this
    exact this
  · rename_i fs' h
    rw [h] at this
    exact this

theorem newFlagSet_Bound : Bound (newFlagSet V) := by
  intro n k h
  simp [newFlagSet, lookup] at h

/-- The function `parse` in terms of the recursion on the tokens. -/
theorem parse_eq (fields : List F) (args : List Str) :
    parse E fields args =
      if (initFlagSet E fields (newFlagSet V)).Error.isSome then
        initFlagSet E fields (newFlagSet V)
      else finish E (scan E 0 args (initFlagSet E fields (newFlagSet V))) := by
  unfold parse
  simp only
  split
  · rfl
  · rw [scanLoop_eq_scan E args args.length 0 _ (by omega)]
    simp only [List.drop_zero]
    unfold finish
    rfl

end Registry

/-! ## Reaching a token -/

section Reach

variable {F V : Type} (E : Env F V)

theorem Keeps.not_mem {lo hi p : Nat} {a b : FlagSet V} (h : Keeps lo hi a b)
    (hp : p < lo ∨ hi ≤ p) (hnot : Event.flagToken p ∉ a.trace) :
    Event.flagToken p ∉ b.trace := by
  obtain ⟨_, _, new, ht, hall⟩ := h
  rw [ht]
  intro hmem
  rcases List.mem_append.mp hmem with h1 | h1
  · exact hnot h1
  · obtain ⟨j, hj, h2, h3⟩ := hall _ h1
    simp only [Event.tok, Option.some.injEq] at hj
    omega

theorem setCalls_append (p : Nat) (tr tr' : List Event) :
    setCalls p (tr ++ tr') = setCalls p tr ++ setCalls p tr' := by
  induction tr with
  | nil => rfl
  | cons e tr ih =>
    cases e with
    | flagToken i => simpa [setCalls] using ih
    | set j k raw =>
      by_cases h : j = p <;> simp [setCalls, h, ih]
    | checked j n k ok s => simpa [setCalls] using ih
    | validate => simpa [setCalls] using ih

theorem setCalls_eq_nil (p : Nat) (tr : List Event) (h : ∀ e ∈ tr, e.tok ≠ some p) :
    setCalls p tr = [] := by
  induction tr with
  | nil => rfl
  | cons e tr ih =>
    have ih' := ih (fun e he => h e (List.mem_cons_of_mem _ he))
    cases e with
    | flagToken i => simpa [setCalls] using ih'
    | set j k raw =>
      have : j ≠ p := by
        intro hj
        exact h (Event.set j k raw) (List.mem_cons_self _ _) (by simp [Event.tok, hj])
      simp [setCalls, this, ih']
    | checked j n k ok s => simpa [setCalls] using ih'
    | validate => simpa [setCalls] using ih'

theorem Keeps.setCalls {lo hi p : Nat} {a b : FlagSet V} (h : Keeps lo hi a b)
    (hp : p < lo ∨ hi ≤ p) : setCalls p b.trace = setCalls p a.trace := by
  obtain ⟨_, _, new, ht, hall⟩ := h
  rw [ht, setCalls_append, setCalls_eq_nil p new, List.append_nil]
  intro e he
  obtain ⟨j, hj, h2, h3⟩ := hall e he
  rw [hj]
  intro heq
  have : j = p := Option.some.inj heq
  omega

theorem finish_trace (r : FlagSet V × Bool) :
    (finish E r).trace = r.1.trace ∨ (finish E r).trace = r.1.trace ++ [Event.validate] := by
  obtain ⟨fs, b⟩ := r
  cases b
  · right
    unfold finish validate
    simp only
    split <;> rfl
  · left
    rfl

theorem finish_setCalls (p : Nat) (r : FlagSet V × Bool) :
    setCalls p (finish E r).trace = setCalls p r.1.trace := by
  rcases finish_trace E r with h | h
  · rw [h]
  · rw [h, setCalls_append]
    simp [setCalls]

theorem finish_flagToken (p : Nat) (r : FlagSet V × Bool) :
    Event.flagToken p ∈ (finish E r).trace ↔ Event.flagToken p ∈ r.1.trace := by
  rcases finish_trace E r with h | h
  · rw [h]
  · rw [h]
    simp

/-- The scan from index `i` reaches token `p` only by going through the state at the head
of the iteration for `p`: the token begins with `dashOne`, and until then only tokens
before `p` left events. -/
theorem scan_reach (i p : Nat) (rest : List Str) (fs : FlagSet V)
    (herr : fs.Error = none) (hnot : Event.flagToken p ∉ fs.trace)
    (hmem : Event.flagToken p ∈ (scan E i rest fs).1.trace) :
    ∃ fsp arg, i ≤ p ∧ rest[p - i]? = some arg ∧ HasPrefix arg dashOne = true ∧
      Keeps i p fs fsp ∧ fsp.Error = none ∧
      scan E i rest fs = scan E p (arg :: rest.drop (p - i + 1)) fsp := by
  induction rest generalizing i fs with
  | nil =>
    simp only [scan] at hmem
    exact absurd hmem hnot
  | cons a rest ih =>
    by_cases hd : (!HasPrefix a dashOne) = true
    · rw [scan.eq_2, if_pos hd] at hmem
      obtain ⟨fsp, arg, hle, hget, hdash, hk, he, hs⟩ := ih (i + 1) fs herr hnot hmem
      have hpi : p - i = (p - (i + 1)) + 1 := by omega
      refine ⟨fsp, arg, by omega, ?_, hdash, hk.mono (Nat.le_succ i) (le_refl p), he, ?_⟩
      · rw [hpi, List.getElem?_cons_succ]
        exact hget
      · rw [scan.eq_2, if_pos hd, hs, hpi, List.drop_succ_cons]
    · have hdash : HasPrefix a dashOne = true := by simpa using hd
      by_cases hpi : p = i
      · subst hpi
        refine ⟨fs, a, le_refl p, by simp, hdash, Keeps.refl _ _ fs, herr, ?_⟩
        simp
      · have h0 : Keeps i (i + 1) fs { fs with trace := fs.trace ++ [Event.flagToken i] } :=
          Keeps.of_event i fs (Event.flagToken i) rfl
        have h1 := flagArg_keeps E i a (rest.takeWhile noDash)
          { fs with trace := fs.trace ++ [Event.flagToken i] }
        have h2 := flagArg_Error E i a (rest.takeWhile noDash)
          { fs with trace := fs.trace ++ [Event.flagToken i] } herr
        have h01 := h0.trans h1
        rw [scan.eq_2, if_neg hd] at hmem
        cases hfa : flagArg E i a (rest.takeWhile noDash)
            { fs with trace := fs.trace ++ [Event.flagToken i] } with
        | mk fs' b =>
          rw [hfa] at h01 h2 hmem
          cases b with
          | true =>
            simp only at hmem
            have hlt : p < i ∨ i + 1 ≤ p := by omega
            exact absurd hmem (h01.not_mem hlt hnot)
          | false =>
            simp only at hmem h2
            have herr' : fs'.Error = none := by
              cases hE : fs'.Error with
              | none => rfl
              | some e => simp [hE] at h2
            by_cases hlt : p < i
            · have := ((h01.mono (le_refl i) (Nat.le_add_right (i + 1) rest.length)).trans
                ((scan_keeps E (i + 1) rest fs').mono (Nat.le_succ i)
                  (le_refl _))).not_mem (Or.inl hlt) hnot
              exact absurd hmem this
            · have hnot' : Event.flagToken p ∉ fs'.trace :=
                h01.not_mem (Or.inr (by omega)) hnot
              obtain ⟨fsp, arg, hle, hget, hdash', hk, he, hs⟩ :=
                ih (i + 1) fs' herr' hnot' hmem
              have hpi' : p - i = (p - (i + 1)) + 1 := by omega
              refine ⟨fsp, arg, by omega, ?_, hdash',
                (h01.mono (le_refl i) hle).trans (hk.mono (Nat.le_succ i) (le_refl p)), he, ?_⟩
              · rw [hpi', List.getElem?_cons_succ]
                exact hget
              · rw [scan.eq_2, if_neg hd, hfa]
                simp only
                rw [hs, hpi', List.drop_succ_cons]

end Reach

/-! ## The iteration for one token inside a run of `parse` -/

section Token

variable {F V : Type} (E : Env F V)

theorem Split_eq (arg : Str) : Split arg '=' = bareName arg :: inlineValues arg := by
  unfold bareName inlineValues
  cases h : Split arg '=' with
  | nil => exact absurd h (Split_ne_nil arg '=')
  | cons a l => rfl

/-- A run of `parse` that reaches token `p` goes through the head of the iteration for
it, in a state `fs` that only earlier tokens have touched; from there it executes lines
135–189 for this token, then the rest of the loop and the validation pass unless the loop
returned. -/
theorem parse_token (fields : List F) (args : List Str) (p : Nat)
    (h : Event.flagToken p ∈ (parse E fields args).trace) :
    ∃ fs arg, args[p]? = some arg ∧ HasPrefix arg dashOne = true ∧
      (initFlagSet E fields (newFlagSet V)).Error = none ∧
      Keeps 0 p (initFlagSet E fields (newFlagSet V)) fs ∧ fs.Error = none ∧ Bound fs ∧
      setCalls p fs.trace = [] ∧
      parse E fields args =
        finish E
          (match flagArg E p arg (collect args p)
              { fs with trace := fs.trace ++ [Event.flagToken p] } with
            | (fs', true) => (fs', true)
            | (fs', false) => scan E (p + 1) (args.drop (p + 1)) fs') := by
  have htr : (initFlagSet E fields (newFlagSet V)).trace = [] := by
    rw [initFlagSet_trace]
    rfl
  rw [parse_eq] at h
  by_cases hE : (initFlagSet E fields (newFlagSet V)).Error.isSome = true
  · rw [if_pos hE, htr] at h
    simp at h
  · rw [if_neg hE, finish_flagToken] at h
    have hnone : (initFlagSet E fields (newFlagSet V)).Error = none := by
      cases hx : (initFlagSet E fields (newFlagSet V)).Error with
      | none => rfl
      | some e => simp [hx] at hE
    obtain ⟨fsp, arg, _, hget, hdash, hk, he, hs⟩ :=
      scan_reach E 0 p args _ hnone (by rw [htr]; simp) h
    simp only [Nat.sub_zero] at hget hs
    refine ⟨fsp, arg, hget, hdash, hnone, hk, he, ?_, ?_, ?_⟩
    · intro n k hn
      rw [hk.flags] at hn
      rw [hk.length]
      exact initFlagSet_Bound E fields _ newFlagSet_Bound n k hn
    · rw [hk.setCalls (Or.inr (le_refl p)), htr]
      rfl
    · rw [parse_eq, if_neg hE, hs, scan.eq_2]
      have hd : ¬ (!HasPrefix arg dashOne) = true := by simp [hdash]
      rw [if_neg hd]
      rfl

/-- The setter calls that the whole run of `parse` makes for a token it reaches are those
of lines 144–189 for this token. -/
theorem parse_setCalls (fields : List F) (args : List Str) (p : Nat)
    (h : Event.flagToken p ∈ (parse E fields args).trace) :
    ∃ fs arg, args[p]? = some arg ∧ HasPrefix arg dashOne = true ∧
      fs.flags = (initFlagSet E fields (newFlagSet V)).flags ∧ fs.Error = none ∧ Bound fs ∧
      setCalls p fs.trace = [] ∧
      setCalls p (parse E fields args).trace =
        setCalls p (flagArg E p arg (collect args p)
          { fs with trace := fs.trace ++ [Event.flagToken p] }).1.trace := by
  obtain ⟨fs, arg, hget, hdash, _, hk, he, hb, hc, hp⟩ := parse_token E fields args p h
  refine ⟨fs, arg, hget, hdash, hk.flags, he, hb, hc, ?_⟩
  rw [hp, finish_setCalls]
  cases hfa : flagArg E p arg (collect args p)
      { fs with trace := fs.trace ++ [Event.flagToken p] } with
  | mk fs' b =>
    cases b with
    | true => rfl
    | false =>
      simp only
      exact (scan_keeps E (p + 1) (args.drop (p + 1)) fs').setCalls (Or.inl (Nat.lt_succ_self p))

theorem callSet_trace (i k : Nat) (raw : Str) (fs : FlagSet V) (hk : k < fs.slice.length) :
    (callSet E i k raw fs).trace = fs.trace ++ [Event.set i k raw] := by
  unfold callSet
  rw [List.getElem?_eq_getElem hk]

theorem recordValue_setCalls (p i : Nat) (name : Str) (k : Nat) (fs : FlagSet V) :
    setCalls p (recordValue E i name k fs).trace = setCalls p fs.trace := by
  unfold recordValue
  split
  · rfl
  · split <;> simp [setCalls_append, setCalls]

/-- Lines 176–189 for a registered bare name whose combined value list is empty or one
text `v` (the empty text in the first case): one call of the setter, with `v`. -/
theorem flagArg_found_trace (i k : Nat) (arg v : Str) (values : List Str) (fs : FlagSet V)
    (hreg : lookup (bareName arg) fs.flags = some k) (hk : k < fs.slice.length)
    (hv : (inlineValues arg ++ values = [] ∧ v = []) ∨ inlineValues arg ++ values = [v]) :
    setCalls i (flagArg E i arg values fs).1.trace = setCalls i fs.trace ++ [(k, v)] := by
  have hcall : ∀ raw, setCalls i (callSet E i k raw fs).trace
      = setCalls i fs.trace ++ [(k, raw)] := by
    intro raw
    rw [callSet_trace E i k raw fs hk, setCalls_append]
    simp [setCalls]
  unfold flagArg
  rw [Split_eq]
  simp only [hreg]
  rcases hv with ⟨h0, hv⟩ | h1
  · subst hv
    rw [h0]
    simp only
    split
    · exact hcall []
    · rw [recordValue_setCalls]
      exact hcall []
  · rw [h1]
    simp only
    split
    · exact hcall v
    · rw [recordValue_setCalls]
      exact hcall v

end Token

/-! ## Returning early, and going on -/

section Abort

variable {F V : Type} (E : Env F V)

theorem flagArg_found (i k : Nat) (arg : Str) (values : List Str) (fs : FlagSet V)
    (hreg : lookup (bareName arg) fs.flags = some k) :
    flagArg E i arg values fs =
      if (match inlineValues arg ++ values with
          | [] => callSet E i k [] fs
          | [v] => callSet E i k v fs
          | _ => { fs with Error := some (.errorf
              (tooManyText (inlineValues arg ++ values).length (bareName arg))) }).Error.isSome
      then
        ((match inlineValues arg ++ values with
          | [] => callSet E i k [] fs
          | [v] => callSet E i k v fs
          | _ => { fs with Error := some (.errorf
              (tooManyText (inlineValues arg ++ values).length (bareName arg))) }), true)
      else
        (recordValue E i (bareName arg) k
          (match inlineValues arg ++ values with
          | [] => callSet E i k [] fs
          | [v] => callSet E i k v fs
          | _ => { fs with Error := some (.errorf
              (tooManyText (inlineValues arg ++ values).length (bareName arg))) }), false) := by
  unfold flagArg
  rw [Split_eq]
  simp only [hreg]

theorem callSet_Error_ne (i k : Nat) (raw x : Str) (fs : FlagSet V) (h : fs.Error = none) :
    (callSet E i k raw fs).Error ≠ some (.errorf x) := by
  unfold callSet
  split
  · simp [h]
  · simp only
    cases (E.set _ raw).2 <;> simp

/-- When the loop returns early, it does so while it processes a flag token. -/
theorem scan_abort_event (j : Nat) (rest : List Str) (fs : FlagSet V)
    (h : (scan E j rest fs).2 = true) :
    ∃ q, j ≤ q ∧ Event.flagToken q ∈ (scan E j rest fs).1.trace := by
  induction rest generalizing j fs with
  | nil => simp [scan] at h
  | cons a rest ih =>
    rw [scan.eq_2] at h ⊢
    by_cases hd : (!HasPrefix a dashOne) = true
    · rw [if_pos hd] at h ⊢
      obtain ⟨q, hq, hm⟩ := ih (j + 1) fs h
      exact ⟨q, by omega, hm⟩
    · rw [if_neg hd] at h ⊢
      have h1 := flagArg_keeps E j a (rest.takeWhile noDash)
        { fs with trace := fs.trace ++ [Event.flagToken j] }
      cases hfa : flagArg E j a (rest.takeWhile noDash)
          { fs with trace := fs.trace ++ [Event.flagToken j] } with
      | mk fs' b =>
        rw [hfa] at h h1
        cases b with
        | true =>
          refine ⟨j, le_refl j, ?_⟩
          obtain ⟨_, _, new, ht, _⟩ := h1
          simp only at ht ⊢
          rw [ht]
          simp
        | false =>
          simp only at h ⊢
          obtain ⟨q, hq, hm⟩ := ih (j + 1) fs' h
          exact ⟨q, by omega, hm⟩

/-- After token `i`, the run either processes a later flag token or enters the
validation pass. -/
theorem finish_scan_not_stopped (i : Nat) (rest : List Str) (fs : FlagSet V) :
    ¬ StoppedAt i (finish E (scan E (i + 1) rest fs)) := by
  rintro ⟨hv, hle⟩
  cases hb : (scan E (i + 1) rest fs).2 with
  | false =>
    apply hv
    have : scan E (i + 1) rest fs = ((scan E (i + 1) rest fs).1, false) := by
      rw [← hb]
    rw [this]
    unfold finish validate
    simp only
    split <;> simp
  | true =>
    obtain ⟨q, hq, hm⟩ := scan_abort_event E (i + 1) rest fs hb
    have := hle (Event.flagToken q) ((finish_flagToken E q _).mpr hm) q rfl
    omega

/-- The state at the head of an iteration that a run of `parse` reaches holds only events
of earlier tokens. -/
theorem Keeps.stopped {p : Nat} {a b : FlagSet V} (h : Keeps 0 p a b) (ha : a.trace = []) :
    ∀ e ∈ b.trace, ∃ j, e.tok = some j ∧ j < p := by
  obtain ⟨_, _, new, ht, hall⟩ := h
  rw [ht, ha]
  intro e he
  obtain ⟨j, hj, _, hlt⟩ := hall e (by simpa using he)
  exact ⟨j, hj, hlt⟩

end Abort

/-! ## Clusters -/

section Cluster

variable {F V : Type} (E : Env F V)

theorem Keeps.bound {lo hi : Nat} {a b : FlagSet V} (h : Keeps lo hi a b) (ha : Bound a) :
    Bound b := by
  intro n k hn
  rw [h.flags] at hn
  rw [h.length]
  exact ha n k hn

theorem Keeps.events {lo hi : Nat} {a b : FlagSet V} (h : Keeps lo hi a b)
    (Q : Event → Prop) (ha : ∀ e ∈ a.trace, Q e)
    (hq : ∀ e j, e.tok = some j → lo ≤ j → j < hi → Q e) : ∀ e ∈ b.trace, Q e := by
  obtain ⟨_, _, new, ht, hall⟩ := h
  rw [ht]
  intro e he
  rcases List.mem_append.mp he with h1 | h1
  · exact ha e h1
  · obtain ⟨j, hj, h2, h3⟩ := hall e h1
    exact hq e j hj h2 h3

theorem flagArg_unknown (i : Nat) (arg : Str) (values : List Str) (fs : FlagSet V)
    (hreg : lookup (bareName arg) fs.flags = none) :
    flagArg E i arg values fs =
      if HasPrefix (bareName arg) dashTwo then
        ({ fs with Error := some (.errorf (unknownText (bareName arg))) }, true)
      else cluster E i (TrimPrefix (bareName arg) dashOne) fs := by
  unfold flagArg
  rw [Split_eq]
  simp only [hreg]

theorem callSet_Error (i k : Nat) (raw : Str) (fs : FlagSet V) (hk : k < fs.slice.length) :
    (callSet E i k raw fs).Error = (E.set fs.slice[k] raw).2.map GoError.returned := by
  unfold callSet
  rw [List.getElem?_eq_getElem hk]

/-- The tokens that line 142 jumps over leave no event: after token `i` the trace holds
events of tokens beyond the collected values only. -/
theorem parse_trace_gap (fields : List F) (args : List Str) (i : Nat)
    (h : Event.flagToken i ∈ (parse E fields args).trace) :
    ∀ e ∈ (parse E fields args).trace, ∀ j, e.tok = some j → i < j →
      i + (collect args i).length < j := by
  obtain ⟨fs, arg, _, _, _, hk, _, _, _, hp⟩ := parse_token E fields args i h
  have hinit : (initFlagSet E fields (newFlagSet V)).trace = [] := by
    rw [initFlagSet_trace]
    rfl
  have h0 : Keeps i (i + 1) fs { fs with trace := fs.trace ++ [Event.flagToken i] } :=
    Keeps.of_event i fs (Event.flagToken i) rfl
  have h1 := h0.trans (flagArg_keeps E i arg (collect args i)
    { fs with trace := fs.trace ++ [Event.flagToken i] })
  have hQ0 : ∀ e ∈ fs.trace, ∀ j, e.tok = some j → i < j → i + (collect args i).length < j := by
    apply hk.events
    · rw [hinit]
      simp
    · intro e j hj _ hlt j' hj' hlt'
      rw [hj] at hj'
      have : j = j' := Option.some.inj hj'
      omega
  have hQ1 := h1.events _ hQ0 (by
    intro e j hj hlo hhi j' hj' hlt'
    rw [hj] at hj'
    have : j = j' := Option.some.inj hj'
    omega)
  have hfin : ∀ r : FlagSet V × Bool,
      (∀ e ∈ r.1.trace, ∀ j, e.tok = some j → i < j → i + (collect args i).length < j) →
      ∀ e ∈ (finish E r).trace, ∀ j, e.tok = some j → i < j →
        i + (collect args i).length < j := by
    intro r hr e he
    rcases finish_trace E r with ht | ht
    · rw [ht] at he
      exact hr e he
    · rw [ht] at he
      rcases List.mem_append.mp he with h2 | h2
      · exact hr e h2
      · simp only [List.mem_singleton] at h2
        subst h2
        intro j hj
        simp [Event.tok] at hj
  rw [hp]
  apply hfin
  cases hfa : flagArg E i arg (collect args i)
      { fs with trace := fs.trace ++ [Event.flagToken i] } with
  | mk fs' b =>
    rw [hfa] at hQ1
    cases b with
    | true => exact hQ1
    | false =>
      simp only
      rw [scan_skip]
      have hc : (List.takeWhile noDash (List.drop (i + 1) args)).length
          = (collect args i).length := rfl
      rw [hc]
      apply (scan_keeps E _ _ fs').events _ hQ1
      intro e j hj hlo _ j' hj' _
      rw [hj] at hj'
      have : j = j' := Option.some.inj hj'
      omega

end Cluster

/-! ## The tokens before a flag token decide the state in which it is processed -/

section Before

variable {F V : Type} (E : Env F V)

theorem takeWhile_append_dash (l post : List Str) (t : Str) (ht : HasPrefix t dashOne = true) :
    (l ++ t :: post).takeWhile noDash = l.takeWhile noDash := by
  induction l with
  | nil => simp [List.takeWhile, noDash, ht]
  | cons a l ih =>
    by_cases ha : noDash a = true
    · simp [List.takeWhile_cons, ha, ih]
    · simp [List.takeWhile_cons, ha]

/-- The scan of `pre ++ t :: post`, `t` a flag token, is the scan of `pre` followed, unless
it returned, by the scan from `t` on. -/
theorem scan_append_dash (j : Nat) (pre post : List Str) (t : Str) (fs : FlagSet V)
    (ht : HasPrefix t dashOne = true) :
    scan E j (pre ++ t :: post) fs =
      if (scan E j pre fs).2 then scan E j pre fs
      else scan E (j + pre.length) (t :: post) (scan E j pre fs).1 := by
  induction pre generalizing j fs with
  | nil => simp [scan]
  | cons a pre ih =>
    have hlen : j + (a :: pre).length = j + 1 + pre.length := by simp; omega
    rw [hlen, List.cons_append, scan.eq_2, scan.eq_2]
    by_cases hd : (!HasPrefix a dashOne) = true
    · rw [if_pos hd, if_pos hd]
      exact ih (j + 1) fs
    · rw [if_neg hd, if_neg hd, takeWhile_append_dash pre post t ht]
      cases hfa : flagArg E j a (pre.takeWhile noDash)
          { fs with trace := fs.trace ++ [Event.flagToken j] } with
      | mk fs' b =>
        cases b with
        | true => simp
        | false => exact ih (j + 1) fs'

end Before

/-! ## The validation pass -/

section Validation

variable {F V : Type} (E : Env F V)

theorem writeLine_length (buff line : Str) :
    (writeLine buff line).length = (if 0 < buff.length then buff.length + 1 else 0) + line.length := by
  unfold writeLine
  split
  · simp
    omega
  · rename_i h
    have : buff = [] := by
      cases buff with
      | nil => rfl
      | cons a l => simp at h
    simp [this]

theorem requiredLine_pos (fl : flag V) : 0 < (requiredLine E fl).length := by
  unfold requiredLine
  simp only [List.length_append]
  have : 0 < "` missing".toList.length := by decide
  omega

theorem invalidLine_pos (fl : flag V) (cause : Str) : 0 < (invalidLine E fl cause).length := by
  unfold invalidLine
  simp only [List.length_append]
  have : 0 < "` invalid: ".toList.length := by decide
  omega

theorem validateFlag_pos (buff : Str) (fl : flag V) :
    0 < (validateFlag E buff fl).length ↔ 0 < buff.length ∨ Reported fl := by
  have hr := requiredLine_pos E fl
  unfold validateFlag Reported
  rcases fl with ⟨tag, v, assigned, err⟩
  cases assigned <;> cases hreq : tag.required <;> cases err <;>
    simp [writeLine_length, hreq]
  · exact Or.inr hr
  · exact Or.inr hr
  · exact Or.inr (invalidLine_pos E _ _)
  · exact Or.inr (invalidLine_pos E _ _)

theorem foldl_validateFlag_pos (fls : List (flag V)) (buff : Str) :
    0 < (fls.foldl (validateFlag E) buff).length ↔ 0 < buff.length ∨ ∃ fl ∈ fls, Reported fl := by
  induction fls generalizing buff with
  | nil => simp
  | cons fl fls ih =>
    rw [List.foldl_cons, ih, validateFlag_pos]
    constructor
    · rintro ((h | h) | ⟨x, hx, hr⟩)
      · exact Or.inl h
      · exact Or.inr ⟨fl, List.mem_cons_self _ _, h⟩
      · exact Or.inr ⟨x, List.mem_cons_of_mem _ hx, hr⟩
    · rintro (h | ⟨x, hx, hr⟩)
      · exact Or.inl (Or.inl h)
      · rcases List.mem_cons.mp hx with heq | hmem
        · subst heq
          exact Or.inl (Or.inr hr)
        · exact Or.inr ⟨x, hmem, hr⟩

theorem validationBuffer_pos (fls : List (flag V)) :
    0 < (validationBuffer E fls).length ↔ ∃ fl ∈ fls, Reported fl := by
  unfold validationBuffer
  rw [foldl_validateFlag_pos]
  simp

end Validation

/-! ## Descriptors change through setter calls only -/

section Kept

variable {F V : Type} (E : Env F V)

theorem Keeps.subset {lo hi : Nat} {a b : FlagSet V} (h : Keeps lo hi a b) :
    ∀ e ∈ a.trace, e ∈ b.trace := by
  obtain ⟨_, _, new, ht, _⟩ := h
  intro e he
  rw [ht]
  exact List.mem_append_left _ he

theorem SliceKept.same (fs : FlagSet V) : SliceKept fs fs := fun _ _ => rfl

theorem SliceKept.chain {a b c : FlagSet V} (h1 : SliceKept a b) (h2 : SliceKept b c)
    (hsub : ∀ e ∈ b.trace, e ∈ c.trace) : SliceKept a c := by
  intro k hk
  rw [h2 k hk]
  exact h1 k (fun j raw hm => hk j raw (hsub _ hm))

theorem callSet_sliceKept (i k : Nat) (raw : Str) (fs : FlagSet V) :
    SliceKept fs (callSet E i k raw fs) := by
  unfold callSet
  split
  · exact SliceKept.same fs
  · intro k' hk'
    have hne : k ≠ k' := by
      intro heq
      subst heq
      exact hk' i raw (by simp)
    simp only
    rw [List.getElem?_set_ne hne]

theorem recordValue_sliceKept (i : Nat) (name : Str) (k : Nat) (fs : FlagSet V) :
    SliceKept fs (recordValue E i name k fs) := by
  unfold recordValue
  split
  · exact SliceKept.same fs
  · split
    · intro _ _
      rfl
    · intro _ _
      rfl

theorem cluster_sliceKept (i : Nat) (chars : List Char) (fs : FlagSet V) :
    SliceKept fs (cluster E i chars fs).1 := by
  induction chars generalizing fs with
  | nil => exact SliceKept.same fs
  | cons c chars ih =>
    unfold cluster
    simp only
    split
    · intro _ _
      rfl
    · rename_i k hk
      split
      · exact callSet_sliceKept E i k [] fs
      · exact ((callSet_sliceKept E i k [] fs).chain (recordValue_sliceKept E i _ k _)
          (recordValue_keeps E i _ k _).subset).chain (ih _)
          (cluster_keeps E i chars _).subset

theorem flagArg_sliceKept (i : Nat) (arg : Str) (values : List Str) (fs : FlagSet V) :
    SliceKept fs (flagArg E i arg values fs).1 := by
  unfold flagArg
  split
  · exact SliceKept.same fs
  · rename_i arg0 inline hs
    split
    · split
      · intro _ _
        rfl
      · exact cluster_sliceKept E i _ fs
    · rename_i k hk
      have h1 : SliceKept fs
          (match inline ++ values with
            | [] => callSet E i k [] fs
            | [v] => callSet E i k v fs
            | _ => { fs with Error := some (.errorf (tooManyText (inline ++ values).length arg0)) }) := by
        split
        · exact callSet_sliceKept E i k [] fs
        · exact callSet_sliceKept E i k _ fs
        · intro _ _
          rfl
      simp only
      split
      · exact h1
      · exact h1.chain (recordValue_sliceKept E i _ k _) (recordValue_keeps E i _ k _).subset

theorem scan_sliceKept (i : Nat) (rest : List Str) (fs : FlagSet V) :
    SliceKept fs (scan E i rest fs).1 := by
  induction rest generalizing i fs with
  | nil => exact SliceKept.same fs
  | cons arg rest ih =>
    unfold scan
    split
    · exact ih (i + 1) fs
    · have h0 : SliceKept fs { fs with trace := fs.trace ++ [Event.flagToken i] } := by
        intro _ _
        rfl
      have h1 := flagArg_sliceKept E i arg (rest.takeWhile noDash)
        { fs with trace := fs.trace ++ [Event.flagToken i] }
      have k1 := flagArg_keeps E i arg (rest.takeWhile noDash)
        { fs with trace := fs.trace ++ [Event.flagToken i] }
      split
      · rename_i fs' hfa
        rw [hfa] at h1 k1
        exact h0.chain h1 k1.subset
      · rename_i fs' hfa
        rw [hfa] at h1 k1
        exact (h0.chain h1 k1.subset).chain (ih (i + 1) fs') (scan_keeps E (i + 1) rest fs').subset

/-- A run of `parse` that enters the validation pass built the registry without error and
went through the whole loop; its result is the validation of the state after the loop. -/
theorem parse_validated (fields : List F) (args : List Str)
    (h : Event.validate ∈ (parse E fields args).trace) :
    (initFlagSet E fields (newFlagSet V)).Error = none ∧
    (scan E 0 args (initFlagSet E fields (newFlagSet V))).2 = false ∧
    (scan E 0 args (initFlagSet E fields (newFlagSet V))).1.Error = none ∧
    parse E fields args
      = validate E (scan E 0 args (initFlagSet E fields (newFlagSet V))).1 := by
  have htr : (initFlagSet E fields (newFlagSet V)).trace = [] := by
    rw [initFlagSet_trace]
    rfl
  rw [parse_eq] at h ⊢
  by_cases hE : (initFlagSet E fields (newFlagSet V)).Error.isSome = true
  · rw [if_pos hE, htr] at h
    simp at h
  · rw [if_neg hE] at h ⊢
    have hnone : (initFlagSet E fields (newFlagSet V)).Error = none := by
      cases hx : (initFlagSet E fields (newFlagSet V)).Error with
      | none => rfl
      | some e => simp [hx] at hE
    have hno : Event.validate ∉ (scan E 0 args (initFlagSet E fields (newFlagSet V))).1.trace := by
      intro hm
      have := (scan_keeps E 0 args (initFlagSet E fields (newFlagSet V))).stopped htr _ hm
      obtain ⟨j, hj, _⟩ := this
      simp [Event.tok] at hj
    have herr := scan_Error E 0 args _ hnone
    cases hs : scan E 0 args (initFlagSet E fields (newFlagSet V)) with
    | mk fs' b =>
      rw [hs] at h hno herr
      cases b with
      | true => exact absurd h hno
      | false =>
        simp only at herr
        refine ⟨hnone, rfl, ?_, rfl⟩
        cases hx : fs'.Error with
        | none => rfl
        | some e => simp [hx] at herr

end Kept

/-! ## The lines of the aggregate error -/

section Lines

variable {F V : Type} (E : Env F V)

theorem writeLine_eq (buff line : Str) : ∃ sep, writeLine buff line = buff ++ sep ++ line := by
  unfold writeLine
  split
  · exact ⟨['\n'], rfl⟩
  · exact ⟨[], by simp⟩

theorem infix_writeLine_left (x buff line : Str) (h : x <:+: buff) :
    x <:+: writeLine buff line := by
  obtain ⟨sep, hs⟩ := writeLine_eq buff line
  obtain ⟨s, t, ht⟩ := h
  exact ⟨s, t ++ sep ++ line, by rw [hs, ← ht]; simp⟩

theorem infix_writeLine_right (buff line : Str) : line <:+: writeLine buff line := by
  obtain ⟨sep, hs⟩ := writeLine_eq buff line
  exact ⟨buff ++ sep, [], by rw [hs]; simp⟩

theorem infix_validateFlag (x buff : Str) (fl : flag V) (h : x <:+: buff) :
    x <:+: validateFlag E buff fl := by
  unfold validateFlag
  have h1 : x <:+: (if (!fl.assigned && fl.tag.required) = true
      then writeLine buff (requiredLine E fl) else buff) := by
    split
    · exact infix_writeLine_left _ _ _ h
    · exact h
  simp only
  split
  · split
    · exact infix_writeLine_left _ _ _ h1
    · exact h1
  · exact h1

theorem requiredLine_infix_validateFlag (buff : Str) (fl : flag V)
    (hreq : fl.tag.required = true) (hna : fl.assigned = false) :
    requiredLine E fl <:+: validateFlag E buff fl := by
  unfold validateFlag
  simp only [hreq, hna, Bool.not_false, Bool.and_self, if_true]
  split
  · simp only [Bool.false_eq_true, if_false]
    exact infix_writeLine_right _ _
  · exact infix_writeLine_right _ _

theorem infix_foldl_validateFlag (x : Str) (fls : List (flag V)) (buff : Str)
    (h : x <:+: buff) : x <:+: fls.foldl (validateFlag E) buff := by
  induction fls generalizing buff with
  | nil => exact h
  | cons fl fls ih => exact ih _ (infix_validateFlag E x buff fl h)

theorem requiredLine_infix_buffer (fls : List (flag V)) (buff : Str) (fl : flag V)
    (hmem : fl ∈ fls) (hreq : fl.tag.required = true) (hna : fl.assigned = false) :
    requiredLine E fl <:+: fls.foldl (validateFlag E) buff := by
  induction fls generalizing buff with
  | nil => cases hmem
  | cons a fls ih =>
    rw [List.foldl_cons]
    rcases List.mem_cons.mp hmem with heq | hm
    · subst heq
      exact infix_foldl_validateFlag E _ fls _
        (requiredLine_infix_validateFlag E buff fl hreq hna)
    · exact ih _ hm

theorem name_infix_requiredLine (fl : flag V) : E.name fl <:+: requiredLine E fl :=
  ⟨E.red "ERR!".toList ++ " required argument `".toList, "` missing".toList, by
    simp [requiredLine]⟩

theorem required_infix_requiredLine (fl : flag V) :
    "required".toList <:+: requiredLine E fl :=
  ⟨E.red "ERR!".toList ++ " ".toList, " argument `".toList ++ E.name fl ++ "` missing".toList, by
    have : " required argument `".toList
        = " ".toList ++ "required".toList ++ " argument `".toList := by decide
    simp only [requiredLine, this, List.append_assoc]⟩

theorem invalidLine_infix_validateFlag (buff : Str) (fl : flag V) (cause : Str)
    (ha : fl.assigned = true) (he : fl.err = some cause) :
    invalidLine E fl cause <:+: validateFlag E buff fl := by
  unfold validateFlag
  simp only [ha, he, if_true]
  exact infix_writeLine_right _ _

theorem invalidLine_infix_buffer (fls : List (flag V)) (buff : Str) (fl : flag V) (cause : Str)
    (hmem : fl ∈ fls) (ha : fl.assigned = true) (he : fl.err = some cause) :
    invalidLine E fl cause <:+: fls.foldl (validateFlag E) buff := by
  induction fls generalizing buff with
  | nil => cases hmem
  | cons a fls ih =>
    rw [List.foldl_cons]
    rcases List.mem_cons.mp hmem with heq | hm
    · subst heq
      exact infix_foldl_validateFlag E _ fls _
        (invalidLine_infix_validateFlag E buff fl cause ha he)
    · exact ih _ hm

theorem invalid_infix_invalidLine (fl : flag V) (cause : Str) :
    "invalid".toList <:+: invalidLine E fl cause :=
  ⟨E.red "ERR!".toList ++ " assigned argument `".toList ++ E.name fl ++ "` ".toList,
    ": ".toList ++ cause, by
    have : "` invalid: ".toList = "` ".toList ++ "invalid".toList ++ ": ".toList := by decide
    simp only [invalidLine, this, List.append_assoc]⟩

end Lines

/-! ## Duplicate names -/

section Duplicates

variable {F V : Type} (E : Env F V)

theorem firstRepeat_append (seen l1 l2 : List Str) :
    firstRepeat seen (l1 ++ l2) =
      match firstRepeat seen l1 with
      | some n => some n
      | none => firstRepeat (l1.reverse ++ seen) l2 := by
  induction l1 generalizing seen with
  | nil => simp [firstRepeat]
  | cons a l1 ih =>
    show (if a ∈ seen then some a else firstRepeat (a :: seen) (l1 ++ l2)) =
      match (if a ∈ seen then some a else firstRepeat (a :: seen) l1) with
      | some n => some n
      | none => firstRepeat ((a :: l1).reverse ++ seen) l2
    by_cases ha : a ∈ seen
    · rw [if_pos ha, if_pos ha]
    · rw [if_neg ha, if_neg ha, ih]
      simp

/-- The first repeated name of a sequence, spelled out: the names before it are distinct
(and none is in `seen`), and it is one of them or in `seen`. -/
theorem firstRepeat_eq_some (seen l : List Str) (n : Str) :
    firstRepeat seen l = some n ↔
      ∃ pre post, l = pre ++ n :: post ∧ pre.Nodup ∧ (∀ x ∈ pre, x ∉ seen) ∧
        (n ∈ pre ∨ n ∈ seen) := by
  induction l generalizing seen with
  | nil => simp [firstRepeat]
  | cons a l ih =>
    simp only [firstRepeat]
    by_cases ha : a ∈ seen
    · rw [if_pos ha]
      constructor
      · intro h
        have : a = n := Option.some.inj h
        subst this
        exact ⟨[], l, rfl, List.nodup_nil, by simp, Or.inr ha⟩
      · rintro ⟨pre, post, hl, _, hpre, _⟩
        cases pre with
        | nil =>
          simp only [List.nil_append, List.cons.injEq] at hl
          rw [hl.1]
        | cons b pre =>
          simp only [List.cons_append, List.cons.injEq] at hl
          exact absurd (hl.1 ▸ ha) (hpre b (List.mem_cons_self _ _))
    · rw [if_neg ha, ih]
      constructor
      · rintro ⟨pre, post, hl, hnd, hpre, hn⟩
        refine ⟨a :: pre, post, by rw [hl]; rfl, ?_, ?_, ?_⟩
        · refine List.nodup_cons.mpr ⟨?_, hnd⟩
          intro hm
          exact hpre a hm (List.mem_cons_self _ _)
        · intro x hx
          rcases List.mem_cons.mp hx with h | h
          · rw [h]
            exact ha
          · intro hs
            exact hpre x h (List.mem_cons_of_mem _ hs)
        · rcases hn with h | h
          · exact Or.inl (List.mem_cons_of_mem _ h)
          · rcases List.mem_cons.mp h with h' | h'
            · exact Or.inl (h' ▸ List.mem_cons_self _ _)
            · exact Or.inr h'
      · rintro ⟨pre, post, hl, hnd, hpre, hn⟩
        cases pre with
        | nil =>
          simp only [List.nil_append, List.cons.injEq] at hl
          rcases hn with h | h
          · cases h
          · exact absurd (hl.1 ▸ h) ha
        | cons b pre =>
          simp only [List.cons_append, List.cons.injEq] at hl
          obtain ⟨hb, hl⟩ := hl
          subst hb
          have hnd' := List.nodup_cons.mp hnd
          refine ⟨pre, post, hl, hnd'.2, ?_, ?_⟩
          · intro x hx hs
            rcases List.mem_cons.mp hs with h | h
            · exact hnd'.1 (h ▸ hx)
            · exact hpre x (List.mem_cons_of_mem _ hx) h
          · rcases hn with h | h
            · rcases List.mem_cons.mp h with h' | h'
              · exact Or.inr (h' ▸ List.mem_cons_self _ _)
              · exact Or.inl h'
            · exact Or.inr (List.mem_cons_of_mem _ h)

theorem firstRepeat_isSome (l : List Str) : (firstRepeat [] l).isSome = true ↔ ¬ l.Nodup := by
  constructor
  · intro h
    obtain ⟨n, hn⟩ := Option.isSome_iff_exists.mp h
    obtain ⟨pre, post, hl, _, _, hmem⟩ := (firstRepeat_eq_some [] l n).mp hn
    rcases hmem with hm | hm
    · intro hnd
      rw [hl] at hnd
      have := (List.nodup_append.mp hnd).2.2
      exact this hm (List.mem_cons_self _ _)
    · cases hm
  · intro h
    by_contra hc
    have hnone : firstRepeat [] l = none := by
      cases hx : firstRepeat [] l with
      | none => rfl
      | some n => simp [hx] at hc
    apply h
    clear h hc
    have key : ∀ (seen l : List Str), firstRepeat seen l = none →
        l.Nodup ∧ ∀ x ∈ l, x ∉ seen := by
      intro seen l
      induction l generalizing seen with
      | nil => simp
      | cons a l ih =>
        intro h
        simp only [firstRepeat] at h
        by_cases ha : a ∈ seen
        · rw [if_pos ha] at h
          cases h
        · rw [if_neg ha] at h
          obtain ⟨hnd, hx⟩ := ih (a :: seen) h
          refine ⟨List.nodup_cons.mpr ⟨fun hm => hx a hm (List.mem_cons_self _ _), hnd⟩, ?_⟩
          intro x hxm
          rcases List.mem_cons.mp hxm with h1 | h1
          · rw [h1]
            exact ha
          · intro hs
            exact hx x h1 (List.mem_cons_of_mem _ hs)
    exact (key [] l hnone).1

theorem addNames_firstRepeat (fl : flag V) (k : Nat) (value : Str) (names seen : List Str)
    (fs : FlagSet V) (hkeys : KeysAre fs seen) :
    match firstRepeat seen names with
    | some n => (addNames fl k value names fs).2 = true ∧
        (addNames fl k value names fs).1.Error = some (.errorf (repeatText n))
    | none => (addNames fl k value names fs).2 = false ∧
        (addNames fl k value names fs).1.Error = fs.Error ∧
        KeysAre (addNames fl k value names fs).1 (names.reverse ++ seen) := by
  induction names generalizing seen fs with
  | nil =>
    show (addNames fl k value [] fs).2 = false ∧
        (addNames fl k value [] fs).1.Error = fs.Error ∧
        KeysAre (addNames fl k value [] fs).1 ([].reverse ++ seen)
    exact ⟨rfl, rfl, by simpa [addNames] using hkeys⟩
  | cons a names ih =>
    simp only [firstRepeat]
    by_cases ha : a ∈ seen
    · rw [if_pos ha]
      have hl : (lookup a fs.flags).isSome = true := (hkeys a).mpr ha
      show (addNames fl k value (a :: names) fs).2 = true ∧
        (addNames fl k value (a :: names) fs).1.Error = some (.errorf (repeatText a))
      rw [addNames, if_pos hl]
      exact ⟨rfl, rfl⟩
    · rw [if_neg ha]
      have hl : ¬ (lookup a fs.flags).isSome = true := fun h => ha ((hkeys a).mp h)
      have hkeys' : KeysAre
          { fs with
            flags := insert a k fs.flags
            Values := if fl.assigned then insert a [value] fs.Values else fs.Values }
          (a :: seen) := by
        intro n
        by_cases hn : n = a
        · subst hn
          simp [lookup_insert_self]
        · simp only [lookup_insert_ne a n k fs.flags hn, List.mem_cons, hn, false_or]
          exact hkeys n
      have := ih (a :: seen) _ hkeys'
      rw [addNames, if_neg hl]
      cases hf : firstRepeat (a :: seen) names with
      | some n =>
        rw [hf] at this
        exact this
      | none =>
        rw [hf] at this
        refine ⟨this.1, this.2.1, ?_⟩
        have h3 := this.2.2
        simpa using h3

theorem initFields_firstRepeat (fields : List F) (seen : List Str) (fs : FlagSet V)
    (hok : ∀ f ∈ fields, (E.newFlag f).2 = none) (herr : fs.Error = none)
    (hkeys : KeysAre fs seen) :
    (initFields E fields fs).1.Error
      = (firstRepeat seen (allNames E fields)).map (fun n => GoError.errorf (repeatText n)) := by
  induction fields generalizing seen fs with
  | nil => simp [initFields, allNames, firstRepeat, herr]
  | cons f fields ih =>
    have hf : (E.newFlag f).2 = none := hok f (List.mem_cons_self _ _)
    have hok' : ∀ g ∈ fields, (E.newFlag g).2 = none :=
      fun g hg => hok g (List.mem_cons_of_mem _ hg)
    have hall : allNames E (f :: fields) =
        (match (E.newFlag f).1 with
          | some fl => fl.tag.shortNames ++ fl.tag.longNames
          | none => []) ++ allNames E fields := by
      simp [allNames]
    rw [hall, firstRepeat_append]
    unfold initFields
    simp only [hf, Option.map_none', Option.isSome_none, Bool.false_eq_true, if_false]
    cases hfl : (E.newFlag f).1 with
    | none =>
      simp only [firstRepeat, List.reverse_nil, List.nil_append]
      exact ih seen _ hok' rfl hkeys
    | some fl =>
      simp only
      have hkeys0 : KeysAre { fs with Error := none, slice := fs.slice ++ [fl] } seen := hkeys
      have hadd := addNames_firstRepeat fl fs.slice.length
        (if fl.assigned then E.sprintV fl.v else []) (fl.tag.shortNames ++ fl.tag.longNames)
        seen { fs with Error := none, slice := fs.slice ++ [fl] } hkeys0
      cases hfr : firstRepeat seen (fl.tag.shortNames ++ fl.tag.longNames) with
      | some n =>
        rw [hfr] at hadd
        simp only
        cases hres : addNames fl fs.slice.length
            (if fl.assigned then E.sprintV fl.v else []) (fl.tag.shortNames ++ fl.tag.longNames)
            { fs with Error := none, slice := fs.slice ++ [fl] } with
        | mk fs' b =>
          rw [hres] at hadd
          obtain ⟨hb, he⟩ := hadd
          simp only at hb he
          subst hb
          simp only [he, Option.map_some']
      | none =>
        rw [hfr] at hadd
        simp only
        cases hres : addNames fl fs.slice.length
            (if fl.assigned then E.sprintV fl.v else []) (fl.tag.shortNames ++ fl.tag.longNames)
            { fs with Error := none, slice := fs.slice ++ [fl] } with
        | mk fs' b =>
          rw [hres] at hadd
          obtain ⟨hb, he, hk⟩ := hadd
          simp only at hb he hk
          subst hb
          simp only
          exact ih _ fs' hok' he hk

theorem initFlagSet_Error (fields : List F) (fs : FlagSet V) :
    (initFlagSet E fields fs).Error = (initFields E fields fs).1.Error := by
  unfold initFlagSet
  split
  · rename_i fs' h
    rw [h]
  · rename_i fs' h
    rw [h]

theorem addNames_owns (fl : flag V) (k : Nat) (value : Str) (names : List Str)
    (fs : FlagSet V) (hk : fs.slice[k]? = some fl)
    (hsub : ∀ n ∈ names, n ∈ fl.tag.shortNames ++ fl.tag.longNames) (h : Owns fs) :
    Owns (addNames fl k value names fs).1 := by
  induction names generalizing fs with
  | nil => exact h
  | cons name names ih =>
    unfold addNames
    split
    · exact h
    · apply ih
      · exact hk
      · exact fun n hn => hsub n (List.mem_cons_of_mem _ hn)
      · intro n k' hn
        by_cases hnn : n = name
        · subst hnn
          simp only [lookup_insert_self] at hn
          have : k = k' := Option.some.inj hn
          subst this
          exact ⟨fl, hk, hsub n (List.mem_cons_self _ _)⟩
        · simp only [lookup_insert_ne name n k fs.flags hnn] at hn
          exact h n k' hn

/-- The loop over the fields of a record without a failing field and without a repeated
name: it runs to its end, appends the descriptors of the fields that are not excluded,
and enters every declared name under the position of its descriptor. -/
theorem initFields_valid (fields : List F) (seen : List Str) (fs : FlagSet V)
    (hok : ∀ f ∈ fields, (E.newFlag f).2 = none)
    (hfr : firstRepeat seen (allNames E fields) = none)
    (herr : fs.Error = none) (hkeys : KeysAre fs seen) (hown : Owns fs) :
    (initFields E fields fs).2 = false ∧
    (initFields E fields fs).1.slice = fs.slice ++ fields.filterMap (fun f => (E.newFlag f).1) ∧
    (initFields E fields fs).1.Error = none ∧
    KeysAre (initFields E fields fs).1 ((allNames E fields).reverse ++ seen) ∧
    Owns (initFields E fields fs).1 := by
  induction fields generalizing seen fs with
  | nil => exact ⟨rfl, by simp [initFields], herr, by simpa [allNames, initFields] using hkeys, hown⟩
  | cons f fields ih =>
    have hf : (E.newFlag f).2 = none := hok f (List.mem_cons_self _ _)
    have hok' : ∀ g ∈ fields, (E.newFlag g).2 = none :=
      fun g hg => hok g (List.mem_cons_of_mem _ hg)
    have hall : allNames E (f :: fields) =
        (match (E.newFlag f).1 with
          | some fl => fl.tag.shortNames ++ fl.tag.longNames
          | none => []) ++ allNames E fields := by
      simp [allNames]
    rw [hall, firstRepeat_append] at hfr
    rw [hall]
    unfold initFields
    simp only [hf, Option.map_none', Option.isSome_none, Bool.false_eq_true, if_false]
    cases hfl : (E.newFlag f).1 with
    | none =>
      rw [hfl] at hfr
      simp only [firstRepeat, List.reverse_nil, List.nil_append] at hfr
      have := ih seen { fs with Error := none } hok' hfr rfl hkeys hown
      simpa [List.filterMap_cons, hfl] using this
    | some fl =>
      rw [hfl] at hfr
      simp only at hfr ⊢
      have hkeys0 : KeysAre { fs with Error := none, slice := fs.slice ++ [fl] } seen := hkeys
      have hown0 : Owns { fs with Error := none, slice := fs.slice ++ [fl] } := by
        intro n k hn
        obtain ⟨fl', hfl', hn'⟩ := hown n k hn
        refine ⟨fl', ?_, hn'⟩
        have hlt : k < fs.slice.length := by
          by_contra hc
          have : fs.slice[k]? = none := by simp; omega
          rw [this] at hfl'
          cases hfl'
        simp only
        rw [List.getElem?_append_left hlt]
        exact hfl'
      have hadd := addNames_firstRepeat fl fs.slice.length
        (if fl.assigned then E.sprintV fl.v else []) (fl.tag.shortNames ++ fl.tag.longNames)
        seen { fs with Error := none, slice := fs.slice ++ [fl] } hkeys0
      have hsl := addNames_slice fl fs.slice.length
        (if fl.assigned then E.sprintV fl.v else []) (fl.tag.shortNames ++ fl.tag.longNames)
        { fs with Error := none, slice := fs.slice ++ [fl] }
      have hao := addNames_owns fl fs.slice.length
        (if fl.assigned then E.sprintV fl.v else []) (fl.tag.shortNames ++ fl.tag.longNames)
        { fs with Error := none, slice := fs.slice ++ [fl] } (by simp) (fun n hn => hn) hown0
      cases hfr1 : firstRepeat seen (fl.tag.shortNames ++ fl.tag.longNames) with
      | some n =>
        rw [hfr1] at hfr
        cases hfr
      | none =>
        rw [hfr1] at hfr hadd
        simp only at hfr
        cases hres : addNames fl fs.slice.length
            (if fl.assigned then E.sprintV fl.v else []) (fl.tag.shortNames ++ fl.tag.longNames)
            { fs with Error := none, slice := fs.slice ++ [fl] } with
        | mk fs' b =>
          rw [hres] at hadd hsl hao
          obtain ⟨hb, he, hk⟩ := hadd
          simp only at hb he hk hsl hao
          subst hb
          simp only
          have := ih _ fs' hok' hfr he hk hao
          rw [hsl] at this
          simpa [List.filterMap_cons, hfl] using this

end Duplicates

/-! ## The `Values` map and the trace -/

section Values

variable {F V : Type} (E : Env F V)

theorem lastChecked_append (n : Str) (tr tr' : List Event) :
    lastChecked n (tr ++ tr') = (lastChecked n tr').or (lastChecked n tr) := by
  induction tr with
  | nil => simp [lastChecked, Option.or_none]
  | cons e tr ih =>
    show (lastChecked n (tr ++ tr')).or (checkedFor n e)
      = (lastChecked n tr').or ((lastChecked n tr).or (checkedFor n e))
    rw [ih, Option.or_assoc]

theorem lastChecked_snoc (n : Str) (tr : List Event) (e : Event) :
    lastChecked n (tr ++ [e]) = (checkedFor n e).or (lastChecked n tr) := by
  rw [lastChecked_append]
  simp [lastChecked]

theorem Recorded.event (fs : FlagSet V) (e : Event) (h : Recorded fs)
    (he : ∀ n, checkedFor n e = none) :
    Recorded { fs with trace := fs.trace ++ [e] } := by
  refine ⟨?_, h.2⟩
  intro n s hn
  simp only [lastChecked_snoc, he, Option.none_or] at hn
  exact h.1 n s hn

theorem Recorded.error (fs : FlagSet V) (err : Option GoError) (h : Recorded fs) :
    Recorded { fs with Error := err } := h

theorem callSet_recorded (i k : Nat) (raw : Str) (fs : FlagSet V) (h : Recorded fs) :
    Recorded (callSet E i k raw fs) := by
  unfold callSet
  split
  · exact h
  · refine ⟨?_, h.2⟩
    intro n s hn
    simp only [lastChecked_snoc, checkedFor, Option.none_or] at hn
    exact h.1 n s hn

theorem recordValue_recorded (i : Nat) (name : Str) (k : Nat) (fs : FlagSet V)
    (h : Recorded fs) : Recorded (recordValue E i name k fs) := by
  unfold recordValue
  split
  · exact h
  · rename_i fl hfl
    split
    · constructor
      · intro n s hn
        simp only [lastChecked_snoc, checkedFor] at hn
        by_cases hname : name = n
        · subst hname
          simp only [if_true, Option.or_some, Option.some.injEq, Prod.mk.injEq, true_and] at hn
          subst hn
          simp only [lookup_insert_self]
        · simp only [hname, if_false, Option.none_or] at hn
          simp only
          rw [lookup_insert_ne name n _ _ (fun e => hname e.symm)]
          exact h.1 n s hn
      · intro n vs hn
        by_cases hname : n = name
        · subst hname
          simp only [lookup_insert_self, Option.some.injEq] at hn
          subst hn
          rfl
        · simp only [lookup_insert_ne name n _ _ hname] at hn
          exact h.2 n vs hn
    · refine ⟨?_, h.2⟩
      intro n s hn
      simp only [lastChecked_snoc, checkedFor] at hn
      by_cases hname : name = n
      · subst hname
        simp at hn
      · simp only [hname, if_false, Option.none_or] at hn
        exact h.1 n s hn

theorem cluster_recorded (i : Nat) (chars : List Char) (fs : FlagSet V) (h : Recorded fs) :
    Recorded (cluster E i chars fs).1 := by
  induction chars generalizing fs with
  | nil => exact h
  | cons c chars ih =>
    unfold cluster
    simp only
    split
    · exact h
    · rename_i k hk
      split
      · exact callSet_recorded E i k [] fs h
      · exact ih _ (recordValue_recorded E i _ k _ (callSet_recorded E i k [] fs h))

theorem flagArg_recorded (i : Nat) (arg : Str) (values : List Str) (fs : FlagSet V)
    (h : Recorded fs) : Recorded (flagArg E i arg values fs).1 := by
  unfold flagArg
  split
  · exact h
  · rename_i arg0 inline hs
    split
    · split
      · exact h
      · exact cluster_recorded E i _ fs h
    · rename_i k hk
      have h1 : Recorded
          (match inline ++ values with
            | [] => callSet E i k [] fs
            | [v] => callSet E i k v fs
            | _ => { fs with Error := some (.errorf (tooManyText (inline ++ values).length arg0)) }) := by
        split
        · exact callSet_recorded E i k [] fs h
        · exact callSet_recorded E i k _ fs h
        · exact h
      simp only
      split
      · exact h1
      · exact recordValue_recorded E i _ k _ h1

theorem scan_recorded (i : Nat) (rest : List Str) (fs : FlagSet V) (h : Recorded fs) :
    Recorded (scan E i rest fs).1 := by
  induction rest generalizing i fs with
  | nil => exact h
  | cons arg rest ih =>
    unfold scan
    split
    · exact ih (i + 1) fs h
    · have h0 : Recorded { fs with trace := fs.trace ++ [Event.flagToken i] } :=
        Recorded.event fs _ h (fun _ => rfl)
      have h1 := flagArg_recorded E i arg (rest.takeWhile noDash) _ h0
      split
      · rename_i fs' hfa
        rw [hfa] at h1
        exact h1
      · rename_i fs' hfa
        rw [hfa] at h1
        exact ih (i + 1) fs' h1

theorem finish_recorded (r : FlagSet V × Bool) (h : Recorded r.1) : Recorded (finish E r) := by
  obtain ⟨fs, b⟩ := r
  cases b with
  | true => exact h
  | false =>
    unfold finish validate
    simp only
    have h0 : Recorded { fs with trace := fs.trace ++ [Event.validate] } :=
      Recorded.event fs _ h (fun _ => rfl)
    split
    · exact h0
    · exact h0

theorem addNames_oneEach (fl : flag V) (k : Nat) (value : Str) (names : List Str)
    (fs : FlagSet V) (h : ∀ n vs, lookup n fs.Values = some vs → vs.length = 1) :
    ∀ n vs, lookup n (addNames fl k value names fs).1.Values = some vs → vs.length = 1 := by
  induction names generalizing fs with
  | nil => exact h
  | cons name names ih =>
    unfold addNames
    split
    · exact h
    · apply ih
      intro n vs hn
      simp only at hn
      split at hn
      · by_cases hname : n = name
        · subst hname
          simp only [lookup_insert_self, Option.some.injEq] at hn
          subst hn
          rfl
        · simp only [lookup_insert_ne name n _ _ hname] at hn
          exact h n vs hn
      · exact h n vs hn

theorem initFields_oneEach (fields : List F) (fs : FlagSet V)
    (h : ∀ n vs, lookup n fs.Values = some vs → vs.length = 1) :
    ∀ n vs, lookup n (initFields E fields fs).1.Values = some vs → vs.length = 1 := by
  induction fields generalizing fs with
  | nil => exact h
  | cons f fields ih =>
    unfold initFields
    simp only
    split
    · exact h
    · split
      · exact ih _ h
      · rename_i fl hfl
        have hb := addNames_oneEach fl fs.slice.length
            (if fl.assigned then E.sprintV fl.v else []) (fl.tag.shortNames ++ fl.tag.longNames)
            { fs with Error := (E.newFlag f).2.map GoError.returned, slice := fs.slice ++ [fl] } h
        split
        · rename_i fs' hadd
          rw [hadd] at hb
          exact hb
        · rename_i fs' hadd
          rw [hadd] at hb
          exact ih _ hb

theorem initFlagSet_recorded (fields : List F) : Recorded (initFlagSet E fields (newFlagSet V)) := by
  constructor
  · intro n s hn
    rw [initFlagSet_trace] at hn
    simp [newFlagSet, lastChecked] at hn
  · have := initFields_oneEach E fields (newFlagSet V) (by
      intro n vs hn
      simp [newFlagSet, lookup] at hn)
    unfold initFlagSet
    split
    · rename_i fs' h
      rw [h] at this
      exact this
    · rename_i fs' h
      rw [h] at this
      exact this

theorem parse_recorded (fields : List F) (args : List Str) : Recorded (parse E fields args) := by
  rw [parse_eq]
  split
  · exact initFlagSet_recorded E fields
  · exact finish_recorded E _ (scan_recorded E 0 args _ (initFlagSet_recorded E fields))

/-! ### Every occurrence of a name gets as far as the test -/

theorem finish_subset (r : FlagSet V × Bool) : ∀ e ∈ r.1.trace, e ∈ (finish E r).trace := by
  intro e he
  rcases finish_trace E r with h | h
  · rw [h]
    exact he
  · rw [h]
    exact List.mem_append_left _ he

theorem recordValue_event (i : Nat) (name : Str) (k : Nat) (fs : FlagSet V)
    (hk : k < fs.slice.length) :
    ∃ ok s, Event.checked i name k ok s ∈ (recordValue E i name k fs).trace := by
  unfold recordValue
  rw [List.getElem?_eq_getElem hk]
  simp only
  split
  · exact ⟨true, E.sprintV fs.slice[k].v, by simp⟩
  · exact ⟨false, E.sprintV fs.slice[k].v, by simp⟩

theorem cluster_checked (i : Nat) (chars : List Char) (fs : FlagSet V) (hb : Bound fs)
    (h : (cluster E i chars fs).2 = false) :
    ∀ c ∈ chars, ∃ k ok s,
      Event.checked i (dashOne ++ [c]) k ok s ∈ (cluster E i chars fs).1.trace := by
  induction chars generalizing fs with
  | nil => simp
  | cons c chars ih =>
    unfold cluster at h ⊢
    simp only at h ⊢
    cases hl : lookup (dashOne ++ [c]) fs.flags with
    | none =>
      rw [hl] at h
      simp at h
    | some k =>
      rw [hl] at h
      simp only at h ⊢
      by_cases he : (callSet E i k [] fs).Error.isSome = true
      · rw [if_pos he] at h
        simp at h
      · rw [if_neg he] at h ⊢
        have hkl : k < fs.slice.length := hb _ _ hl
        have hkeep := (callSet_keeps E i k [] fs).trans
          (recordValue_keeps E i (dashOne ++ [c]) k (callSet E i k [] fs))
        have hkl' : k < (callSet E i k [] fs).slice.length := by
          rw [(callSet_keeps E i k [] fs).length]
          exact hkl
        intro c' hc'
        rcases List.mem_cons.mp hc' with heq | hmem
        · subst heq
          obtain ⟨ok, s, hev⟩ :=
            recordValue_event E i (dashOne ++ [c']) k (callSet E i k [] fs) hkl'
          exact ⟨k, ok, s, (cluster_keeps E i chars _).subset _ hev⟩
        · exact ih _ (hkeep.bound hb) h c' hmem

/-- In a run that enters the validation pass, the iteration for a token that the run
reaches did not return. -/
theorem parse_token_continues (fields : List F) (args : List Str) (i : Nat)
    (hval : Event.validate ∈ (parse E fields args).trace)
    (hreach : Event.flagToken i ∈ (parse E fields args).trace) :
    ∃ fs arg, args[i]? = some arg ∧ fs.flags = (initFlagSet E fields (newFlagSet V)).flags ∧
      Bound fs ∧
      (flagArg E i arg (collect args i)
        { fs with trace := fs.trace ++ [Event.flagToken i] }).2 = false ∧
      ∀ e ∈ (flagArg E i arg (collect args i)
        { fs with trace := fs.trace ++ [Event.flagToken i] }).1.trace,
        e ∈ (parse E fields args).trace := by
  obtain ⟨fs, arg, hget, _, _, hk, he, hb, hc, hp⟩ := parse_token E fields args i hreach
  refine ⟨fs, arg, hget, hk.flags, hb, ?_, ?_⟩
  · have h0 : Keeps i (i + 1) fs { fs with trace := fs.trace ++ [Event.flagToken i] } :=
      Keeps.of_event i fs (Event.flagToken i) rfl
    have h1 := h0.trans (flagArg_keeps E i arg (collect args i)
      { fs with trace := fs.trace ++ [Event.flagToken i] })
    have h2 := (hk.mono (le_refl 0) (Nat.le_succ i)).trans (h1.mono (Nat.zero_le i) (le_refl _))
    cases hfa : flagArg E i arg (collect args i)
        { fs with trace := fs.trace ++ [Event.flagToken i] } with
    | mk fs' b =>
      cases b with
      | false => rfl
      | true =>
        exfalso
        rw [hfa] at hp h2
        have hpar : parse E fields args = fs' := by rw [hp]; rfl
        rw [hpar] at hval
        obtain ⟨j, hj, _⟩ := h2.stopped (by rw [initFlagSet_trace]; rfl) _ hval
        simp [Event.tok] at hj
  · intro e hmem
    rw [hp]
    apply finish_subset
    cases hfa : flagArg E i arg (collect args i)
        { fs with trace := fs.trace ++ [Event.flagToken i] } with
    | mk fs' b =>
      rw [hfa] at hmem
      cases b with
      | true => exact hmem
      | false => exact (scan_keeps E (i + 1) (args.drop (i + 1)) fs').subset _ hmem

/-- A state reached from the freshly built registry through events of the tokens up to
`i` only is one in which the run stopped at token `i` or before. -/
theorem Keeps.stoppedAt {i : Nat} {a b : FlagSet V} (h : Keeps 0 (i + 1) a b)
    (ha : a.trace = []) : StoppedAt i b := by
  have hs := h.stopped ha
  constructor
  · intro hm
    obtain ⟨j, hj, _⟩ := hs _ hm
    simp [Event.tok] at hj
  · intro e he j hj
    obtain ⟨j', hj', hlt⟩ := hs e he
    rw [hj] at hj'
    have : j = j' := Option.some.inj hj'
    omega

/-- A cluster whose bytes `pre` resolve and whose next byte `c` does not: `parse` returns;
the setters of an initial part of `pre` were called, one call with the empty text each, in
order, and at least one if `pre` is not empty; either all of them were and the error is
"unknown flag `-c`", or the error is the one a setter handed back. -/
theorem cluster_unknown (i : Nat) (idx : Char → Nat) (pre post : List Char) (c : Char)
    (fs : FlagSet V) (hb : Bound fs)
    (hres : ∀ x ∈ pre, lookup (dashOne ++ [x]) fs.flags = some (idx x))
    (hc : lookup (dashOne ++ [c]) fs.flags = none) :
    (cluster E i (pre ++ c :: post) fs).2 = true ∧
    ∃ m, m ≤ pre.length ∧ (pre ≠ [] → 0 < m) ∧
      setCalls i (cluster E i (pre ++ c :: post) fs).1.trace
        = setCalls i fs.trace ++ (pre.take m).map (fun x => (idx x, [])) ∧
      (((cluster E i (pre ++ c :: post) fs).1.Error
            = some (.errorf (unknownText (dashOne ++ [c]))) ∧ m = pre.length) ∨
        ∃ e, (cluster E i (pre ++ c :: post) fs).1.Error = some (.returned e)) := by
  induction pre generalizing fs with
  | nil =>
    have hcl : cluster E i (c :: post) fs
        = ({ fs with Error := some (.errorf (unknownText (dashOne ++ [c]))) }, true) := by
      rw [cluster]
      simp only [hc]
    simp only [List.nil_append]
    rw [hcl]
    exact ⟨rfl, 0, le_refl 0, fun h => absurd rfl h, by simp, Or.inl ⟨rfl, rfl⟩⟩
  | cons x pre ih =>
    have hx := hres x (List.mem_cons_self _ _)
    have hk : idx x < fs.slice.length := hb _ _ hx
    simp only [List.cons_append]
    unfold cluster
    simp only [hx]
    have hcall : setCalls i (callSet E i (idx x) [] fs).trace
        = setCalls i fs.trace ++ [(idx x, [])] := by
      rw [callSet_trace E i (idx x) [] fs hk, setCalls_append]
      simp [setCalls]
    by_cases he : (callSet E i (idx x) [] fs).Error.isSome = true
    · rw [if_pos he]
      refine ⟨rfl, 1, by simp, fun _ => Nat.one_pos, ?_, Or.inr ?_⟩
      · simp only [hcall]
        simp
      · rw [callSet_Error E i (idx x) [] fs hk] at he ⊢
        cases hs : (E.set fs.slice[idx x] []).2 with
        | none => simp [hs] at he
        | some e => exact ⟨e, rfl⟩
    · rw [if_neg he]
      have hkeep : Keeps i (i + 1) fs (recordValue E i (dashOne ++ [x]) (idx x)
          (callSet E i (idx x) [] fs)) :=
        (callSet_keeps E i (idx x) [] fs).trans (recordValue_keeps E i _ _ _)
      obtain ⟨h2, m, hm, _, hcalls, herr⟩ := ih
        (recordValue E i (dashOne ++ [x]) (idx x) (callSet E i (idx x) [] fs))
        (hkeep.bound hb)
        (by
          intro y hy
          rw [hkeep.flags]
          exact hres y (List.mem_cons_of_mem _ hy))
        (by rw [hkeep.flags]; exact hc)
      refine ⟨h2, m + 1, by simp; omega, fun _ => Nat.succ_pos m, ?_, ?_⟩
      · rw [hcalls, recordValue_setCalls, hcall]
        simp
      · rcases herr with ⟨h3, h4⟩ | h3
        · exact Or.inl ⟨h3, by simp [h4]⟩
        · exact Or.inr h3

end Values

/-! ## Tokens before the first flag token -/

section Shift

variable {F V : Type} (E : Env F V)

theorem callSet_shift (d i k : Nat) (raw : Str) (fs : FlagSet V) :
    callSet E (i + d) k raw (fs.shift d) = (callSet E i k raw fs).shift d := by
  unfold callSet FlagSet.shift
  simp only
  split <;> simp [Event.shift]

theorem recordValue_shift (d i : Nat) (name : Str) (k : Nat) (fs : FlagSet V) :
    recordValue E (i + d) name k (fs.shift d) = (recordValue E i name k fs).shift d := by
  unfold recordValue FlagSet.shift
  simp only
  split
  · rfl
  · split <;> simp [Event.shift]

theorem cluster_shift (d i : Nat) (chars : List Char) (fs : FlagSet V) :
    cluster E (i + d) chars (fs.shift d)
      = ((cluster E i chars fs).1.shift d, (cluster E i chars fs).2) := by
  induction chars generalizing fs with
  | nil => rfl
  | cons c chars ih =>
    rw [cluster, cluster]
    simp only
    have hfl : (fs.shift d).flags = fs.flags := rfl
    rw [hfl]
    cases lookup (dashOne ++ [c]) fs.flags with
    | none => rfl
    | some k =>
      simp only
      rw [callSet_shift]
      have herr : ((callSet E i k [] fs).shift d).Error = (callSet E i k [] fs).Error := rfl
      rw [herr]
      split
      · rfl
      · rw [recordValue_shift, ih]

theorem flagArg_shift (d i : Nat) (arg : Str) (values : List Str) (fs : FlagSet V) :
    flagArg E (i + d) arg values (fs.shift d)
      = ((flagArg E i arg values fs).1.shift d, (flagArg E i arg values fs).2) := by
  cases hl : lookup (bareName arg) fs.flags with
  | none =>
    rw [flagArg_unknown E (i + d) arg values (fs.shift d) hl, flagArg_unknown E i arg values fs hl]
    split
    · rfl
    · exact cluster_shift E d i _ fs
  | some k =>
    rw [flagArg_found E (i + d) k arg values (fs.shift d) hl, flagArg_found E i k arg values fs hl]
    have herr : ∀ x : FlagSet V, (x.shift d).Error = x.Error := fun _ => rfl
    match inlineValues arg ++ values with
    | [] =>
      simp only
      rw [callSet_shift, herr]
      split
      · rfl
      · rw [recordValue_shift]
    | [v] =>
      simp only
      rw [callSet_shift, herr]
      split
      · rfl
      · rw [recordValue_shift]
    | a :: b :: l => rfl

theorem scan_shift (d i : Nat) (rest : List Str) (fs : FlagSet V) :
    scan E (i + d) rest (fs.shift d)
      = ((scan E i rest fs).1.shift d, (scan E i rest fs).2) := by
  induction rest generalizing i fs with
  | nil => rfl
  | cons arg rest ih =>
    rw [scan.eq_2, scan.eq_2]
    have hi : i + d + 1 = i + 1 + d := by omega
    by_cases hd : (!HasPrefix arg dashOne) = true
    · rw [if_pos hd, if_pos hd, hi]
      exact ih (i + 1) fs
    · rw [if_neg hd, if_neg hd]
      have h0 : ({ fs.shift d with
            trace := (fs.shift d).trace ++ [Event.flagToken (i + d)] } : FlagSet V)
          = ({ fs with trace := fs.trace ++ [Event.flagToken i] } : FlagSet V).shift d := by
        simp [FlagSet.shift, Event.shift]
      rw [h0, flagArg_shift]
      cases hfa : flagArg E i arg (rest.takeWhile noDash)
          { fs with trace := fs.trace ++ [Event.flagToken i] } with
      | mk fs' b =>
        cases b with
        | true => rfl
        | false =>
          simp only
          rw [hi]
          exact ih (i + 1) fs'

theorem finish_shift (d : Nat) (r : FlagSet V × Bool) :
    finish E (r.1.shift d, r.2) = (finish E r).shift d := by
  obtain ⟨fs, b⟩ := r
  cases b with
  | true => rfl
  | false =>
    unfold finish validate
    simp only
    have hs : (fs.shift d).slice = fs.slice := rfl
    rw [hs]
    split <;> simp [FlagSet.shift, Event.shift]

theorem scan_noDash_append (i : Nat) (p rest : List Str) (fs : FlagSet V)
    (hp : ∀ a ∈ p, HasPrefix a dashOne = false) :
    scan E i (p ++ rest) fs = scan E (i + p.length) rest fs := by
  induction p generalizing i with
  | nil => rfl
  | cons a p ih =>
    have ha : (!HasPrefix a dashOne) = true := by
      rw [hp a (List.mem_cons_self _ _)]
      rfl
    rw [List.cons_append, scan.eq_2, if_pos ha, ih (i + 1) (fun x hx => hp x (List.mem_cons_of_mem _ hx))]
    congr 1
    simp
    omega

theorem allCalls_shift (d : Nat) (tr : List Event) :
    allCalls (tr.map (Event.shift d)) = allCalls tr := by
  induction tr with
  | nil => rfl
  | cons e tr ih => cases e <;> simp [allCalls, Event.shift, ih]

/-- The run on `p ++ rest`, `p` holding no token that begins with `-`, is the run on `rest`
with the token indices of the trace moved up by the length of `p`. -/
theorem parse_noDash_append (fields : List F) (p rest : List Str)
    (hp : ∀ a ∈ p, HasPrefix a dashOne = false) :
    parse E fields (p ++ rest) = (parse E fields rest).shift p.length := by
  have htr : (initFlagSet E fields (newFlagSet V)).trace = [] := by
    rw [initFlagSet_trace]
    rfl
  have hinit : (initFlagSet E fields (newFlagSet V)).shift p.length
      = initFlagSet E fields (newFlagSet V) := by
    unfold FlagSet.shift
    rw [htr]
    cases h : initFlagSet E fields (newFlagSet V)
    rw [h] at htr
    simp only at htr
    subst htr
    rfl
  rw [parse_eq, parse_eq]
  split
  · exact hinit.symm
  · rw [scan_noDash_append E 0 p rest _ hp, ← finish_shift]
    have := scan_shift E p.length 0 rest (initFlagSet E fields (newFlagSet V))
    rw [hinit] at this
    rw [this]

end Shift

/-! ## The keys of `Values` that a step writes -/

section Keys

variable {F V : Type} (E : Env F V)

theorem callSet_Values (i k : Nat) (raw : Str) (fs : FlagSet V) :
    (callSet E i k raw fs).Values = fs.Values := by
  unfold callSet
  split <;> rfl

theorem recordValue_lookup_ne (i : Nat) (name m : Str) (k : Nat) (fs : FlagSet V)
    (h : m ≠ name) :
    lookup m (recordValue E i name k fs).Values = lookup m fs.Values := by
  unfold recordValue
  split
  · rfl
  · split
    · exact lookup_insert_ne name m _ _ h
    · rfl

theorem flagArg_found_lookup_ne (i k : Nat) (arg : Str) (values : List Str) (fs : FlagSet V)
    (hreg : lookup (bareName arg) fs.flags = some k) (m : Str) (h : m ≠ bareName arg) :
    lookup m (flagArg E i arg values fs).1.Values = lookup m fs.Values := by
  have hv : (match inlineValues arg ++ values with
      | [] => callSet E i k [] fs
      | [v] => callSet E i k v fs
      | _ => { fs with Error := some (.errorf
          (tooManyText (inlineValues arg ++ values).length (bareName arg))) }).Values
      = fs.Values := by
    split
    · exact callSet_Values E i k [] fs
    · exact callSet_Values E i k _ fs
    · rfl
  rw [flagArg_found E i k arg values fs hreg]
  split
  · rw [hv]
  · rw [recordValue_lookup_ne E i _ m k _ h, hv]

end Keys

/-! ## The texts passed to setters -/

section Passed

variable {F V : Type} (E : Env F V)

theorem Split_single (s : Str) (sep : Char) (b : Str) (h : Split s sep = [b]) : s = b := by
  induction s generalizing b with
  | nil =>
    simp only [Split, List.cons.injEq, and_true] at h
    exact h
  | cons c cs ih =>
    rw [Split] at h
    split at h
    · have := Split_ne_nil cs sep
      simp only [List.cons.injEq] at h
      exact absurd h.2 this
    · cases hs : Split cs sep with
      | nil => exact absurd hs (Split_ne_nil cs sep)
      | cons p ps =>
        rw [hs] at h
        simp only [List.cons.injEq] at h
        rw [← h.1, ih p (by rw [hs, h.2])]

theorem Split_pair (s : Str) (sep : Char) (a b : Str) (h : Split s sep = [a, b]) :
    s = a ++ sep :: b := by
  induction s generalizing a with
  | nil => simp [Split] at h
  | cons c cs ih =>
    rw [Split] at h
    split at h
    · rename_i hc
      simp only [List.cons.injEq] at h
      rw [← h.1, hc, Split_single cs sep b h.2]
      rfl
    · cases hs : Split cs sep with
      | nil => exact absurd hs (Split_ne_nil cs sep)
      | cons p ps =>
        rw [hs] at h
        simp only [List.cons.injEq] at h
        rw [← h.1, ih p (by rw [hs, h.2])]
        rfl

theorem collect_noDash (args : List Str) (i : Nat) :
    ∀ v ∈ collect args i, HasPrefix v dashOne = false := by
  intro v hv
  have := List.mem_takeWhile_imp hv
  simpa [noDash] using this

theorem callSet_setOK (args : List Str) (i k : Nat) (raw : Str) (fs : FlagSet V)
    (h : ∀ e ∈ fs.trace, SetOK args e) (hraw : SetOK args (Event.set i k raw)) :
    ∀ e ∈ (callSet E i k raw fs).trace, SetOK args e := by
  unfold callSet
  split
  · exact h
  · intro e he
    simp only [List.mem_append, List.mem_singleton] at he
    rcases he with he | he
    · exact h e he
    · rw [he]
      exact hraw

theorem recordValue_setOK (args : List Str) (i : Nat) (name : Str) (k : Nat) (fs : FlagSet V)
    (h : ∀ e ∈ fs.trace, SetOK args e) :
    ∀ e ∈ (recordValue E i name k fs).trace, SetOK args e := by
  unfold recordValue
  split
  · exact h
  · split
    all_goals
      intro e he
      simp only [List.mem_append, List.mem_singleton] at he
      rcases he with he | he
      · exact h e he
      · rw [he]
        trivial

theorem cluster_setOK (args : List Str) (i : Nat) (chars : List Char) (fs : FlagSet V)
    (h : ∀ e ∈ fs.trace, SetOK args e) (hraw : ∀ k, SetOK args (Event.set i k [])) :
    ∀ e ∈ (cluster E i chars fs).1.trace, SetOK args e := by
  induction chars generalizing fs with
  | nil => exact h
  | cons c chars ih =>
    rw [cluster]
    split
    · exact h
    · rename_i k _
      simp only
      split
      · exact callSet_setOK E args i k [] fs h (hraw k)
      · exact ih _ (recordValue_setOK E args i _ k _ (callSet_setOK E args i k [] fs h (hraw k)))

theorem flagArg_setOK (args : List Str) (i : Nat) (arg : Str) (values : List Str)
    (fs : FlagSet V) (h : ∀ e ∈ fs.trace, SetOK args e)
    (hempty : ∀ k, SetOK args (Event.set i k []))
    (hone : ∀ k v, inlineValues arg ++ values = [v] → SetOK args (Event.set i k v)) :
    ∀ e ∈ (flagArg E i arg values fs).1.trace, SetOK args e := by
  cases hl : lookup (bareName arg) fs.flags with
  | none =>
    rw [flagArg_unknown E i arg values fs hl]
    split
    · exact h
    · exact cluster_setOK E args i _ fs h hempty
  | some k =>
    have hm : ∀ e ∈ (match inlineValues arg ++ values with
        | [] => callSet E i k [] fs
        | [v] => callSet E i k v fs
        | _ => { fs with Error := some (.errorf
            (tooManyText (inlineValues arg ++ values).length (bareName arg))) }).trace,
        SetOK args e := by
      split
      · exact callSet_setOK E args i k [] fs h (hempty k)
      · rename_i v hv
        exact callSet_setOK E args i k v fs h (hone k v hv)
      · exact h
    rw [flagArg_found E i k arg values fs hl]
    split
    · exact hm
    · exact recordValue_setOK E args i _ k _ hm

theorem scan_setOK (args : List Str) (i : Nat) (rest : List Str) (fs : FlagSet V)
    (hrest : args.drop i = rest) (h : ∀ e ∈ fs.trace, SetOK args e) :
    ∀ e ∈ (scan E i rest fs).1.trace, SetOK args e := by
  induction rest generalizing i fs with
  | nil => exact h
  | cons arg rest ih =>
    have hi : args[i]? = some arg := by
      have := congrArg (fun l => l[0]?) hrest
      simpa [List.getElem?_drop] using this
    have hnext : args.drop (i + 1) = rest := by
      have := congrArg List.tail hrest
      simpa [List.tail_drop] using this
    rw [scan.eq_2]
    split
    · exact ih (i + 1) fs hnext h
    · rename_i hd
      have hdash : HasPrefix arg dashOne = true := by simpa using hd
      have hcol : collect args i = rest.takeWhile noDash := by
        unfold collect
        rw [hnext]
      have hfa : ∀ e ∈ (flagArg E i arg (rest.takeWhile noDash)
          { fs with trace := fs.trace ++ [Event.flagToken i] }).1.trace, SetOK args e := by
        apply flagArg_setOK E args i arg _ _
        · intro e he
          simp only [List.mem_append, List.mem_singleton] at he
          rcases he with he | he
          · exact h e he
          · rw [he]
            trivial
        · intro k
          exact ⟨arg, hi, hdash, Or.inl rfl⟩
        · intro k v hv
          exact ⟨arg, hi, hdash, Or.inr (by rw [hcol]; exact hv)⟩
      cases hr : flagArg E i arg (rest.takeWhile noDash)
          { fs with trace := fs.trace ++ [Event.flagToken i] } with
      | mk fs' b =>
        rw [hr] at hfa
        cases b with
        | true => exact hfa
        | false => exact ih (i + 1) fs' hnext hfa

theorem parse_setOK (fields : List F) (args : List Str) :
    ∀ e ∈ (parse E fields args).trace, SetOK args e := by
  have h0 : ∀ e ∈ (initFlagSet E fields (newFlagSet V)).trace, SetOK args e := by
    rw [initFlagSet_trace]
    intro e he
    cases he
  rw [parse_eq]
  split
  · exact h0
  · intro e he
    have hs := scan_setOK E args 0 args _ rfl h0
    rcases finish_trace E (scan E 0 args (initFlagSet E fields (newFlagSet V))) with ht | ht
    · rw [ht] at he
      exact hs e he
    · rw [ht] at he
      simp only [List.mem_append, List.mem_singleton] at he
      rcases he with he | he
      · exact hs e he
      · rw [he]
        trivial

end Passed

/-! ## The bare name of a token -/

section Bare

variable {F V : Type} (E : Env F V)

theorem bareName_cons (c : Char) (cs : Str) :
    bareName (c :: cs) = if c = '=' then [] else c :: bareName cs := by
  unfold bareName
  rw [Split]
  by_cases hc : c = '='
  · rw [if_pos hc, if_pos hc]
    rfl
  · rw [if_neg hc, if_neg hc]
    cases h : Split cs '=' with
    | nil => exact absurd h (Split_ne_nil cs '=')
    | cons p ps => rfl

theorem bareName_isPrefix (t : Str) : HasPrefix t (bareName t) = true := by
  unfold HasPrefix
  induction t with
  | nil => rfl
  | cons c cs ih =>
    rw [bareName_cons]
    split
    · rfl
    · simp [List.isPrefixOf, ih]

theorem bareName_eq_dashOne (t : Str) :
    bareName t = dashOne ↔ t = dashOne ∨ ∃ r, t = '-' :: '=' :: r := by
  rcases t with _ | ⟨c, _ | ⟨d, r⟩⟩
  · simp [bareName, Split, dashOne]
  · rw [bareName_cons]
    by_cases hc : c = '='
    · subst hc
      simp [dashOne]
    · simp [hc, dashOne, bareName, Split]
  · rw [bareName_cons, bareName_cons]
    by_cases hc : c = '='
    · subst hc
      simp [dashOne]
    · by_cases hd : d = '='
      · subst hd
        simp [hc, dashOne]
      · simp [hc, hd, dashOne]

theorem drop_takeWhile_head (post : List Str) (t : Str) (rest : List Str)
    (h : post.drop (post.takeWhile noDash).length = t :: rest) :
    HasPrefix t dashOne = true := by
  induction post with
  | nil => simp at h
  | cons a post ih =>
    rw [List.takeWhile_cons] at h
    split at h
    · exact ih (by simpa using h)
    · rename_i ha
      simp only [List.length_nil, List.drop_zero, List.cons.injEq] at h
      rw [← h.1]
      simpa [noDash] using ha

/-- The step for a token whose bare name is `-` and is not registered: the cluster loop
runs over no byte, and the state is left as it is. -/
theorem flagArg_lone_dash (i : Nat) (t : Str) (values : List Str) (fs : FlagSet V)
    (hbare : bareName t = dashOne) (hreg : lookup dashOne fs.flags = none) :
    flagArg E i t values fs = (fs, false) := by
  rw [flagArg_unknown E i t values fs (by rw [hbare]; exact hreg), hbare]
  rfl

/-- The scan from a flag token that the step leaves without effect goes on behind the
values that follow the token. -/
theorem scan_dropped_token (i : Nat) (t : Str) (post : List Str) (fs : FlagSet V)
    (hdash : HasPrefix t dashOne = true)
    (hstep : flagArg E i t (post.takeWhile noDash)
        { fs with trace := fs.trace ++ [Event.flagToken i] }
      = ({ fs with trace := fs.trace ++ [Event.flagToken i] }, false)) :
    scan E i (t :: post) fs =
      scan E (i + 1 + (post.takeWhile noDash).length)
        (post.drop (post.takeWhile noDash).length)
        { fs with trace := fs.trace ++ [Event.flagToken i] } := by
  rw [scan.eq_2]
  have hd : ¬ (!HasPrefix t dashOne) = true := by simp [hdash]
  rw [if_neg hd, hstep]
  exact scan_skip E (i + 1) post _

/-- The scan from a flag token on holds the event of that token. -/
theorem scan_head_event (i : Nat) (t : Str) (post : List Str) (fs : FlagSet V)
    (hdash : HasPrefix t dashOne = true) :
    Event.flagToken i ∈ (scan E i (t :: post) fs).1.trace := by
  rw [scan.eq_2]
  have hd : ¬ (!HasPrefix t dashOne) = true := by simp [hdash]
  rw [if_neg hd]
  have h1 : Event.flagToken i ∈ (flagArg E i t (post.takeWhile noDash)
      { fs with trace := fs.trace ++ [Event.flagToken i] }).1.trace :=
    (flagArg_keeps E i t _ _).subset _ (by simp)
  cases hr : flagArg E i t (post.takeWhile noDash)
      { fs with trace := fs.trace ++ [Event.flagToken i] } with
  | mk fs' b =>
    rw [hr] at h1
    cases b with
    | true => exact h1
    | false => exact (scan_keeps E (i + 1) post fs').subset _ h1

/-- The run of `parse` on `pre ++ t :: post`, when the fields build and the scan of `pre`
does not return, is the end of the scan from `t` in the state the scan of `pre` left. -/
theorem parse_at_token (fields : List F) (pre post : List Str) (t : Str)
    (hdash : HasPrefix t dashOne = true)
    (herr : (initFlagSet E fields (newFlagSet V)).Error = none)
    (hgo : (scan E 0 pre (initFlagSet E fields (newFlagSet V))).2 = false) :
    parse E fields (pre ++ t :: post) =
      finish E (scan E pre.length (t :: post)
        (scan E 0 pre (initFlagSet E fields (newFlagSet V))).1) := by
  rw [parse_eq, herr, scan_append_dash E 0 pre post t _ hdash, hgo]
  simp only [Option.isSome_none, Bool.false_eq_true, if_false, Nat.zero_add]

end Bare

/-! ## The first field that fails -/

section FirstFailure

variable {F V : Type} (E : Env F V)

theorem initFieldsCalls_fst (fields : List F) (fs : FlagSet V) :
    (initFieldsCalls E fields fs).1 = initFields E fields fs := by
  induction fields generalizing fs with
  | nil => rfl
  | cons f fields ih =>
    unfold initFieldsCalls initFields
    simp only
    split
    · rfl
    · split
      · exact ih _
      · split
        · rfl
        · exact ih _

theorem addNames_Usage (fl : flag V) (k : Nat) (value : Str) (names : List Str)
    (fs : FlagSet V) : (addNames fl k value names fs).1.Usage = fs.Usage := by
  induction names generalizing fs with
  | nil => rfl
  | cons n names ih =>
    unfold addNames
    split
    · rfl
    · rw [ih]

theorem initFields_Usage (fields : List F) (fs : FlagSet V) :
    (initFields E fields fs).1.Usage = fs.Usage := by
  induction fields generalizing fs with
  | nil => rfl
  | cons f fields ih =>
    unfold initFields
    simp only
    split
    · rfl
    · split
      · rw [ih]
      · rename_i fl _
        have hu := addNames_Usage fl fs.slice.length
          (if fl.assigned then E.sprintV fl.v else []) (fl.tag.shortNames ++ fl.tag.longNames)
          { fs with Error := (E.newFlag f).2.map GoError.returned, slice := fs.slice ++ [fl] }
        split
        · rename_i fs' h
          rw [h] at hu
          exact hu
        · rename_i fs' h
          rw [h] at hu
          rw [ih]
          exact hu

theorem initFields_cons (f : F) (fields : List F) (fs : FlagSet V) :
    initFields E (f :: fields) fs =
      if (E.newFlag f).2.isSome then
        ({ fs with Error := (E.newFlag f).2.map GoError.returned }, true)
      else
        match (E.newFlag f).1 with
        | none => initFields E fields { fs with Error := (E.newFlag f).2.map GoError.returned }
        | some fl =>
          match addNames fl fs.slice.length (if fl.assigned then E.sprintV fl.v else [])
              (fl.tag.shortNames ++ fl.tag.longNames)
              { fs with
                Error := (E.newFlag f).2.map GoError.returned
                slice := fs.slice ++ [fl] } with
          | (fs', true) => (fs', true)
          | (fs', false) => initFields E fields fs' := by
  rw [initFields]

theorem initFieldsCalls_cons (f : F) (fields : List F) (fs : FlagSet V) :
    (initFieldsCalls E (f :: fields) fs).2 =
      if (E.newFlag f).2.isSome then [f]
      else
        match (E.newFlag f).1 with
        | none =>
          f :: (initFieldsCalls E fields
            { fs with Error := (E.newFlag f).2.map GoError.returned }).2
        | some fl =>
          match addNames fl fs.slice.length (if fl.assigned then E.sprintV fl.v else [])
              (fl.tag.shortNames ++ fl.tag.longNames)
              { fs with
                Error := (E.newFlag f).2.map GoError.returned
                slice := fs.slice ++ [fl] } with
          | (_, true) => [f]
          | (fs', false) => f :: (initFieldsCalls E fields fs').2 := by
  rw [initFieldsCalls]
  simp only
  split
  · rfl
  · split
    · rfl
    · split <;> rfl

theorem initFields_append (l1 l2 : List F) (fs : FlagSet V) :
    initFields E (l1 ++ l2) fs =
      if (initFields E l1 fs).2 then initFields E l1 fs
      else initFields E l2 (initFields E l1 fs).1 := by
  induction l1 generalizing fs with
  | nil => simp [initFields]
  | cons f l1 ih =>
    rw [List.cons_append, initFields_cons E f (l1 ++ l2), initFields_cons E f l1]
    by_cases h : (E.newFlag f).2.isSome = true
    · simp only [h, if_true]
    · simp only [h, if_false]
      cases hfl : (E.newFlag f).1 with
      | none =>
        simp only
        exact ih _
      | some fl =>
        simp only
        cases hres : addNames fl fs.slice.length (if fl.assigned then E.sprintV fl.v else [])
            (fl.tag.shortNames ++ fl.tag.longNames)
            { fs with
              Error := (E.newFlag f).2.map GoError.returned
              slice := fs.slice ++ [fl] } with
        | mk fs' b =>
          cases b with
          | true => rfl
          | false =>
            exact ih _

theorem initFieldsCalls_append (l1 l2 : List F) (fs : FlagSet V) :
    (initFieldsCalls E (l1 ++ l2) fs).2 =
      if (initFields E l1 fs).2 then (initFieldsCalls E l1 fs).2
      else l1 ++ (initFieldsCalls E l2 (initFields E l1 fs).1).2 := by
  induction l1 generalizing fs with
  | nil => simp [initFields]
  | cons f l1 ih =>
    rw [List.cons_append, initFieldsCalls_cons E f (l1 ++ l2), initFieldsCalls_cons E f l1,
      initFields_cons E f l1]
    by_cases h : (E.newFlag f).2.isSome = true
    · simp only [h, if_true]
    · simp only [h, if_false]
      cases hfl : (E.newFlag f).1 with
      | none =>
        simp only
        rw [ih]
        exact apply_ite (List.cons f) _ _ _
      | some fl =>
        simp only
        cases hres : addNames fl fs.slice.length (if fl.assigned then E.sprintV fl.v else [])
            (fl.tag.shortNames ++ fl.tag.longNames)
            { fs with
              Error := (E.newFlag f).2.map GoError.returned
              slice := fs.slice ++ [fl] } with
        | mk fs' b =>
          cases b with
          | true => rfl
          | false =>
            simp only
            rw [ih]
            exact apply_ite (List.cons f) _ _ _

theorem initFields_cons_error (f : F) (fields : List F) (fs : FlagSet V) (e : Str)
    (he : (E.newFlag f).2 = some e) :
    initFields E (f :: fields) fs = ({ fs with Error := some (.returned e) }, true) ∧
    (initFieldsCalls E (f :: fields) fs).2 = [f] := by
  unfold initFieldsCalls initFields
  simp [he]

theorem initFields_cons_repeat (f : F) (fields : List F) (fs : FlagSet V) (fl : flag V)
    (seen : List Str) (n : Str) (hf : (E.newFlag f).2 = none) (hfl : (E.newFlag f).1 = some fl)
    (hkeys : KeysAre fs seen)
    (hfr : firstRepeat seen (fl.tag.shortNames ++ fl.tag.longNames) = some n) :
    (initFields E (f :: fields) fs).2 = true ∧
    initFields E (f :: fields) fs = initFields E [f] fs ∧
    (initFields E (f :: fields) fs).1.Error = some (.errorf (repeatText n)) ∧
    (initFields E (f :: fields) fs).1.slice = fs.slice ++ [fl] ∧
    (initFields E (f :: fields) fs).1.Usage = fs.Usage ∧
    (initFieldsCalls E (f :: fields) fs).2 = [f] := by
  have hkeys0 : KeysAre { fs with Error := none, slice := fs.slice ++ [fl] } seen := hkeys
  have hadd := addNames_firstRepeat fl fs.slice.length
    (if fl.assigned then E.sprintV fl.v else []) (fl.tag.shortNames ++ fl.tag.longNames)
    seen { fs with Error := none, slice := fs.slice ++ [fl] } hkeys0
  have hsl := addNames_slice fl fs.slice.length
    (if fl.assigned then E.sprintV fl.v else []) (fl.tag.shortNames ++ fl.tag.longNames)
    { fs with Error := none, slice := fs.slice ++ [fl] }
  have hus := addNames_Usage fl fs.slice.length
    (if fl.assigned then E.sprintV fl.v else []) (fl.tag.shortNames ++ fl.tag.longNames)
    { fs with Error := none, slice := fs.slice ++ [fl] }
  rw [hfr] at hadd
  unfold initFieldsCalls initFields
  simp only [hf, hfl, Option.map_none', Option.isSome_none, Bool.false_eq_true, if_false]
  cases hres : addNames fl fs.slice.length
      (if fl.assigned then E.sprintV fl.v else []) (fl.tag.shortNames ++ fl.tag.longNames)
      { fs with Error := none, slice := fs.slice ++ [fl] } with
  | mk fs' b =>
    rw [hres] at hadd hsl hus
    obtain ⟨hb, he⟩ := hadd
    simp only at hb he hsl hus
    subst hb
    exact ⟨rfl, rfl, he, hsl, hus, rfl⟩

end FirstFailure

/-! ## The `Values` map that `initFlagSet` builds -/

section Built

variable {F V : Type} (E : Env F V)

theorem addNames_returned (fl : flag V) (k : Nat) (value : Str) (names : List Str)
    (fs : FlagSet V) (h : (addNames fl k value names fs).2 = true) :
    (addNames fl k value names fs).1.Error.isSome = true := by
  induction names generalizing fs with
  | nil => simp [addNames] at h
  | cons n names ih =>
    unfold addNames at h ⊢
    split
    · rfl
    · rename_i hn
      rw [if_neg hn] at h
      exact ih _ h

theorem initFields_returned (fields : List F) (fs : FlagSet V)
    (h : (initFields E fields fs).2 = true) :
    (initFields E fields fs).1.Error.isSome = true := by
  induction fields generalizing fs with
  | nil => simp [initFields] at h
  | cons f fields ih =>
    rw [initFields_cons] at h ⊢
    by_cases h2 : (E.newFlag f).2.isSome = true
    · simp only [h2, if_true]
      simpa using h2
    · simp only [h2, if_false] at h ⊢
      cases hfl : (E.newFlag f).1 with
      | none =>
        rw [hfl] at h
        exact ih _ h
      | some fl =>
        rw [hfl] at h
        simp only at h ⊢
        have hr := addNames_returned fl fs.slice.length
          (if fl.assigned then E.sprintV fl.v else []) (fl.tag.shortNames ++ fl.tag.longNames)
          { fs with
            Error := (E.newFlag f).2.map GoError.returned
            slice := fs.slice ++ [fl] }
        cases hres : addNames fl fs.slice.length (if fl.assigned then E.sprintV fl.v else [])
            (fl.tag.shortNames ++ fl.tag.longNames)
            { fs with
              Error := (E.newFlag f).2.map GoError.returned
              slice := fs.slice ++ [fl] } with
        | mk fs' b =>
          rw [hres] at h hr
          cases b with
          | true => exact hr rfl
          | false => exact ih _ h

theorem addNames_valuesBuilt (fl : flag V) (k : Nat) (value : Str) (names : List Str)
    (fs : FlagSet V) (hk : fs.slice[k]? = some fl)
    (hval : fl.assigned = true → value = E.sprintV fl.v) (h : ValuesBuilt E fs) :
    ValuesBuilt E (addNames fl k value names fs).1 := by
  induction names generalizing fs with
  | nil => exact h
  | cons name names ih =>
    unfold addNames
    split
    · exact h
    · rename_i hn
      apply ih
      · exact hk
      · intro n
        show lookup n (if fl.assigned then insert name [value] fs.Values else fs.Values) =
          (lookup n (insert name k fs.flags)).bind (fun k =>
            (fs.slice[k]?).bind (fun fl => if fl.assigned then some [E.sprintV fl.v] else none))
        by_cases hnn : n = name
        · subst hnn
          rw [lookup_insert_self]
          simp only [Option.some_bind, hk]
          by_cases ha : fl.assigned = true
          · rw [if_pos ha, if_pos ha, lookup_insert_self, hval ha]
          · rw [if_neg ha, if_neg ha, h n]
            cases hl : lookup n fs.flags with
            | none => rfl
            | some j => rw [hl] at hn; simp at hn
        · rw [lookup_insert_ne name n k _ hnn, ← h n]
          split
          · exact lookup_insert_ne name n _ _ hnn
          · rfl

theorem initFields_valuesBuilt (fields : List F) (fs : FlagSet V) (hb : Bound fs)
    (h : ValuesBuilt E fs) : ValuesBuilt E (initFields E fields fs).1 := by
  induction fields generalizing fs with
  | nil => exact h
  | cons f fields ih =>
    rw [initFields_cons]
    by_cases h2 : (E.newFlag f).2.isSome = true
    · simp only [h2, if_true]
      exact h
    · simp only [h2, if_false]
      cases hfl : (E.newFlag f).1 with
      | none => exact ih _ hb h
      | some fl =>
        simp only
        have hk : ({ fs with
            Error := (E.newFlag f).2.map GoError.returned
            slice := fs.slice ++ [fl] } : FlagSet V).slice[fs.slice.length]? = some fl := by
          simp
        have hb1 : Bound ({ fs with
            Error := (E.newFlag f).2.map GoError.returned
            slice := fs.slice ++ [fl] } : FlagSet V) := by
          intro n j hj
          have := hb n j hj
          simp only [List.length_append, List.length_singleton]
          omega
        have h1 : ValuesBuilt E ({ fs with
            Error := (E.newFlag f).2.map GoError.returned
            slice := fs.slice ++ [fl] } : FlagSet V) := by
          intro n
          rw [h n]
          cases hl : lookup n fs.flags with
          | none => rfl
          | some j =>
            have hj := hb n j hl
            simp only [Option.some_bind]
            rw [List.getElem?_append_left hj]
        have hvb := addNames_valuesBuilt E fl fs.slice.length
          (if fl.assigned then E.sprintV fl.v else []) (fl.tag.shortNames ++ fl.tag.longNames)
          _ hk (by intro ha; rw [if_pos ha]) h1
        have hbb := addNames_Bound fl fs.slice.length
          (if fl.assigned then E.sprintV fl.v else []) (fl.tag.shortNames ++ fl.tag.longNames)
          _ (by simp) hb1
        cases hres : addNames fl fs.slice.length (if fl.assigned then E.sprintV fl.v else [])
            (fl.tag.shortNames ++ fl.tag.longNames)
            { fs with
              Error := (E.newFlag f).2.map GoError.returned
              slice := fs.slice ++ [fl] } with
        | mk fs' b =>
          rw [hres] at hvb hbb
          cases b with
          | true => exact hvb
          | false => exact ih _ hbb hvb

theorem addNames_lookup (fl : flag V) (k : Nat) (value : Str) (names : List Str)
    (fs : FlagSet V) (h : (addNames fl k value names fs).2 = false) :
    (∀ n ∈ names, lookup n (addNames fl k value names fs).1.flags = some k) ∧
    (∀ n j, lookup n fs.flags = some j →
      lookup n (addNames fl k value names fs).1.flags = some j) := by
  induction names generalizing fs with
  | nil =>
    exact ⟨fun n hn => (List.not_mem_nil n hn).elim, fun n j hj => hj⟩
  | cons name names ih =>
    unfold addNames at h ⊢
    split
    · rename_i hn
      rw [if_pos hn] at h
      cases h
    · rename_i hn
      rw [if_neg hn] at h
      obtain ⟨h1, h2⟩ := ih _ h
      constructor
      · intro n hmem
        rcases List.mem_cons.mp hmem with hmem | hmem
        · subst hmem
          exact h2 n k (lookup_insert_self n k _)
        · exact h1 n hmem
      · intro n j hj
        apply h2
        have hne : n ≠ name := by
          intro he
          subst he
          rw [hj] at hn
          simp at hn
        show lookup n (insert name k fs.flags) = some j
        rw [lookup_insert_ne name n k _ hne]
        exact hj

theorem initFields_full (fields : List F) (fs : FlagSet V)
    (h2 : (initFields E fields fs).2 = false) (hf : Full fs) :
    Full (initFields E fields fs).1 := by
  induction fields generalizing fs with
  | nil => exact hf
  | cons f fields ih =>
    rw [initFields_cons] at h2 ⊢
    by_cases hs : (E.newFlag f).2.isSome = true
    · simp only [hs, if_true] at h2
      cases h2
    · simp only [hs, if_false] at h2 ⊢
      cases hfl : (E.newFlag f).1 with
      | none =>
        rw [hfl] at h2
        exact ih _ h2 hf
      | some fl =>
        rw [hfl] at h2
        simp only at h2 ⊢
        have hsl := addNames_slice fl fs.slice.length
          (if fl.assigned then E.sprintV fl.v else []) (fl.tag.shortNames ++ fl.tag.longNames)
          { fs with
            Error := (E.newFlag f).2.map GoError.returned
            slice := fs.slice ++ [fl] }
        have hlk := addNames_lookup fl fs.slice.length
          (if fl.assigned then E.sprintV fl.v else []) (fl.tag.shortNames ++ fl.tag.longNames)
          { fs with
            Error := (E.newFlag f).2.map GoError.returned
            slice := fs.slice ++ [fl] }
        cases hres : addNames fl fs.slice.length (if fl.assigned then E.sprintV fl.v else [])
            (fl.tag.shortNames ++ fl.tag.longNames)
            { fs with
              Error := (E.newFlag f).2.map GoError.returned
              slice := fs.slice ++ [fl] } with
        | mk fs' b =>
          rw [hres] at h2 hsl hlk
          cases b with
          | true => cases h2
          | false =>
            simp only at h2 hsl hlk ⊢
            obtain ⟨hl1, hl2⟩ := hlk trivial
            apply ih _ h2
            intro j g hj n hn
            rw [hsl] at hj
            by_cases hlt : j < fs.slice.length
            · rw [List.getElem?_append_left hlt] at hj
              exact hl2 n j (hf j g hj n hn)
            · have hge : fs.slice.length ≤ j := Nat.le_of_not_lt hlt
              rw [List.getElem?_append_right hge] at hj
              cases hd : j - fs.slice.length with
              | zero =>
                rw [hd] at hj
                simp only [List.getElem?_cons_zero, Option.some.injEq] at hj
                subst hj
                have hj' : j = fs.slice.length := by omega
                rw [hj']
                exact hl1 n hn
              | succ m =>
                rw [hd] at hj
                simp at hj

theorem initFields_from (fields : List F) (fs : FlagSet V) :
    ∀ fl ∈ (initFields E fields fs).1.slice,
      fl ∈ fs.slice ∨ ∃ f ∈ fields, (E.newFlag f).1 = some fl := by
  induction fields generalizing fs with
  | nil => exact fun fl h => Or.inl h
  | cons f fields ih =>
    rw [initFields_cons]
    by_cases hs : (E.newFlag f).2.isSome = true
    · simp only [hs, if_true]
      exact fun fl h => Or.inl h
    · simp only [hs, if_false]
      cases hfl : (E.newFlag f).1 with
      | none =>
        intro fl h
        rcases ih _ fl h with h | ⟨g, hg, hgf⟩
        · exact Or.inl h
        · exact Or.inr ⟨g, List.mem_cons_of_mem _ hg, hgf⟩
      | some fl0 =>
        simp only
        have hsl := addNames_slice fl0 fs.slice.length
          (if fl0.assigned then E.sprintV fl0.v else [])
          (fl0.tag.shortNames ++ fl0.tag.longNames)
          { fs with
            Error := (E.newFlag f).2.map GoError.returned
            slice := fs.slice ++ [fl0] }
        have hstep : ∀ fl ∈ fs.slice ++ [fl0],
            fl ∈ fs.slice ∨ ∃ g ∈ f :: fields, (E.newFlag g).1 = some fl := by
          intro fl h
          rcases List.mem_append.mp h with h | h
          · exact Or.inl h
          · rw [List.mem_singleton] at h
            subst h
            exact Or.inr ⟨f, List.mem_cons_self _ _, hfl⟩
        cases hres : addNames fl0 fs.slice.length
            (if fl0.assigned then E.sprintV fl0.v else [])
            (fl0.tag.shortNames ++ fl0.tag.longNames)
            { fs with
              Error := (E.newFlag f).2.map GoError.returned
              slice := fs.slice ++ [fl0] } with
        | mk fs' b =>
          rw [hres] at hsl
          simp only at hsl
          cases b with
          | true =>
            intro fl h
            simp only [Bool.false_eq_true, if_false] at h
            rw [hsl] at h
            exact hstep fl h
          | false =>
            intro fl h
            simp only [Bool.false_eq_true, if_false] at h
            rcases ih _ fl h with h | ⟨g, hg, hgf⟩
            · rw [hsl] at h
              exact hstep fl h
            · exact Or.inr ⟨g, List.mem_cons_of_mem _ hg, hgf⟩

end Built

section BuiltOwns

variable {F V : Type} (E : Env F V)

theorem initFields_owns (fields : List F) (fs : FlagSet V) (h : Owns fs) :
    Owns (initFields E fields fs).1 := by
  induction fields generalizing fs with
  | nil => exact h
  | cons f fields ih =>
    rw [initFields_cons]
    by_cases hs : (E.newFlag f).2.isSome = true
    · simp only [hs, if_true]
      exact h
    · simp only [hs, if_false]
      cases hfl : (E.newFlag f).1 with
      | none => exact ih _ h
      | some fl =>
        simp only
        have h1 : Owns ({ fs with
            Error := (E.newFlag f).2.map GoError.returned
            slice := fs.slice ++ [fl] } : FlagSet V) := by
          intro n k hk
          obtain ⟨g, hg, hn⟩ := h n k hk
          refine ⟨g, ?_, hn⟩
          have hlt : k < fs.slice.length := by
            rcases Nat.lt_or_ge k fs.slice.length with hlt | hge
            · exact hlt
            · rw [List.getElem?_eq_none hge] at hg
              cases hg
          show (fs.slice ++ [fl])[k]? = some g
          rw [List.getElem?_append_left hlt]
          exact hg
        have ho := addNames_owns fl fs.slice.length
          (if fl.assigned then E.sprintV fl.v else []) (fl.tag.shortNames ++ fl.tag.longNames)
          { fs with
            Error := (E.newFlag f).2.map GoError.returned
            slice := fs.slice ++ [fl] } (by simp) (fun n hn => hn) h1
        cases hres : addNames fl fs.slice.length (if fl.assigned then E.sprintV fl.v else [])
            (fl.tag.shortNames ++ fl.tag.longNames)
            { fs with
              Error := (E.newFlag f).2.map GoError.returned
              slice := fs.slice ++ [fl] } with
        | mk fs' b =>
          rw [hres] at ho
          cases b with
          | true => exact ho
          | false => exact ih _ ho

end BuiltOwns

/-! ## The order in which tokens are processed -/

section Order

variable {F V : Type} (E : Env F V)

theorem flagTokens_append (tr tr' : List Event) :
    flagTokens (tr ++ tr') = flagTokens tr ++ flagTokens tr' := by
  induction tr with
  | nil => rfl
  | cons e tr ih =>
    cases e <;> simp [flagTokens, ih]

theorem dashIndices_length (i : Nat) (rest : List Str) :
    (dashIndices i rest).length = rest.countP (fun a => HasPrefix a dashOne) := by
  induction rest generalizing i with
  | nil => rfl
  | cons a rest ih =>
    unfold dashIndices
    by_cases h : HasPrefix a dashOne = true
    · rw [if_pos h, List.length_cons, ih, List.countP_cons]
      simp [h]
    · rw [if_neg h, ih, List.countP_cons]
      simp [h]

theorem mem_dashIndices (i : Nat) (rest : List Str) (j : Nat) :
    j ∈ dashIndices i rest ↔
      i ≤ j ∧ ∃ a, rest[j - i]? = some a ∧ HasPrefix a dashOne = true := by
  induction rest generalizing i with
  | nil => simp [dashIndices]
  | cons a rest ih =>
    unfold dashIndices
    have hstep : ∀ b, (i + 1 ≤ j ∧ ∃ x, rest[j - (i + 1)]? = some x ∧ HasPrefix x dashOne = true)
        ↔ (i < j ∧ ∃ x, (b :: rest)[j - i]? = some x ∧ HasPrefix x dashOne = true) := by
      intro b
      constructor
      · rintro ⟨hij, x, hx, hd⟩
        refine ⟨hij, x, ?_, hd⟩
        have : j - i = (j - (i + 1)) + 1 := by omega
        rw [this, List.getElem?_cons_succ]
        exact hx
      · rintro ⟨hij, x, hx, hd⟩
        refine ⟨hij, x, ?_, hd⟩
        have : j - i = (j - (i + 1)) + 1 := by omega
        rw [this, List.getElem?_cons_succ] at hx
        exact hx
    by_cases h : HasPrefix a dashOne = true
    · rw [if_pos h, List.mem_cons, ih (i + 1), hstep a]
      constructor
      · rintro (hj | ⟨hij, hx⟩)
        · subst hj
          exact ⟨Nat.le_refl _, a, by simp, h⟩
        · exact ⟨Nat.le_of_lt hij, hx⟩
      · rintro ⟨hij, hx⟩
        rcases Nat.eq_or_lt_of_le hij with hij | hij
        · exact Or.inl hij.symm
        · exact Or.inr ⟨hij, hx⟩
    · rw [if_neg h, ih (i + 1), hstep a]
      constructor
      · rintro ⟨hij, hx⟩
        exact ⟨Nat.le_of_lt hij, hx⟩
      · rintro ⟨hij, x, hx, hd⟩
        rcases Nat.eq_or_lt_of_le hij with hij | hij
        · subst hij
          simp only [Nat.sub_self, List.getElem?_cons_zero, Option.some.injEq] at hx
          subst hx
          exact absurd hd h
        · exact ⟨hij, x, hx, hd⟩

theorem dashIndices_sorted (i : Nat) (rest : List Str) :
    (dashIndices i rest).Pairwise (fun a b => a < b) := by
  induction rest generalizing i with
  | nil => exact List.Pairwise.nil
  | cons a rest ih =>
    unfold dashIndices
    split
    · refine List.Pairwise.cons ?_ (ih (i + 1))
      intro j hj
      have := ((mem_dashIndices (i + 1) rest j).mp hj).1
      omega
    · exact ih (i + 1)

theorem callSet_flagTokens (i k : Nat) (raw : Str) (fs : FlagSet V) :
    flagTokens (callSet E i k raw fs).trace = flagTokens fs.trace := by
  unfold callSet
  split
  · rfl
  · simp [flagTokens_append, flagTokens]

theorem recordValue_flagTokens (i : Nat) (name : Str) (k : Nat) (fs : FlagSet V) :
    flagTokens (recordValue E i name k fs).trace = flagTokens fs.trace := by
  unfold recordValue
  split
  · rfl
  · split <;> simp [flagTokens_append, flagTokens]

theorem cluster_flagTokens (i : Nat) (chars : List Char) (fs : FlagSet V) :
    flagTokens (cluster E i chars fs).1.trace = flagTokens fs.trace := by
  induction chars generalizing fs with
  | nil => rfl
  | cons c chars ih =>
    rw [cluster]
    split
    · rfl
    · simp only
      split
      · exact callSet_flagTokens E i _ [] fs
      · rw [ih, recordValue_flagTokens, callSet_flagTokens]

theorem flagArg_flagTokens (i : Nat) (arg : Str) (values : List Str) (fs : FlagSet V) :
    flagTokens (flagArg E i arg values fs).1.trace = flagTokens fs.trace := by
  cases hl : lookup (bareName arg) fs.flags with
  | none =>
    rw [flagArg_unknown E i arg values fs hl]
    split
    · rfl
    · exact cluster_flagTokens E i _ fs
  | some k =>
    have hm : flagTokens (match inlineValues arg ++ values with
        | [] => callSet E i k [] fs
        | [v] => callSet E i k v fs
        | _ => { fs with Error := some (.errorf
            (tooManyText (inlineValues arg ++ values).length (bareName arg))) }).trace
        = flagTokens fs.trace := by
      split
      · exact callSet_flagTokens E i k [] fs
      · exact callSet_flagTokens E i k _ fs
      · rfl
    rw [flagArg_found E i k arg values fs hl]
    split
    · exact hm
    · rw [recordValue_flagTokens, hm]

/-- The tokens that a scan processes as flag tokens are the tokens that begin with `-`,
one after the other from the first on: all of them when the scan does not return. -/
theorem scan_flagTokens (i : Nat) (rest : List Str) (fs : FlagSet V) :
    ∃ new, flagTokens (scan E i rest fs).1.trace = flagTokens fs.trace ++ new ∧
      new <+: dashIndices i rest ∧
      ((scan E i rest fs).2 = false → new = dashIndices i rest) := by
  induction rest generalizing i fs with
  | nil => exact ⟨[], by simp [scan], List.prefix_refl _, fun _ => rfl⟩
  | cons a rest ih =>
    rw [scan.eq_2]
    unfold dashIndices
    by_cases hd : HasPrefix a dashOne = true
    · have hd' : ¬ (!HasPrefix a dashOne) = true := by simp [hd]
      rw [if_neg hd', if_pos hd]
      have hfa := flagArg_flagTokens E i a (rest.takeWhile noDash)
        { fs with trace := fs.trace ++ [Event.flagToken i] }
      cases hr : flagArg E i a (rest.takeWhile noDash)
          { fs with trace := fs.trace ++ [Event.flagToken i] } with
      | mk fs' b =>
        rw [hr] at hfa
        simp only [flagTokens_append] at hfa
        cases b with
        | true =>
          refine ⟨[i], ?_, ?_, ?_⟩
          · exact hfa
          · exact ⟨dashIndices (i + 1) rest, rfl⟩
          · intro h
            cases h
        | false =>
          obtain ⟨new, h1, h2, h3⟩ := ih (i + 1) fs'
          refine ⟨i :: new, ?_, ?_, ?_⟩
          · show flagTokens (scan E (i + 1) rest fs').1.trace = flagTokens fs.trace ++ i :: new
            rw [h1, hfa]
            simp [flagTokens]
          · obtain ⟨t, ht⟩ := h2
            exact ⟨t, by rw [← ht]; rfl⟩
          · intro h
            rw [h3 h]
    · have hd' : (!HasPrefix a dashOne) = true := by simp [hd]
      rw [if_pos hd', if_neg hd]
      exact ih (i + 1) fs

theorem finish_flagTokens (r : FlagSet V × Bool) :
    flagTokens (finish E r).trace = flagTokens r.1.trace := by
  rcases finish_trace E r with h | h
  · rw [h]
  · rw [h, flagTokens_append]
    simp [flagTokens]

theorem foundCalls_snoc (flags : List (Str × Nat)) (args : List Str) (tr : List Event)
    (e : Event) :
    foundCalls flags args (tr ++ [e]) =
      foundCalls flags args tr ++ (if isFoundCall flags args e then [e] else []) := by
  unfold foundCalls
  rw [List.filter_append]
  cases h : isFoundCall flags args e <;> simp [List.filter, h]

theorem callSet_foundCalls_le (flags : List (Str × Nat)) (args : List Str) (i k : Nat)
    (raw : Str) (fs : FlagSet V) :
    (foundCalls flags args (callSet E i k raw fs).trace).length
      ≤ (foundCalls flags args fs.trace).length + 1 := by
  unfold callSet
  split
  · exact Nat.le_succ _
  · show (foundCalls flags args (fs.trace ++ [Event.set i k raw])).length ≤ _
    rw [foundCalls_snoc, List.length_append]
    split <;> simp

theorem callSet_foundCalls (flags : List (Str × Nat)) (args : List Str) (i k : Nat)
    (raw : Str) (fs : FlagSet V) (h : isFoundCall flags args (Event.set i k raw) = false) :
    foundCalls flags args (callSet E i k raw fs).trace = foundCalls flags args fs.trace := by
  unfold callSet
  split
  · rfl
  · show foundCalls flags args (fs.trace ++ [Event.set i k raw]) = _
    rw [foundCalls_snoc, h]
    simp

theorem recordValue_foundCalls (flags : List (Str × Nat)) (args : List Str) (i : Nat)
    (name : Str) (k : Nat) (fs : FlagSet V) :
    foundCalls flags args (recordValue E i name k fs).trace = foundCalls flags args fs.trace := by
  unfold recordValue
  split
  · rfl
  · split
    · show foundCalls flags args (fs.trace ++ [_]) = _
      rw [foundCalls_snoc]
      simp [isFoundCall]
    · show foundCalls flags args (fs.trace ++ [_]) = _
      rw [foundCalls_snoc]
      simp [isFoundCall]

theorem cluster_foundCalls (flags : List (Str × Nat)) (args : List Str) (i : Nat)
    (chars : List Char) (fs : FlagSet V)
    (h : ∀ k raw, isFoundCall flags args (Event.set i k raw) = false) :
    foundCalls flags args (cluster E i chars fs).1.trace = foundCalls flags args fs.trace := by
  induction chars generalizing fs with
  | nil => rfl
  | cons c chars ih =>
    rw [cluster]
    split
    · rfl
    · rename_i k _
      simp only
      split
      · exact callSet_foundCalls E flags args i k [] fs (h k [])
      · rw [ih, recordValue_foundCalls, callSet_foundCalls E flags args i k [] fs (h k [])]

theorem flagArg_foundCalls_le (flags : List (Str × Nat)) (args : List Str) (i : Nat)
    (arg : Str) (values : List Str) (fs : FlagSet V)
    (hi : args[i]? = some arg) (hfl : fs.flags = flags) :
    (foundCalls flags args (flagArg E i arg values fs).1.trace).length
      ≤ (foundCalls flags args fs.trace).length + 1 := by
  cases hl : lookup (bareName arg) fs.flags with
  | none =>
    rw [flagArg_unknown E i arg values fs hl]
    split
    · exact Nat.le_succ _
    · rw [cluster_foundCalls E flags args i _ fs (by
        intro k raw
        simp only [isFoundCall, hi]
        rw [← hfl, hl]
        rfl)]
      exact Nat.le_succ _
  | some k =>
    have hm : (foundCalls flags args (match inlineValues arg ++ values with
        | [] => callSet E i k [] fs
        | [v] => callSet E i k v fs
        | _ => { fs with Error := some (.errorf
            (tooManyText (inlineValues arg ++ values).length (bareName arg))) }).trace).length
        ≤ (foundCalls flags args fs.trace).length + 1 := by
      split
      · exact callSet_foundCalls_le E flags args i k [] fs
      · exact callSet_foundCalls_le E flags args i k _ fs
      · exact Nat.le_succ _
    rw [flagArg_found E i k arg values fs hl]
    split
    · exact hm
    · rw [recordValue_foundCalls]
      exact hm

/-- A scan makes at most one setter call outside the cluster loop for each token it
processes as a flag token. -/
theorem scan_foundCalls_le (flags : List (Str × Nat)) (args : List Str) (i : Nat)
    (rest : List Str) (fs : FlagSet V) (hrest : args.drop i = rest) (hfl : fs.flags = flags) :
    (foundCalls flags args (scan E i rest fs).1.trace).length + (flagTokens fs.trace).length
      ≤ (foundCalls flags args fs.trace).length + (flagTokens (scan E i rest fs).1.trace).length := by
  induction rest generalizing i fs with
  | nil => simp [scan]
  | cons a rest ih =>
    have hi : args[i]? = some a := by
      have := congrArg (fun l => l[0]?) hrest
      simpa [List.getElem?_drop] using this
    have hnext : args.drop (i + 1) = rest := by
      have := congrArg List.tail hrest
      simpa [List.tail_drop] using this
    rw [scan.eq_2]
    split
    · exact ih (i + 1) fs hnext hfl
    · have hle := flagArg_foundCalls_le E flags args i a (rest.takeWhile noDash)
        { fs with trace := fs.trace ++ [Event.flagToken i] } hi hfl
      have htk := flagArg_flagTokens E i a (rest.takeWhile noDash)
        { fs with trace := fs.trace ++ [Event.flagToken i] }
      have hkeep := (flagArg_keeps E i a (rest.takeWhile noDash)
        { fs with trace := fs.trace ++ [Event.flagToken i] }).flags
      have h0 : foundCalls flags args (fs.trace ++ [Event.flagToken i])
          = foundCalls flags args fs.trace := by
        rw [foundCalls_snoc]
        simp [isFoundCall]
      have h1 : flagTokens (fs.trace ++ [Event.flagToken i]) = flagTokens fs.trace ++ [i] := by
        rw [flagTokens_append]
        rfl
      cases hr : flagArg E i a (rest.takeWhile noDash)
          { fs with trace := fs.trace ++ [Event.flagToken i] } with
      | mk fs' b =>
        rw [hr] at hle htk hkeep
        simp only at hle htk hkeep
        rw [h0] at hle
        rw [h1] at htk
        have hlen : (flagTokens fs'.trace).length = (flagTokens fs.trace).length + 1 := by
          rw [htk, List.length_append]
          rfl
        cases b with
        | true =>
          simp only
          omega
        | false =>
          have := ih (i + 1) fs' hnext (by rw [hkeep]; exact hfl)
          simp only
          omega

end Order

/-! ## `fmt.Errorf` without operands: the loop ends, and a format without `%` is kept -/

section Fmt

theorem dropWhile_length_le (p : Char → Bool) (s : Str) :
    (s.dropWhile p).length ≤ s.length := by
  induction s with
  | nil => exact Nat.le_refl _
  | cons c s ih =>
    rw [List.dropWhile_cons]
    split
    · exact Nat.le_trans ih (Nat.le_succ _)
    · exact Nat.le_refl _

theorem parsenumLoop_length (s : Str) (num : Nat) (isnum : Bool) :
    (parsenumLoop s num isnum).2.2.length ≤ s.length := by
  induction s generalizing num isnum with
  | nil => simp [parsenumLoop]
  | cons c s ih =>
    unfold parsenumLoop
    split
    · split
      · simp
      · exact Nat.le_trans (ih _ _) (Nat.le_succ _)
    · exact Nat.le_refl _

theorem argNumber_length (s : Str) (good : Bool) :
    (argNumber s good).1.length ≤ s.length := by
  unfold argNumber
  split
  · split
    split <;> simp [List.length_drop]
  · exact Nat.le_refl _

theorem widthStep_length (s : Str) (afterIndex good : Bool) :
    (widthStep s afterIndex good).2.1.length ≤ s.length := by
  unfold widthStep
  split
  · simp
  · exact parsenumLoop_length s 0 false

theorem precStep_length (s : Str) (afterIndex good : Bool) :
    (precStep s afterIndex good).2.1.length ≤ s.length := by
  unfold precStep
  split
  · rename_i c s'
    have hA := argNumber_length (c :: s') (if afterIndex then false else good)
    generalize argNumber (c :: s') (if afterIndex then false else good) = A at hA
    obtain ⟨s1, ai, g⟩ := A
    simp only at hA ⊢
    split
    · rename_i s2
      simp only [List.length_cons] at hA ⊢
      omega
    · exact Nat.le_trans (Nat.le_trans (parsenumLoop_length s1 0 false) hA) (Nat.le_succ _)
  · exact Nat.le_refl _

theorem verbStep_length (s rest : Str) (h : (verbStep s).2 = some rest) :
    rest.length ≤ s.length := by
  unfold verbStep at h
  have h0 := dropWhile_length_le isFmtFlag s
  have hA := argNumber_length (s.dropWhile isFmtFlag) true
  generalize argNumber (s.dropWhile isFmtFlag) true = A at h hA
  obtain ⟨s1, ai, g⟩ := A
  simp only at h hA
  have hW := widthStep_length s1 ai g
  generalize widthStep s1 ai g = W at h hW
  obtain ⟨w1, s2, ai2, g2⟩ := W
  simp only at h hW
  have hP := precStep_length s2 ai2 g2
  generalize precStep s2 ai2 g2 = P at h hP
  obtain ⟨w2, s3, ai3, g3⟩ := P
  simp only at h hP
  have hN : (if !ai3 then argNumber s3 g3 else (s3, ai3, g3)).1.length ≤ s3.length := by
    split
    · exact argNumber_length s3 g3
    · exact Nat.le_refl _
  generalize (if !ai3 then argNumber s3 g3 else (s3, ai3, g3)) = N at h hN
  obtain ⟨s4, ai4, g4⟩ := N
  simp only at h hN
  have hd : ∀ k, (s4.drop k).length ≤ s.length := by
    intro k
    rw [List.length_drop]
    omega
  split at h
  · cases h
  · split at h
    · simp only [Option.some.injEq] at h
      rw [← h]
      exact hd _
    · split at h
      · simp only [Option.some.injEq] at h
        rw [← h]
        exact hd _
      · simp only [Option.some.injEq] at h
        rw [← h]
        exact hd _

/-- The loop of `doPrintf` ends within `len(s) + 1` iterations. -/
theorem doPrintf_isSome (fuel : Nat) (s : Str) (h : s.length < fuel) :
    (doPrintf fuel s).isSome = true := by
  induction fuel generalizing s with
  | zero => exact absurd h (Nat.not_lt_zero _)
  | succ fuel ih =>
    unfold doPrintf
    have h0 := dropWhile_length_le (fun c => c != '%') s
    split
    · rfl
    · rename_i c s' hs
      rw [hs] at h0
      simp only [List.length_cons] at h0
      have hv := verbStep_length s'
      generalize verbStep s' = R at hv
      obtain ⟨out, r⟩ := R
      cases r with
      | none => rfl
      | some rest =>
        have := hv rest rfl
        simp only [Option.isSome_map']
        exact ih rest (by omega)

/-- A format without `%` is rendered as it is. -/
theorem Errorf0_of_no_percent (s : Str) (h : '%' ∉ s) : Errorf0 s = s := by
  have hall : ∀ c ∈ s, (c != '%') = true := by
    intro c hc
    simp only [bne_iff_ne, ne_eq]
    intro he
    exact h (he ▸ hc)
  have ht : s.takeWhile (fun c => c != '%') = s := List.takeWhile_eq_self_iff.mpr hall
  have hd : s.dropWhile (fun c => c != '%') = [] := List.dropWhile_eq_nil_iff.mpr hall
  unfold Errorf0 doPrintf
  rw [hd, ht]
  rfl

end Fmt

/-! ## The buffer of the validation pass holds the lines, joined -/

section Joined

variable {F V : Type} (E : Env F V)

theorem specLinesOf_length (fl : flag V) : (specLinesOf E fl).length ≤ 1 := by
  unfold specLinesOf
  cases ha : fl.assigned <;> cases hr : fl.tag.required <;> cases he : fl.err <;> simp

theorem specLinesOf_pos (fl : flag V) : ∀ l ∈ specLinesOf E fl, 0 < l.length := by
  intro l hl
  unfold specLinesOf at hl
  rcases List.mem_append.mp hl with hl | hl
  · split at hl
    · rw [List.mem_singleton] at hl
      rw [hl]
      exact requiredLine_pos E fl
    · cases hl
  · split at hl
    · split at hl
      · rw [List.mem_singleton] at hl
        rw [hl]
        exact invalidLine_pos E fl _
      · cases hl
    · cases hl

theorem joinLines_snoc (ls : List Str) (l : Str) (h : ls ≠ []) :
    joinLines (ls ++ [l]) = joinLines ls ++ '\n' :: l := by
  induction ls with
  | nil => exact absurd rfl h
  | cons a ls ih =>
    cases ls with
    | nil => rfl
    | cons b ls =>
      show a ++ '\n' :: joinLines ((b :: ls) ++ [l]) = (a ++ '\n' :: joinLines (b :: ls)) ++ '\n' :: l
      rw [ih (by simp)]
      simp

theorem joinLines_pos (ls : List Str) (h : ls ≠ []) (hpos : ∀ l ∈ ls, 0 < l.length) :
    0 < (joinLines ls).length := by
  cases ls with
  | nil => exact absurd rfl h
  | cons a ls =>
    have ha := hpos a (List.mem_cons_self _ _)
    cases ls with
    | nil => exact ha
    | cons b ls =>
      show 0 < (a ++ '\n' :: joinLines (b :: ls)).length
      rw [List.length_append]
      omega

theorem writeLine_joinLines (ls : List Str) (l : Str) (hpos : ∀ x ∈ ls, 0 < x.length) :
    writeLine (joinLines ls) l = joinLines (ls ++ [l]) := by
  unfold writeLine
  cases ls with
  | nil => rfl
  | cons a ls =>
    rw [if_pos (joinLines_pos (a :: ls) (by simp) hpos), joinLines_snoc _ _ (by simp)]
    simp

theorem validateFlag_joinLines (ls : List Str) (fl : flag V)
    (hpos : ∀ x ∈ ls, 0 < x.length) :
    validateFlag E (joinLines ls) fl = joinLines (ls ++ specLinesOf E fl) := by
  unfold validateFlag specLinesOf
  cases ha : fl.assigned <;> cases hr : fl.tag.required <;> cases he : fl.err <;>
    simp [writeLine_joinLines _ _ hpos]

theorem foldl_validateFlag_joinLines (fls : List (flag V)) (ls : List Str)
    (hpos : ∀ x ∈ ls, 0 < x.length) :
    fls.foldl (validateFlag E) (joinLines ls) = joinLines (ls ++ specLines E fls) := by
  induction fls generalizing ls with
  | nil => simp [specLines]
  | cons fl fls ih =>
    rw [List.foldl_cons, validateFlag_joinLines E ls fl hpos, ih]
    · simp [specLines]
    · intro x hx
      rcases List.mem_append.mp hx with hx | hx
      · exact hpos x hx
      · exact specLinesOf_pos E fl x hx

/-- The buffer after the validation loop is the text of the lines of the descriptors, in
the order of the list, joined by single newlines. -/
theorem validationBuffer_eq_joinLines (fls : List (flag V)) :
    validationBuffer E fls = joinLines (specLines E fls) := by
  unfold validationBuffer
  have := foldl_validateFlag_joinLines E fls [] (by intro x hx; cases hx)
  simpa [joinLines] using this

end Joined

/-! ## The state in which a token is processed -/

section At

variable {F V : Type} (E : Env F V)

theorem split_at_token (args : List Str) (i : Nat) (t : Str) (ht : args[i]? = some t) :
    args = args.take i ++ t :: args.drop (i + 1) ∧ (args.take i).length = i := by
  have hlt : i < args.length := by
    rcases Nat.lt_or_ge i args.length with h | h
    · exact h
    · rw [List.getElem?_eq_none h] at ht
      cases ht
  have hget : args[i] = t := by
    rw [List.getElem?_eq_getElem hlt] at ht
    exact Option.some.inj ht
  constructor
  · have h1 := (List.take_append_drop i args).symm
    rw [List.drop_eq_getElem_cons hlt, hget] at h1
    exact h1
  · rw [List.length_take]
    omega

/-- A run of `parse` in which the token `t` at index `i` is processed as a flag token: the
fields built, the tokens before `i` did not end the run, and the run is the step for `t`
in the state `stateAt`, followed, unless the step returned, by the scan of the tokens after
`i`, and by the end of `parse`. -/
theorem parse_reach_state (fields : List F) (args : List Str) (i : Nat) (t : Str)
    (ht : args[i]? = some t)
    (hreach : Event.flagToken i ∈ (parse E fields args).trace) :
    HasPrefix t dashOne = true ∧
    (initFlagSet E fields (newFlagSet V)).Error = none ∧
    (scan E 0 (args.take i) (initFlagSet E fields (newFlagSet V))).2 = false ∧
    (stateAt E fields args i).Error = none ∧
    (stateAt E fields args i).flags = (initFlagSet E fields (newFlagSet V)).flags ∧
    Bound (stateAt E fields args i) ∧
    setCalls i (stateAt E fields args i).trace = [] ∧
    parse E fields args =
      finish E
        (match flagArg E i t (collect args i) (stateAt E fields args i) with
          | (fs', true) => (fs', true)
          | (fs', false) => scan E (i + 1) (args.drop (i + 1)) fs') := by
  obtain ⟨hsplit, hlen⟩ := split_at_token args i t ht
  obtain ⟨_, arg, hget, hdash, _⟩ := parse_token E fields args i hreach
  have harg : arg = t := by
    rw [ht] at hget
    exact (Option.some.inj hget).symm
  subst harg
  have htr : (initFlagSet E fields (newFlagSet V)).trace = [] := by
    rw [initFlagSet_trace]
    rfl
  have herr : (initFlagSet E fields (newFlagSet V)).Error = none := by
    cases he : (initFlagSet E fields (newFlagSet V)).Error with
    | none => rfl
    | some e =>
      rw [parse_eq, he] at hreach
      simp only [Option.isSome_some, if_true] at hreach
      rw [htr] at hreach
      cases hreach
  have hk := scan_keeps E 0 (args.take i) (initFlagSet E fields (newFlagSet V))
  rw [hlen, Nat.zero_add] at hk
  have hs : scan E 0 args (initFlagSet E fields (newFlagSet V)) =
      if (scan E 0 (args.take i) (initFlagSet E fields (newFlagSet V))).2 then
        scan E 0 (args.take i) (initFlagSet E fields (newFlagSet V))
      else scan E (0 + (args.take i).length) (arg :: args.drop (i + 1))
        (scan E 0 (args.take i) (initFlagSet E fields (newFlagSet V))).1 := by
    conv_lhs => rw [hsplit]
    exact scan_append_dash E 0 _ _ arg _ hdash
  have hgo : (scan E 0 (args.take i) (initFlagSet E fields (newFlagSet V))).2 = false := by
    cases hb : (scan E 0 (args.take i) (initFlagSet E fields (newFlagSet V))).2 with
    | false => rfl
    | true =>
      exfalso
      rw [parse_eq, herr, hs, hb] at hreach
      simp only [Option.isSome_none, Bool.false_eq_true, if_false, if_true] at hreach
      rw [finish_flagToken] at hreach
      exact hk.not_mem (Or.inr (Nat.le_refl i)) (by rw [htr]; simp) hreach
  have hE : (scan E 0 (args.take i) (initFlagSet E fields (newFlagSet V))).1.Error = none := by
    have := scan_Error E 0 (args.take i) (initFlagSet E fields (newFlagSet V)) herr
    rw [hgo] at this
    cases he : (scan E 0 (args.take i) (initFlagSet E fields (newFlagSet V))).1.Error with
    | none => rfl
    | some e => rw [he] at this; cases this
  refine ⟨hdash, herr, hgo, hE, hk.flags, ?_, ?_, ?_⟩
  · exact hk.bound (initFlagSet_Bound E fields _ newFlagSet_Bound)
  · show setCalls i ((scan E 0 (args.take i) (initFlagSet E fields (newFlagSet V))).1.trace
      ++ [Event.flagToken i]) = []
    rw [setCalls_append, hk.setCalls (Or.inr (Nat.le_refl i)), htr]
    rfl
  · rw [parse_eq, herr, hs, hgo, hlen]
    simp only [Option.isSome_none, Bool.false_eq_true, if_false, Nat.zero_add]
    rw [scan.eq_2]
    have hd : ¬ (!HasPrefix arg dashOne) = true := by simp [hdash]
    rw [if_neg hd]
    rfl

end At

/-! ## The state after a setter call -/

section Exact

variable {F V : Type} (E : Env F V)

theorem callSet_eq (i k : Nat) (raw : Str) (fs : FlagSet V) (fl : flag V)
    (hk : fs.slice[k]? = some fl) :
    callSet E i k raw fs =
      { fs with
        slice := fs.slice.set k (E.set fl raw).1
        Error := (E.set fl raw).2.map GoError.returned
        trace := fs.trace ++ [Event.set i k raw] } := by
  unfold callSet
  rw [hk]

theorem recordValue_eq (i : Nat) (name : Str) (k : Nat) (fs : FlagSet V) (fl : flag V)
    (hk : fs.slice[k]? = some fl) :
    recordValue E i name k fs =
      if fl.err.isNone then
        { fs with
          Values := insert name [E.sprintV fl.v] fs.Values
          trace := fs.trace ++ [Event.checked i name k true (E.sprintV fl.v)] }
      else { fs with trace := fs.trace ++ [Event.checked i name k false (E.sprintV fl.v)] } := by
  unfold recordValue
  rw [hk]

theorem getElem?_set_at {α : Type} (l : List α) (k : Nat) (a b : α) (h : l[k]? = some a) :
    (l.set k b)[k]? = some b := by
  have hlt : k < l.length := by
    rcases Nat.lt_or_ge k l.length with h1 | h1
    · exact h1
    · rw [List.getElem?_eq_none h1] at h
      cases h
  rw [List.getElem?_set_self hlt]

/-- The step for a token whose bare name is registered, for the descriptor `fl` at
position `k`, and whose combined value list is empty (`v` the empty text) or the one text
`v`: the descriptor becomes the one `fl.set(v)` leaves, the error slot takes what the call
handed back, the step returns exactly when that is an error, and `Values` gets the entry
of the bare name exactly when no error was handed back and the descriptor carries none. -/
theorem flagArg_found_call (i k : Nat) (arg v : Str) (values : List Str) (fs : FlagSet V)
    (fl : flag V) (hreg : lookup (bareName arg) fs.flags = some k)
    (hk : fs.slice[k]? = some fl)
    (hv : (inlineValues arg ++ values = [] ∧ v = []) ∨ inlineValues arg ++ values = [v]) :
    (flagArg E i arg values fs).1.slice = fs.slice.set k (E.set fl v).1 ∧
    (flagArg E i arg values fs).1.Error = (E.set fl v).2.map GoError.returned ∧
    (flagArg E i arg values fs).2 = (E.set fl v).2.isSome ∧
    (flagArg E i arg values fs).1.flags = fs.flags ∧
    (flagArg E i arg values fs).1.Usage = fs.Usage ∧
    (flagArg E i arg values fs).1.Values =
      (if (E.set fl v).2.isSome || (E.set fl v).1.err.isSome then fs.Values
       else insert (bareName arg) [E.sprintV (E.set fl v).1.v] fs.Values) := by
  have hm : (match inlineValues arg ++ values with
      | [] => callSet E i k [] fs
      | [v] => callSet E i k v fs
      | _ => { fs with Error := some (.errorf
          (tooManyText (inlineValues arg ++ values).length (bareName arg))) })
      = callSet E i k v fs := by
    rcases hv with ⟨h0, hv0⟩ | h1
    · rw [h0, hv0]
    · rw [h1]
  have hfa := flagArg_found E i k arg values fs hreg
  rw [hm, callSet_eq E i k v fs fl hk] at hfa
  rw [hfa]
  cases hs : (E.set fl v).2 with
  | some e =>
    rw [if_pos (by rfl)]
    exact ⟨rfl, rfl, rfl, rfl, rfl, rfl⟩
  | none =>
    rw [if_neg (by simp)]
    rw [recordValue_eq E i (bareName arg) k _ (E.set fl v).1
      (getElem?_set_at fs.slice k fl _ hk)]
    cases he : (E.set fl v).1.err with
    | none =>
      rw [if_pos (by rfl)]
      exact ⟨rfl, rfl, rfl, rfl, rfl, rfl⟩
    | some c =>
      rw [if_neg (by simp)]
      exact ⟨rfl, rfl, rfl, rfl, rfl, rfl⟩

end Exact

/-! ## The state after a cluster -/

section ClusterState

variable {F V : Type} (E : Env F V)

theorem setEach_cons (k : Nat) (ks : List Nat) (sl : List (flag V)) (fl : flag V)
    (h : sl[k]? = some fl) :
    setEach E (k :: ks) sl = setEach E ks (sl.set k (E.set fl []).1) := by
  rw [setEach, h]

theorem cluster_append (i : Nat) (a b : List Char) (fs : FlagSet V) :
    cluster E i (a ++ b) fs =
      if (cluster E i a fs).2 then cluster E i a fs
      else cluster E i b (cluster E i a fs).1 := by
  induction a generalizing fs with
  | nil => simp [cluster]
  | cons c a ih =>
    rw [List.cons_append, cluster, cluster]
    cases hl : lookup (dashOne ++ [c]) fs.flags with
    | none => rfl
    | some k =>
      simp only
      by_cases he : (callSet E i k [] fs).Error.isSome = true
      · rw [if_pos he, if_pos he]
        rfl
      · rw [if_neg he, if_neg he]
        exact ih _

/-- The cluster loop over bytes that all resolve, from a state without error: the setters
of the first `m` bytes were called, one call with the empty text each, in order; each call
but the last handed back no error, and the descriptor each call returned was stored.
Either all bytes were gone through and the loop did not return, or the last call handed
back an error, which the error slot holds, and the loop returned. -/
theorem cluster_resolved (i : Nat) (idx : Char → Nat) (chars : List Char) (fs : FlagSet V)
    (hb : Bound fs) (herr : fs.Error = none)
    (hres : ∀ c ∈ chars, lookup (dashOne ++ [c]) fs.flags = some (idx c)) :
    ∃ m, m ≤ chars.length ∧ (chars ≠ [] → 0 < m) ∧
      setCalls i (cluster E i chars fs).1.trace
        = setCalls i fs.trace ++ (chars.take m).map (fun c => (idx c, [])) ∧
      (cluster E i chars fs).1.slice = setEach E ((chars.take m).map idx) fs.slice ∧
      (∀ j c fl, j + 1 < m → chars[j]? = some c →
        (setEach E ((chars.take j).map idx) fs.slice)[idx c]? = some fl →
        (E.set fl []).2 = none) ∧
      (((cluster E i chars fs).2 = false ∧ m = chars.length ∧
          (cluster E i chars fs).1.Error = none ∧
          ∀ c fl, 0 < m → chars[m - 1]? = some c →
            (setEach E ((chars.take (m - 1)).map idx) fs.slice)[idx c]? = some fl →
            (E.set fl []).2 = none) ∨
        ((cluster E i chars fs).2 = true ∧ 0 < m ∧
          ∃ c fl e, chars[m - 1]? = some c ∧
            (setEach E ((chars.take (m - 1)).map idx) fs.slice)[idx c]? = some fl ∧
            (E.set fl []).2 = some e ∧
            (cluster E i chars fs).1.Error = some (.returned e))) := by
  induction chars generalizing fs with
  | nil =>
    refine ⟨0, Nat.le_refl _, fun h => absurd rfl h, by simp [cluster], rfl, ?_, Or.inl ?_⟩
    · intro j c fl hj
      exact absurd hj (Nat.not_lt_zero _)
    · exact ⟨rfl, rfl, herr, fun c fl h => absurd h (Nat.lt_irrefl 0)⟩
  | cons x chars ih =>
    have hx := hres x (List.mem_cons_self _ _)
    have hk : idx x < fs.slice.length := hb _ _ hx
    have hget : fs.slice[idx x]? = some fs.slice[idx x] := List.getElem?_eq_getElem hk
    have hcs := callSet_eq E i (idx x) [] fs _ hget
    have hcall : setCalls i (callSet E i (idx x) [] fs).trace
        = setCalls i fs.trace ++ [(idx x, [])] := by
      rw [callSet_trace E i (idx x) [] fs hk, setCalls_append]
      simp [setCalls]
    rw [cluster]
    simp only [hx]
    cases hs : (E.set fs.slice[idx x] []).2 with
    | some e =>
      have he : (callSet E i (idx x) [] fs).Error.isSome = true := by
        rw [hcs, hs]
        rfl
      rw [if_pos he]
      refine ⟨1, by simp, fun _ => Nat.one_pos, ?_, ?_, ?_, Or.inr ⟨rfl, Nat.one_pos, ?_⟩⟩
      · rw [hcall]
        simp
      · rw [hcs]
        simp only [List.take_succ_cons, List.take_zero, List.map_cons, List.map_nil]
        rw [setEach_cons E _ _ _ _ hget]
        rfl
      · intro j c fl hj
        omega
      · refine ⟨x, fs.slice[idx x], e, by simp, ?_, hs, ?_⟩
        · simp [setEach]
        · rw [hcs, hs]
          rfl
    | none =>
      have he : ¬ (callSet E i (idx x) [] fs).Error.isSome = true := by
        rw [hcs, hs]
        simp
      rw [if_neg he]
      have hkeep : Keeps i (i + 1) fs (recordValue E i (dashOne ++ [x]) (idx x)
          (callSet E i (idx x) [] fs)) :=
        (callSet_keeps E i (idx x) [] fs).trans (recordValue_keeps E i _ _ _)
      have hsl2 : (recordValue E i (dashOne ++ [x]) (idx x) (callSet E i (idx x) [] fs)).slice
          = fs.slice.set (idx x) (E.set fs.slice[idx x] []).1 := by
        rw [recordValue_eq E i _ (idx x) _ (E.set fs.slice[idx x] []).1
          (by rw [hcs]; exact getElem?_set_at fs.slice (idx x) _ _ hget), hcs]
        split <;> rfl
      have herr2 : (recordValue E i (dashOne ++ [x]) (idx x)
          (callSet E i (idx x) [] fs)).Error = none := by
        rw [recordValue_Error, hcs, hs]
        rfl
      obtain ⟨m, hm, _, hcalls, hslice, hearly, hend⟩ := ih
        (recordValue E i (dashOne ++ [x]) (idx x) (callSet E i (idx x) [] fs))
        (hkeep.bound hb) herr2
        (by
          intro y hy
          rw [hkeep.flags]
          exact hres y (List.mem_cons_of_mem _ hy))
      rw [hsl2] at hslice hearly hend
      have hse : ∀ ks, setEach E (idx x :: ks) fs.slice
          = setEach E ks (fs.slice.set (idx x) (E.set fs.slice[idx x] []).1) :=
        fun ks => setEach_cons E _ ks _ _ hget
      have hhead : ∀ c fl, (x :: chars)[0]? = some c →
          (setEach E (((x :: chars).take 0).map idx) fs.slice)[idx c]? = some fl →
          (E.set fl []).2 = none := by
        intro c fl hc hfl
        simp only [List.getElem?_cons_zero, Option.some.injEq] at hc
        subst hc
        simp only [List.take_zero, List.map_nil, setEach] at hfl
        rw [hget] at hfl
        rw [← Option.some.inj hfl]
        exact hs
      refine ⟨m + 1, by simp; omega, fun _ => Nat.succ_pos m, ?_, ?_, ?_, ?_⟩
      · rw [hcalls, recordValue_setCalls, hcall]
        simp
      · rw [hslice]
        simp only [List.take_succ_cons, List.map_cons]
        rw [hse]
      · intro j c fl hj hc hfl
        cases j with
        | zero => exact hhead c fl hc hfl
        | succ j =>
          simp only [List.getElem?_cons_succ] at hc
          simp only [List.take_succ_cons, List.map_cons] at hfl
          rw [hse] at hfl
          exact hearly j c fl (by omega) hc hfl
      · rcases hend with ⟨h1, h2, h3, h4⟩ | ⟨h1, h2, c, fl, e, hc, hfl, hset, hE⟩
        · refine Or.inl ⟨h1, by simp [h2], h3, ?_⟩
          intro c fl _ hc hfl
          simp only [Nat.add_sub_cancel] at hc hfl
          cases hm0 : m with
          | zero =>
            rw [hm0] at hc hfl
            exact hhead c fl hc hfl
          | succ m' =>
            rw [hm0] at hc hfl h4
            simp only [List.getElem?_cons_succ] at hc
            simp only [List.take_succ_cons, List.map_cons] at hfl
            rw [hse] at hfl
            exact h4 c fl (Nat.succ_pos _) (by simpa using hc) (by simpa using hfl)
        · refine Or.inr ⟨h1, Nat.succ_pos m, c, fl, e, ?_, ?_, hset, hE⟩
          · obtain ⟨m', hm'⟩ : ∃ m', m = m' + 1 := ⟨m - 1, by omega⟩
            rw [hm'] at hc ⊢
            simpa using hc
          · obtain ⟨m', hm'⟩ : ∃ m', m = m' + 1 := ⟨m - 1, by omega⟩
            rw [hm'] at hfl ⊢
            simp only [Nat.add_sub_cancel] at hfl ⊢
            simp only [List.take_succ_cons, List.map_cons]
            rw [hse]
            exact hfl

/-- The cluster loop over bytes `pre` that all resolve, followed by a byte `c` that does
not: as `cluster_resolved` for `pre`, and the loop returns; when no call handed back an
error, all of `pre` was gone through and the error is "unknown flag `-c`". -/
theorem cluster_unknown_state (i : Nat) (idx : Char → Nat) (pre post : List Char) (c : Char)
    (fs : FlagSet V) (hb : Bound fs) (herr : fs.Error = none)
    (hres : ∀ x ∈ pre, lookup (dashOne ++ [x]) fs.flags = some (idx x))
    (hc : lookup (dashOne ++ [c]) fs.flags = none) :
    (cluster E i (pre ++ c :: post) fs).2 = true ∧
    ∃ m, m ≤ pre.length ∧ (pre ≠ [] → 0 < m) ∧
      setCalls i (cluster E i (pre ++ c :: post) fs).1.trace
        = setCalls i fs.trace ++ (pre.take m).map (fun x => (idx x, [])) ∧
      (cluster E i (pre ++ c :: post) fs).1.slice
        = setEach E ((pre.take m).map idx) fs.slice ∧
      (∀ j x fl, j + 1 < m → pre[j]? = some x →
        (setEach E ((pre.take j).map idx) fs.slice)[idx x]? = some fl →
        (E.set fl []).2 = none) ∧
      ((m = pre.length ∧
          (cluster E i (pre ++ c :: post) fs).1.Error
            = some (.errorf (unknownText (dashOne ++ [c]))) ∧
          ∀ x fl, 0 < m → pre[m - 1]? = some x →
            (setEach E ((pre.take (m - 1)).map idx) fs.slice)[idx x]? = some fl →
            (E.set fl []).2 = none) ∨
        (0 < m ∧
          ∃ x fl e, pre[m - 1]? = some x ∧
            (setEach E ((pre.take (m - 1)).map idx) fs.slice)[idx x]? = some fl ∧
            (E.set fl []).2 = some e ∧
            (cluster E i (pre ++ c :: post) fs).1.Error = some (.returned e))) := by
  obtain ⟨m, hm, hpos, hcalls, hslice, hearly, hend⟩ :=
    cluster_resolved E i idx pre fs hb herr hres
  rw [cluster_append]
  rcases hend with ⟨h1, h2, h3, h4⟩ | ⟨h1, h2, hx⟩
  · rw [h1]
    simp only [Bool.false_eq_true, if_false]
    have hfl : (cluster E i pre fs).1.flags = fs.flags := (cluster_keeps E i pre fs).flags
    have hcl : cluster E i (c :: post) (cluster E i pre fs).1
        = ({ (cluster E i pre fs).1 with
            Error := some (.errorf (unknownText (dashOne ++ [c]))) }, true) := by
      rw [cluster]
      simp only [hfl, hc]
    rw [hcl]
    exact ⟨rfl, m, hm, hpos, hcalls, hslice, hearly, Or.inl ⟨h2, rfl, h4⟩⟩
  · rw [h1]
    simp only [if_true]
    exact ⟨h1, m, hm, hpos, hcalls, hslice, hearly, Or.inr ⟨h2, hx⟩⟩

end ClusterState

section AtKeeps

variable {F V : Type} (E : Env F V)

/-- The step for token `i` leaves events of the tokens up to `i` only. -/
theorem step_keeps (fields : List F) (args : List Str) (i : Nat) (t : Str)
    (ht : args[i]? = some t) (values : List Str) :
    Keeps 0 (i + 1) (initFlagSet E fields (newFlagSet V))
      (flagArg E i t values (stateAt E fields args i)).1 := by
  obtain ⟨_, hlen⟩ := split_at_token args i t ht
  have hk := scan_keeps E 0 (args.take i) (initFlagSet E fields (newFlagSet V))
  rw [hlen, Nat.zero_add] at hk
  have h0 : Keeps i (i + 1) (scan E 0 (args.take i) (initFlagSet E fields (newFlagSet V))).1
      (stateAt E fields args i) :=
    Keeps.of_event i _ (Event.flagToken i) rfl
  have h1 := h0.trans (flagArg_keeps E i t values (stateAt E fields args i))
  exact (hk.mono (le_refl 0) (Nat.le_succ i)).trans (h1.mono (Nat.zero_le i) (le_refl _))

/-- A run that ends with the step for token `i` has stopped at `i`. -/
theorem step_stoppedAt (fields : List F) (args : List Str) (i : Nat) (t : Str)
    (ht : args[i]? = some t) (values : List Str) :
    StoppedAt i (flagArg E i t values (stateAt E fields args i)).1 :=
  (step_keeps E fields args i t ht values).stoppedAt (by rw [initFlagSet_trace]; rfl)

end AtKeeps

/-! ## The entry of a name after its last occurrence -/

section Last

variable {F V : Type} (E : Env F V)

theorem recordValue_Values (i : Nat) (name : Str) (k : Nat) (fs : FlagSet V) (fl : flag V)
    (hk : fs.slice[k]? = some fl) :
    (recordValue E i name k fs).Values =
      if fl.err.isNone then insert name [E.sprintV fl.v] fs.Values else fs.Values := by
  rw [recordValue_eq E i name k fs fl hk]
  split <;> rfl

theorem cluster_lookup_absent (n : Str) (i : Nat) (chars : List Char) (fs : FlagSet V)
    (h : ∀ c ∈ chars, dashOne ++ [c] ≠ n) :
    lookup n (cluster E i chars fs).1.Values = lookup n fs.Values := by
  induction chars generalizing fs with
  | nil => rfl
  | cons c chars ih =>
    have hc : n ≠ dashOne ++ [c] := fun he => h c (List.mem_cons_self _ _) he.symm
    rw [cluster]
    split
    · rfl
    · rename_i k _
      simp only
      split
      · rw [callSet_Values]
      · rw [ih _ (fun x hx => h x (List.mem_cons_of_mem _ hx)),
          recordValue_lookup_ne E i _ n k _ hc, callSet_Values]

theorem flagArg_lookup_absent (n : Str) (i : Nat) (arg : Str) (values : List Str)
    (fs : FlagSet V) (h : mentions n arg = false) :
    lookup n (flagArg E i arg values fs).1.Values = lookup n fs.Values := by
  unfold mentions at h
  simp only [Bool.or_eq_false_iff, beq_eq_false_iff_ne, ne_eq, List.any_eq_false,
    beq_iff_eq] at h
  obtain ⟨h1, h2⟩ := h
  cases hl : lookup (bareName arg) fs.flags with
  | none =>
    rw [flagArg_unknown E i arg values fs hl]
    split
    · rfl
    · exact cluster_lookup_absent E n i _ fs (fun c hc => h2 c hc)
  | some k =>
    exact flagArg_found_lookup_ne E i k arg values fs hl n (fun he => h1 he.symm)

theorem scan_lookup_absent (n : Str) (i : Nat) (rest : List Str) (fs : FlagSet V)
    (h : ∀ u ∈ rest, HasPrefix u dashOne = true → mentions n u = false) :
    lookup n (scan E i rest fs).1.Values = lookup n fs.Values := by
  induction rest generalizing i fs with
  | nil => rfl
  | cons a rest ih =>
    have hrest : ∀ u ∈ rest, HasPrefix u dashOne = true → mentions n u = false :=
      fun u hu => h u (List.mem_cons_of_mem _ hu)
    rw [scan.eq_2]
    split
    · exact ih (i + 1) fs hrest
    · rename_i hd
      have hdash : HasPrefix a dashOne = true := by simpa using hd
      have hfa := flagArg_lookup_absent E n i a (rest.takeWhile noDash)
        { fs with trace := fs.trace ++ [Event.flagToken i] }
        (h a (List.mem_cons_self _ _) hdash)
      cases hr : flagArg E i a (rest.takeWhile noDash)
          { fs with trace := fs.trace ++ [Event.flagToken i] } with
      | mk fs' b =>
        rw [hr] at hfa
        cases b with
        | true => exact hfa
        | false =>
          simp only
          rw [ih (i + 1) fs' hrest]
          exact hfa

theorem finish_Values (r : FlagSet V × Bool) : (finish E r).Values = r.1.Values := by
  obtain ⟨fs, b⟩ := r
  cases b with
  | true => rfl
  | false =>
    show (validate E fs).Values = fs.Values
    unfold validate
    simp only
    split <;> rfl

/-- In a run that enters the validation pass, the step for a token that was processed did
not return. -/
theorem step_continues (fields : List F) (args : List Str) (i : Nat) (t : Str)
    (ht : args[i]? = some t)
    (hreach : Event.flagToken i ∈ (parse E fields args).trace)
    (hval : Event.validate ∈ (parse E fields args).trace) :
    (flagArg E i t (collect args i) (stateAt E fields args i)).2 = false ∧
    (parse E fields args).Values
      = (scan E (i + 1) (args.drop (i + 1))
          (flagArg E i t (collect args i) (stateAt E fields args i)).1).1.Values := by
  obtain ⟨_, _, _, _, _, _, _, hp⟩ := parse_reach_state E fields args i t ht hreach
  have hst := step_stoppedAt E fields args i t ht (collect args i)
  cases hr : flagArg E i t (collect args i) (stateAt E fields args i) with
  | mk fs' b =>
    rw [hr] at hp hst
    cases b with
    | true =>
      exfalso
      have hpar : parse E fields args = fs' := by rw [hp]; rfl
      rw [hpar] at hval
      exact hst.1 hval
    | false =>
      refine ⟨rfl, ?_⟩
      rw [hp, finish_Values]

end Last

/-! ## The claims -/

section Claims

variable {F V : Type}

theorem collect_eq_nil (args : List Str) (i : Nat)
    (h : ∀ a, args[i + 1]? = some a → HasPrefix a dashOne = true) : collect args i = [] := by
  unfold collect
  cases hd : args.drop (i + 1) with
  | nil => rfl
  | cons a rest =>
    have hget : args[i + 1]? = some a := by
      have h0 : (args.drop (i + 1))[0]? = some a := by rw [hd]; simp
      rw [List.getElem?_drop] at h0
      simpa using h0
    have := h a hget
    simp [List.takeWhile, noDash, this]

/-- C1. In a run of `parse` that reaches the token `t` at index `i` (so `t` begins with
`-`), when `t` holds at most one `=` and its bare name is registered for the descriptor at
position `k`, which is `fl` when the token is reached.  Let `v` be the empty text if `t`
has no inline value and the next token, if any, begins with `-` (a), or the one text that
the inline value and the maximal run of following tokens not beginning with `-` make up
(b).  Then the setter calls made for this token are exactly one call, of descriptor `k`,
with `v`; the step stores the descriptor that `fl.set(v)` leaves at position `k`, puts what
the call handed back into the error slot, returns exactly when that is an error, and
writes the string form of the new value under the bare name when no error was handed back
and the descriptor carries none; and the run is this step followed by the rest of
`parse`. -/
theorem parse_found_flag_calls_setter_once (E : Env F V) (fields : List F)
    (args : List Str) (i k : Nat) (t : Str)
    (ht : args[i]? = some t) (hdash : HasPrefix t dashOne = true)
    (hreach : Event.flagToken i ∈ (parse E fields args).trace)
    (heq : t.count '=' ≤ 1)
    (hreg : lookup (bareName t) (initFlagSet E fields (newFlagSet V)).flags = some k) :
    ∃ fl, (stateAt E fields args i).slice[k]? = some fl ∧
      ∀ v, ((('=' ∉ t ∧ ∀ a, args[i + 1]? = some a → HasPrefix a dashOne = true) ∧ v = []) ∨
          inlineValues t ++ collect args i = [v]) →
        setCalls i (parse E fields args).trace = [(k, v)] ∧
        (flagArg E i t (collect args i) (stateAt E fields args i)).1.slice
          = (stateAt E fields args i).slice.set k (E.set fl v).1 ∧
        (flagArg E i t (collect args i) (stateAt E fields args i)).1.Error
          = (E.set fl v).2.map GoError.returned ∧
        (flagArg E i t (collect args i) (stateAt E fields args i)).2
          = (E.set fl v).2.isSome ∧
        (flagArg E i t (collect args i) (stateAt E fields args i)).1.Values
          = (if (E.set fl v).2.isSome || (E.set fl v).1.err.isSome then
              (stateAt E fields args i).Values
            else insert (bareName t) [E.sprintV (E.set fl v).1.v]
              (stateAt E fields args i).Values) ∧
        parse E fields args =
          finish E
            (if (E.set fl v).2.isSome then
              ((flagArg E i t (collect args i) (stateAt E fields args i)).1, true)
            else scan E (i + 1) (args.drop (i + 1))
              (flagArg E i t (collect args i) (stateAt E fields args i)).1) := by
  obtain ⟨_, _, _, _, hfl, hb, hc, hp⟩ := parse_reach_state E fields args i t ht hreach
  rw [← hfl] at hreg
  have hk : k < (stateAt E fields args i).slice.length := hb _ _ hreg
  refine ⟨(stateAt E fields args i).slice[k], List.getElem?_eq_getElem hk, ?_⟩
  intro v hv
  have hv' : (inlineValues t ++ collect args i = [] ∧ v = []) ∨
      inlineValues t ++ collect args i = [v] := by
    rcases hv with ⟨⟨hno, hnext⟩, hv0⟩ | hv1
    · left
      refine ⟨?_, hv0⟩
      rw [collect_eq_nil args i hnext]
      unfold inlineValues
      rw [Split_of_not_mem t '=' hno]
      rfl
    · exact Or.inr hv1
  obtain ⟨h1, h2, h3, _, _, h6⟩ := flagArg_found_call E i k t v (collect args i)
    (stateAt E fields args i) _ hreg (List.getElem?_eq_getElem hk) hv'
  have hcalls : setCalls i (parse E fields args).trace = [(k, v)] := by
    obtain ⟨fs, arg, hget, _, hfl', _, hb', hc', hp'⟩ := parse_setCalls E fields args i hreach
    have harg : arg = t := by
      rw [ht] at hget
      exact (Option.some.inj hget).symm
    subst harg
    have hreg' : lookup (bareName arg) fs.flags = some k := by
      rw [hfl', ← hfl]
      exact hreg
    have hstep := flagArg_found_trace E i k arg v (collect args i)
      { fs with trace := fs.trace ++ [Event.flagToken i] } hreg' (hb' _ _ hreg') hv'
    rw [hp', hstep]
    simp only [setCalls_append, hc']
    simp [setCalls]
  refine ⟨hcalls, h1, h2, h3, h6, ?_⟩
  rw [hp]
  cases hr : flagArg E i t (collect args i) (stateAt E fields args i) with
  | mk fs' b =>
    rw [hr] at h3
    simp only at h3
    rw [← h3]
    cases b <;> rfl

/-- The examples of C1: `["--count","5"]` passes `5` to the setter of `count`, and
`["-n=3"]` passes `3` to the setter of `n`; after the run the descriptor is the one the
setter left (value 5, assigned), and `Values` holds its string form. -/
theorem parse_found_flag_calls_setter_once_witness :
    setCalls 0 (parse specEnv [countField] ["--count".toList, "5".toList]).trace
        = [(0, "5".toList)] ∧
    setCalls 0 (parse specEnv [countField] ["-n=3".toList]).trace = [(0, "3".toList)] ∧
    (parse specEnv [countField] ["--count".toList, "5".toList]).slice
        = [{ tag := { shortNames := ["-n".toList], longNames := ["--count".toList],
                      required := false },
             v := .int 5, assigned := true, err := none }] ∧
    (parse specEnv [countField] ["--count".toList, "5".toList]).Values
        = [("--count".toList, ["5".toList])] ∧
    (parse specEnv [countField] ["--count".toList, "5".toList]).Error = none :=
  ⟨match parse_found_flag_calls_setter_once specEnv [countField]
        ["--count".toList, "5".toList] 0 0 "--count".toList
        (by decide) (by decide) (by decide) (by decide) (by decide) with
      | ⟨_, _, h⟩ => (h "5".toList (Or.inr (by decide))).1,
   match parse_found_flag_calls_setter_once specEnv [countField]
        ["-n=3".toList] 0 0 "-n=3".toList
        (by decide) (by decide) (by decide) (by decide) (by decide) with
      | ⟨_, _, h⟩ => (h "3".toList (Or.inr (by decide))).1,
   by decide, by decide, by decide⟩

/-- C2. In a run of `parse` that reaches the flag token `t` at index `i` whose bare name is
registered: the run ends at this token with the error
"too many(n) value for flag `name`" made by `parse`, `n` the length of the combined value
list (the inline values put before the following tokens that do not begin with `-`), if
and only if that list has more than one element; and then no setter call is made for this
token, no later token is processed and the validation pass is not entered. -/
theorem parse_too_many_values (E : Env F V) (fields : List F) (args : List Str)
    (i k : Nat) (t : Str)
    (ht : args[i]? = some t) (hdash : HasPrefix t dashOne = true)
    (hreach : Event.flagToken i ∈ (parse E fields args).trace)
    (hreg : lookup (bareName t) (initFlagSet E fields (newFlagSet V)).flags = some k) :
    (((parse E fields args).Error
          = some (.errorf (tooManyText (inlineValues t ++ collect args i).length (bareName t)))
        ∧ StoppedAt i (parse E fields args))
      ↔ 1 < (inlineValues t ++ collect args i).length) ∧
    (1 < (inlineValues t ++ collect args i).length →
      setCalls i (parse E fields args).trace = []) := by
  obtain ⟨fs, arg, hget, _, _, hk, he, hb, hc, hp⟩ := parse_token E fields args i hreach
  have harg : arg = t := by
    rw [ht] at hget
    exact (Option.some.inj hget).symm
  subst harg
  rw [← hk.flags] at hreg
  have hfa := flagArg_found E i k arg (collect args i)
    { fs with trace := fs.trace ++ [Event.flagToken i] } hreg
  have hprev := hk.stopped (by rw [initFlagSet_trace]; rfl)
  by_cases hn : 1 < (inlineValues arg ++ collect args i).length
  · obtain ⟨a, b, l, hl⟩ : ∃ a b l, inlineValues arg ++ collect args i = a :: b :: l := by
      match hm : inlineValues arg ++ collect args i with
      | [] => rw [hm] at hn; simp at hn
      | [_] => rw [hm] at hn; simp at hn
      | a :: b :: l => exact ⟨a, b, l, rfl⟩
    have hpar : parse E fields args =
        { fs with
          trace := fs.trace ++ [Event.flagToken i]
          Error := some (.errorf
            (tooManyText (inlineValues arg ++ collect args i).length (bareName arg))) } := by
      rw [hp, hfa, hl]
      rfl
    have hst : StoppedAt i (parse E fields args) := by
      rw [hpar]
      constructor
      · intro hmem
        simp only [List.mem_append, List.mem_singleton] at hmem
        rcases hmem with h1 | h1
        · obtain ⟨j, hj, _⟩ := hprev _ h1
          simp [Event.tok] at hj
        · cases h1
      · intro e hmem j hj
        simp only [List.mem_append, List.mem_singleton] at hmem
        rcases hmem with h1 | h1
        · obtain ⟨j', hj', hlt⟩ := hprev _ h1
          rw [hj] at hj'
          have : j = j' := Option.some.inj hj'
          omega
        · subst h1
          simp only [Event.tok, Option.some.injEq] at hj
          omega
    refine ⟨⟨fun _ => hn, fun _ => ⟨?_, hst⟩⟩, fun _ => ?_⟩
    · rw [hpar]
    · rw [hpar]
      simp only [setCalls_append, hc]
      simp [setCalls]
  · refine ⟨⟨fun h => ?_, fun h => absurd h hn⟩, fun h => absurd h hn⟩
    exfalso
    obtain ⟨herr, hst⟩ := h
    have hfs1 : ∃ v, (match inlineValues arg ++ collect args i with
          | [] => callSet E i k [] { fs with trace := fs.trace ++ [Event.flagToken i] }
          | [v] => callSet E i k v { fs with trace := fs.trace ++ [Event.flagToken i] }
          | _ => { fs with
              trace := fs.trace ++ [Event.flagToken i]
              Error := some (.errorf
                (tooManyText (inlineValues arg ++ collect args i).length (bareName arg))) })
        = callSet E i k v { fs with trace := fs.trace ++ [Event.flagToken i] } := by
      match hm : inlineValues arg ++ collect args i with
      | [] => exact ⟨[], rfl⟩
      | [v] => exact ⟨v, rfl⟩
      | a :: b :: l => rw [hm] at hn; simp at hn
    obtain ⟨v, hv⟩ := hfs1
    rw [hv] at hfa
    by_cases hab : (callSet E i k v
        { fs with trace := fs.trace ++ [Event.flagToken i] }).Error.isSome = true
    · rw [if_pos hab] at hfa
      rw [hp, hfa] at herr
      exact callSet_Error_ne E i k v _
        { fs with trace := fs.trace ++ [Event.flagToken i] } he herr
    · rw [if_neg hab] at hfa
      rw [hp, hfa] at hst
      exact finish_scan_not_stopped E i _ _ hst

/-- An example of C2: `["--count","1","2"]` ends with
"too many(2) value for flag `--count`"; no setter call is made. -/
theorem parse_too_many_values_witness :
    (parse specEnv [countField] ["--count".toList, "1".toList, "2".toList]).Error
        = some (.errorf "too many(2) value for flag `--count`".toList) ∧
    setCalls 0 (parse specEnv [countField] ["--count".toList, "1".toList, "2".toList]).trace
        = [] :=
  have h := parse_too_many_values specEnv [countField]
    ["--count".toList, "1".toList, "2".toList] 0 0 "--count".toList
    (by decide) (by decide) (by decide) (by decide)
  ⟨(h.1.mpr (by decide)).1, h.2 (by decide)⟩

/-- C3, as stated, fails when a setter hands its error back.  With the boolean flags `-a`
and `-c`, the integer flag `-n`, and setters that hand a conversion error back, every byte
of `-anc` resolves; the setters of `-a` and `-n` are called with the empty text, the one
of `-n` hands back its error, and the loop returns (line 166): the setter of `-c` is never
called and `-c` is not assigned. -/
theorem parse_cluster_stops_at_error :
    setCalls 0 (parse strictEnv [boolField 'a', shortInt 'n', boolField 'c']
        ["-anc".toList]).trace = [(0, []), (1, [])] ∧
    (parse strictEnv [boolField 'a', shortInt 'n', boolField 'c'] ["-anc".toList]).Error
      = some (.returned "cannot convert ``".toList) ∧
    (parse strictEnv [boolField 'a', shortInt 'n', boolField 'c']
        ["-anc".toList]).slice.map (fun fl => fl.assigned) = [true, true, false] := by
  decide

/-- C3, amended.  In a run of `parse` that reaches the token `t` at index `i`, whose bare
name is not registered and does not begin with `--`, if every byte `c` of the bare name
after the `-` resolves to a registered short name `-c` (descriptor `idx c`): the setters of
the first `m` bytes are called, one call with the empty text each, in the order of the
bytes, and the descriptor each call returns is stored; every call but the last hands back
no error.  Either the last call hands back no error either: then `m` is the number of
bytes (every setter was called once), the error slot is empty after the step and the run
goes on behind the tokens collected as values of `t`.  Or the last call hands back an
error: then the run ends at this token with that error, and the setters of the bytes after
it are not called.  With setters that hand back no error the first case holds.  Whatever
follows, the tokens collected as values of `t` leave no event (they are passed to no
setter). -/
theorem parse_cluster_sets_each (E : Env F V) (fields : List F)
    (args : List Str) (i : Nat) (t : Str) (idx : Char → Nat)
    (ht : args[i]? = some t)
    (hreach : Event.flagToken i ∈ (parse E fields args).trace)
    (hnot : lookup (bareName t) (initFlagSet E fields (newFlagSet V)).flags = none)
    (hlong : HasPrefix (bareName t) dashTwo = false)
    (hres : ∀ c ∈ TrimPrefix (bareName t) dashOne,
      lookup (dashOne ++ [c]) (initFlagSet E fields (newFlagSet V)).flags = some (idx c)) :
    (∃ m, m ≤ (TrimPrefix (bareName t) dashOne).length ∧
      (TrimPrefix (bareName t) dashOne ≠ [] → 0 < m) ∧
      setCalls i (parse E fields args).trace
        = ((TrimPrefix (bareName t) dashOne).take m).map (fun c => (idx c, [])) ∧
      (flagArg E i t (collect args i) (stateAt E fields args i)).1.slice
        = setEach E (((TrimPrefix (bareName t) dashOne).take m).map idx)
            (stateAt E fields args i).slice ∧
      (∀ j c fl, j + 1 < m → (TrimPrefix (bareName t) dashOne)[j]? = some c →
        (setEach E (((TrimPrefix (bareName t) dashOne).take j).map idx)
          (stateAt E fields args i).slice)[idx c]? = some fl →
        (E.set fl []).2 = none) ∧
      ((m = (TrimPrefix (bareName t) dashOne).length ∧
          (∀ c fl, 0 < m → (TrimPrefix (bareName t) dashOne)[m - 1]? = some c →
            (setEach E (((TrimPrefix (bareName t) dashOne).take (m - 1)).map idx)
              (stateAt E fields args i).slice)[idx c]? = some fl →
            (E.set fl []).2 = none) ∧
          (flagArg E i t (collect args i) (stateAt E fields args i)).1.Error = none ∧
          ¬ StoppedAt i (parse E fields args) ∧
          parse E fields args =
            finish E (scan E (i + 1) (args.drop (i + 1))
              (flagArg E i t (collect args i) (stateAt E fields args i)).1)) ∨
        (0 < m ∧
          (∃ c fl e, (TrimPrefix (bareName t) dashOne)[m - 1]? = some c ∧
            (setEach E (((TrimPrefix (bareName t) dashOne).take (m - 1)).map idx)
              (stateAt E fields args i).slice)[idx c]? = some fl ∧
            (E.set fl []).2 = some e ∧
            (parse E fields args).Error = some (.returned e)) ∧
          parse E fields args
            = (flagArg E i t (collect args i) (stateAt E fields args i)).1 ∧
          StoppedAt i (parse E fields args))) ∧
      ((∀ fl : flag V, (E.set fl []).2 = none) →
        m = (TrimPrefix (bareName t) dashOne).length)) ∧
    (∀ e ∈ (parse E fields args).trace, ∀ j, e.tok = some j → i < j →
      i + (collect args i).length < j) := by
  obtain ⟨_, _, _, hE, hfl, hb, hc, hp⟩ := parse_reach_state E fields args i t ht hreach
  rw [← hfl] at hnot
  have hfa := flagArg_unknown E i t (collect args i) (stateAt E fields args i) hnot
  rw [hlong] at hfa
  simp only [Bool.false_eq_true, if_false] at hfa
  obtain ⟨m, hm, hpos, hcalls, hslice, hearly, hend⟩ :=
    cluster_resolved E i idx (TrimPrefix (bareName t) dashOne) (stateAt E fields args i) hb hE
      (by
        intro c hcm
        rw [hfl]
        exact hres c hcm)
  rw [← hfa] at hcalls hslice hend
  rw [hc, List.nil_append] at hcalls
  refine ⟨⟨m, hm, hpos, ?_, hslice, hearly, ?_, ?_⟩, parse_trace_gap E fields args i hreach⟩
  · rw [hp, finish_setCalls]
    cases hr : flagArg E i t (collect args i) (stateAt E fields args i) with
    | mk fs' b =>
      rw [hr] at hcalls
      cases b with
      | true => exact hcalls
      | false =>
        simp only
        rw [(scan_keeps E (i + 1) (args.drop (i + 1)) fs').setCalls
          (Or.inl (Nat.lt_succ_self i))]
        exact hcalls
  · rcases hend with ⟨h1, h2, h3, h4⟩ | ⟨h1, h2, c, fl, e, hc1, hc2, hc3, hc4⟩
    · left
      have hpar : parse E fields args =
          finish E (scan E (i + 1) (args.drop (i + 1))
            (flagArg E i t (collect args i) (stateAt E fields args i)).1) := by
        rw [hp]
        cases hr : flagArg E i t (collect args i) (stateAt E fields args i) with
        | mk fs' b =>
          rw [hr] at h1
          simp only at h1
          subst h1
          rfl
      refine ⟨h2, h4, h3, ?_, hpar⟩
      rw [hpar]
      exact finish_scan_not_stopped E i _ _
    · right
      have hpar : parse E fields args
          = (flagArg E i t (collect args i) (stateAt E fields args i)).1 := by
        rw [hp]
        cases hr : flagArg E i t (collect args i) (stateAt E fields args i) with
        | mk fs' b =>
          rw [hr] at h1
          simp only at h1
          subst h1
          rfl
      refine ⟨h2, ⟨c, fl, e, hc1, hc2, hc3, ?_⟩, hpar, ?_⟩
      · rw [hpar]
        exact hc4
      · rw [hpar]
        exact step_stoppedAt E fields args i t ht _
  · intro hnone
    rcases hend with ⟨_, h2, _, _⟩ | ⟨_, _, c, fl, e, _, _, hc3, _⟩
    · exact h2
    · rw [hnone fl] at hc3
      cases hc3

/-- An example of the amended C3: `["-abc","x","y"]` with boolean flags `-a`, `-b`, `-c`
calls the three setters with the empty text, in this order; the three descriptors are then
assigned and the run ends without error. -/
theorem parse_cluster_sets_each_witness :
    (∃ m, m ≤ 3 ∧
      setCalls 0 (parse specEnv [boolField 'a', boolField 'b', boolField 'c']
          ["-abc".toList, "x".toList, "y".toList]).trace
        = (['a', 'b', 'c'].take m).map (fun c => (c.toNat - 97, []))) ∧
    setCalls 0 (parse specEnv [boolField 'a', boolField 'b', boolField 'c']
        ["-abc".toList, "x".toList, "y".toList]).trace = [(0, []), (1, []), (2, [])] ∧
    (parse specEnv [boolField 'a', boolField 'b', boolField 'c']
        ["-abc".toList, "x".toList, "y".toList]).slice.map (fun fl => (fl.v, fl.assigned))
      = [(.bool true, true), (.bool true, true), (.bool true, true)] ∧
    (parse specEnv [boolField 'a', boolField 'b', boolField 'c']
        ["-abc".toList, "x".toList, "y".toList]).Error = none :=
  ⟨match (parse_cluster_sets_each specEnv
      [boolField 'a', boolField 'b', boolField 'c'] ["-abc".toList, "x".toList, "y".toList]
      0 "-abc".toList (fun c => c.toNat - 97)
      (by decide) (by decide) (by decide) (by decide) (by decide)).1 with
    | ⟨m, hm, _, hcalls, _⟩ => ⟨m, hm, hcalls⟩,
   by decide, by decide, by decide⟩

theorem HasPrefix_dashOne_of_dashTwo (t : Str) (h : HasPrefix t dashTwo = true) :
    HasPrefix t dashOne = true := by
  rcases t with _ | ⟨c, _ | ⟨d, rest⟩⟩
  · simp [HasPrefix, dashTwo, List.isPrefixOf] at h
  · simp [HasPrefix, dashTwo, List.isPrefixOf] at h
  · simp [HasPrefix, dashTwo, dashOne, List.isPrefixOf] at h ⊢
    exact h.1

theorem bareName_dashTwo (t : Str) (h : HasPrefix t dashTwo = true) :
    HasPrefix (bareName t) dashTwo = true := by
  rcases t with _ | ⟨c, _ | ⟨d, rest⟩⟩
  · simp [HasPrefix, dashTwo, List.isPrefixOf] at h
  · simp [HasPrefix, dashTwo, List.isPrefixOf] at h
  · simp [HasPrefix, dashTwo, List.isPrefixOf] at h
    obtain ⟨hc, hd⟩ := h
    subst hc hd
    have hne := Split_ne_nil rest '='
    unfold bareName
    have h1 : ¬ ('-' = '=') := by decide
    simp only [Split, h1, if_false]
    cases hs : Split rest '=' with
    | nil => exact absurd hs hne
    | cons p ps => simp [HasPrefix, dashTwo, List.isPrefixOf]

/-- The state in which `parse` ends at an unregistered token that begins with `--` is the
same whatever tokens come after it. -/
theorem parse_unknown_long_indep (E : Env F V) (fields : List F) (pre : List Str) (t : Str)
    (hlong : HasPrefix t dashTwo = true)
    (hnot : lookup (bareName t) (initFlagSet E fields (newFlagSet V)).flags = none)
    (post post' : List Str) :
    parse E fields (pre ++ t :: post) = parse E fields (pre ++ t :: post') := by
  have hdash := HasPrefix_dashOne_of_dashTwo t hlong
  have hkey : ∀ po : List Str,
      scan E 0 (pre ++ t :: po) (initFlagSet E fields (newFlagSet V)) =
        if (scan E 0 pre (initFlagSet E fields (newFlagSet V))).2 then
          scan E 0 pre (initFlagSet E fields (newFlagSet V))
        else
          ({ (scan E 0 pre (initFlagSet E fields (newFlagSet V))).1 with
              trace := (scan E 0 pre (initFlagSet E fields (newFlagSet V))).1.trace
                ++ [Event.flagToken (0 + pre.length)]
              Error := some (.errorf (unknownText (bareName t))) }, true) := by
    intro po
    rw [scan_append_dash E 0 pre po t _ hdash]
    split
    · rfl
    · rw [scan.eq_2]
      have hd : ¬ (!HasPrefix t dashOne) = true := by simp [hdash]
      rw [if_neg hd]
      have hfl := (scan_keeps E 0 pre (initFlagSet E fields (newFlagSet V))).flags
      rw [flagArg_unknown E _ t _ _ (by rw [hfl]; exact hnot), bareName_dashTwo t hlong]
      rfl
  rw [parse_eq, parse_eq, hkey post, hkey post']

/-- C4. In a run of `parse` that reaches a token `t` at index `i` that begins with `--` and
whose bare name is not registered: the error slot holds "unknown flag `name`" made by
`parse`; no setter call is made for this token (it is not read as a cluster); the run ends
at this token, so no later token is processed and the validation pass is not entered; and
the whole resulting state is the same for every token list that has the same tokens up to
and including `t`. -/
theorem parse_unknown_long_flag (E : Env F V) (fields : List F) (args : List Str)
    (i : Nat) (t : Str)
    (ht : args[i]? = some t) (hlong : HasPrefix t dashTwo = true)
    (hreach : Event.flagToken i ∈ (parse E fields args).trace)
    (hnot : lookup (bareName t) (initFlagSet E fields (newFlagSet V)).flags = none) :
    (parse E fields args).Error = some (.errorf (unknownText (bareName t))) ∧
    setCalls i (parse E fields args).trace = [] ∧
    StoppedAt i (parse E fields args) ∧
    ∀ post, parse E fields (args.take (i + 1) ++ post) = parse E fields args := by
  obtain ⟨fs, arg, hget, _, _, hk, he, hb, hc, hp⟩ := parse_token E fields args i hreach
  have harg : arg = t := by
    rw [ht] at hget
    exact (Option.some.inj hget).symm
  subst harg
  have hnot' := hnot
  rw [← hk.flags] at hnot'
  have hfa := flagArg_unknown E i arg (collect args i)
    { fs with trace := fs.trace ++ [Event.flagToken i] } hnot'
  rw [bareName_dashTwo arg hlong] at hfa
  simp only [if_true] at hfa
  have hprev := hk.stopped (by rw [initFlagSet_trace]; rfl)
  have hpar : parse E fields args =
      { fs with
        trace := fs.trace ++ [Event.flagToken i]
        Error := some (.errorf (unknownText (bareName arg))) } := by
    rw [hp, hfa]
    rfl
  have hi : i < args.length := by
    by_contra hcon
    have : args[i]? = none := by simp; omega
    rw [this] at ht
    cases ht
  have hsplit : args = args.take i ++ arg :: args.drop (i + 1) := by
    have h1 : args[i] = arg := by
      have := List.getElem?_eq_getElem hi
      rw [this] at ht
      exact Option.some.inj ht
    rw [← h1, ← List.drop_eq_getElem_cons hi, List.take_append_drop]
  have htake : args.take (i + 1) = args.take i ++ [arg] := by
    have h1 : args[i] = arg := by
      have := List.getElem?_eq_getElem hi
      rw [this] at ht
      exact Option.some.inj ht
    rw [List.take_succ, List.getElem?_eq_getElem hi, h1]
    rfl
  refine ⟨by rw [hpar], ?_, ?_, ?_⟩
  · rw [hpar]
    simp only [setCalls_append, hc]
    simp [setCalls]
  · rw [hpar]
    constructor
    · intro hmem
      simp only [List.mem_append, List.mem_singleton] at hmem
      rcases hmem with h1 | h1
      · obtain ⟨j, hj, _⟩ := hprev _ h1
        simp [Event.tok] at hj
      · cases h1
    · intro e hmem j hj
      simp only [List.mem_append, List.mem_singleton] at hmem
      rcases hmem with h1 | h1
      · obtain ⟨j', hj', hlt⟩ := hprev _ h1
        rw [hj] at hj'
        have : j = j' := Option.some.inj hj'
        omega
      · subst h1
        simp only [Event.tok, Option.some.injEq] at hj
        omega
  · intro post
    rw [htake, List.append_assoc, List.singleton_append]
    conv_rhs => rw [hsplit]
    exact parse_unknown_long_indep E fields (args.take i) arg hlong hnot post _

/-- An example of C4: `["--nope","--count","5"]` ends with "unknown flag `--nope`", and the
result is that of `["--nope"]` followed by any other tokens. -/
theorem parse_unknown_long_flag_witness :
    (parse specEnv [countField] ["--nope".toList, "--count".toList, "5".toList]).Error
        = some (.errorf "unknown flag `--nope`".toList) ∧
    parse specEnv [countField] (["--nope".toList] ++ ["-n".toList])
        = parse specEnv [countField] ["--nope".toList, "--count".toList, "5".toList] :=
  have h := parse_unknown_long_flag specEnv [countField]
    ["--nope".toList, "--count".toList, "5".toList] 0 "--nope".toList
    (by decide) (by decide) (by decide) (by decide)
  ⟨h.1, h.2.2.2 ["-n".toList]⟩

/-- The validation pass.  In a run of `parse` that goes through the whole token list and
enters the validation pass: the error slot is not empty if and only if some descriptor of the
ordered list is required and not assigned, or assigned and carrying a conversion error.
In particular, for a descriptor `fl` (position `k`) that `initFlagSet` built required and
not assigned, and whose setter no token called: the error is the one `fmt.Errorf` makes of
a buffer that holds the line "... required argument `<name>` missing"; its text holds
`fl.name()` and the word `required` whenever `fmt.Errorf` renders that buffer as it is (as
it does a buffer without `%`). -/
theorem parse_validation_pass (E : Env F V) (fields : List F) (args : List Str)
    (hval : Event.validate ∈ (parse E fields args).trace) :
    ((parse E fields args).Error ≠ none ↔ ∃ fl ∈ (parse E fields args).slice, Reported fl) ∧
    (∀ k fl, (initFlagSet E fields (newFlagSet V)).slice[k]? = some fl →
      fl.tag.required = true → fl.assigned = false →
      (∀ j raw, Event.set j k raw ∉ (parse E fields args).trace) →
      ∃ text, (parse E fields args).Error = some (.errorf text) ∧
        text = E.errorf0 (validationBuffer E (parse E fields args).slice) ∧
        requiredLine E fl <:+: validationBuffer E (parse E fields args).slice ∧
        (E.errorf0 (validationBuffer E (parse E fields args).slice)
            = validationBuffer E (parse E fields args).slice →
          E.name fl <:+: text ∧ "required".toList <:+: text)) := by
  obtain ⟨_, _, herr, hp⟩ := parse_validated E fields args hval
  have hslice : (parse E fields args).slice
      = (scan E 0 args (initFlagSet E fields (newFlagSet V))).1.slice := by
    rw [hp]
    unfold validate
    simp only
    split <;> rfl
  have hErr : (parse E fields args).Error =
      if 0 < (validationBuffer E (parse E fields args).slice).length then
        some (.errorf (E.errorf0 (validationBuffer E (parse E fields args).slice)))
      else none := by
    rw [hslice, hp]
    unfold validate
    simp only
    split
    · rfl
    · exact herr
  constructor
  · rw [hErr, ← validationBuffer_pos E]
    split <;> simp_all
  · intro k fl hk hreq hna hno
    have hmem : fl ∈ (parse E fields args).slice := by
      have hsub : ∀ e ∈ (scan E 0 args (initFlagSet E fields (newFlagSet V))).1.trace,
          e ∈ (parse E fields args).trace := by
        intro e he
        rw [hp]
        unfold validate
        simp only
        split <;> simp [he]
      have := scan_sliceKept E 0 args (initFlagSet E fields (newFlagSet V)) k
        (fun j raw hm => hno j raw (hsub _ hm))
      rw [hslice, List.mem_iff_getElem?]
      exact ⟨k, by rw [this, hk]⟩
    have hpos : 0 < (validationBuffer E (parse E fields args).slice).length :=
      (validationBuffer_pos E _).mpr ⟨fl, hmem, Or.inl ⟨hreq, hna⟩⟩
    have hin : requiredLine E fl <:+: validationBuffer E (parse E fields args).slice :=
      requiredLine_infix_buffer E _ [] fl hmem hreq hna
    refine ⟨_, by rw [hErr, if_pos hpos], rfl, hin, ?_⟩
    intro hfmt
    rw [hfmt]
    exact ⟨(name_infix_requiredLine E fl).trans hin, (required_infix_requiredLine E fl).trans hin⟩

/-- C5, at a buffer that holds `%`.  The first sentence of the claim holds: in every run
that enters the validation pass the error slot is filled if and only if some descriptor is
required and not assigned, or assigned and carrying a conversion error.  For a required
descriptor that was never assigned the buffer of the validation pass holds the line
"... required argument `<name>` missing", and the error is `fmt.Errorf` of that buffer
used as the format (line 208).  So the text need not mention the name or the word
`required`: with the fields `--count` and `--port` (required) and the tokens
`["--count","5%10000010"]` the buffer is the two lines
"... invalid: cannot convert `5%10000010`" and "... required argument `--port` missing",
but `fmt` reads `%10000010` as a width that is too large, writes `%!(NOVERB)` and stops:
the error text ends there and mentions neither `--port` nor `required`.  And for the
required field `--p%d` alone the text is "... required argument `--p%!d(MISSING)`
missing", which does not mention the name `--p%d`. -/
theorem parse_validation_error_mangled :
    (∀ (G W : Type) (E : Env G W) (fields : List G) (args : List Str),
      Event.validate ∈ (parse E fields args).trace →
      ((parse E fields args).Error ≠ none ↔
        ∃ fl ∈ (parse E fields args).slice, Reported fl)) ∧
    (∀ (G W : Type) (E : Env G W) (fields : List G) (args : List Str) (k : Nat) (fl : flag W),
      Event.validate ∈ (parse E fields args).trace →
      (initFlagSet E fields (newFlagSet W)).slice[k]? = some fl →
      fl.tag.required = true → fl.assigned = false →
      (∀ j raw, Event.set j k raw ∉ (parse E fields args).trace) →
      requiredLine E fl <:+: validationBuffer E (parse E fields args).slice ∧
      (parse E fields args).Error
        = some (.errorf (E.errorf0 (validationBuffer E (parse E fields args).slice)))) ∧
    Event.validate ∈ (parse fmtEnv [countField, portField]
      ["--count".toList, "5%10000010".toList]).trace ∧
    (∀ j raw, Event.set j 1 raw ∉ (parse fmtEnv [countField, portField]
      ["--count".toList, "5%10000010".toList]).trace) ∧
    validationBuffer fmtEnv (parse fmtEnv [countField, portField]
        ["--count".toList, "5%10000010".toList]).slice
      = ("ERR! assigned argument `--count` invalid: cannot convert `5%10000010`".toList
          ++ '\n' :: "ERR! required argument `--port` missing".toList) ∧
    (parse fmtEnv [countField, portField] ["--count".toList, "5%10000010".toList]).Error
      = some (.errorf
          "ERR! assigned argument `--count` invalid: cannot convert `5%!(NOVERB)".toList) ∧
    ¬ ("required".toList
        <:+: "ERR! assigned argument `--count` invalid: cannot convert `5%!(NOVERB)".toList) ∧
    ¬ ("--port".toList
        <:+: "ERR! assigned argument `--count` invalid: cannot convert `5%!(NOVERB)".toList) ∧
    (parse fmtEnv [pctField] []).Error
      = some (.errorf "ERR! required argument `--p%!d(MISSING)` missing".toList) ∧
    ¬ ("--p%d".toList <:+: "ERR! required argument `--p%!d(MISSING)` missing".toList) := by
  refine ⟨?_, ?_, by decide, ?_, by decide, by decide, ?_, ?_, by decide, by decide⟩
  · intro G W E fields args hval
    exact (parse_validation_pass E fields args hval).1
  · intro G W E fields args k fl hval hk hreq hna hno
    obtain ⟨text, h1, h2, h3, _⟩ :=
      (parse_validation_pass E fields args hval).2 k fl hk hreq hna hno
    exact ⟨h3, by rw [h1, h2]⟩
  · have htr : (parse fmtEnv [countField, portField]
        ["--count".toList, "5%10000010".toList]).trace
        = [Event.flagToken 0, Event.set 0 0 "5%10000010".toList,
            Event.checked 0 "--count".toList 0 false "0".toList, Event.validate] := by
      decide
    intro j raw h
    rw [htr] at h
    simp at h
  · set_option maxRecDepth 8000 in decide
  · set_option maxRecDepth 8000 in decide

/-- C6, as stated, fails: in `["--count","x","--nope","-n","7"]` the setter of `count`
rejects `x` and the error is recorded on the descriptor, but the later token `--nope` ends
the run: the token `-n` after it is not processed, the validation pass is not entered, and
the error slot holds "unknown flag `--nope`", so the conversion failure is not surfaced. -/
theorem parse_conversion_error_not_surfaced :
    ((parse specEnv [countField]
        ["--count".toList, "x".toList, "--nope".toList, "-n".toList, "7".toList]).slice.map
          (fun fl => fl.err))
      = [some "cannot convert `x`".toList] ∧
    Event.flagToken 3 ∉ (parse specEnv [countField]
        ["--count".toList, "x".toList, "--nope".toList, "-n".toList, "7".toList]).trace ∧
    Event.validate ∉ (parse specEnv [countField]
        ["--count".toList, "x".toList, "--nope".toList, "-n".toList, "7".toList]).trace ∧
    (parse specEnv [countField]
        ["--count".toList, "x".toList, "--nope".toList, "-n".toList, "7".toList]).Error
      = some (.errorf "unknown flag `--nope`".toList) := by
  decide

/-- C6, amended.  In a run of `parse` that reaches the token `t` at index `i`, whose bare
name is registered for the descriptor at position `k`, which is `fl` when the token is
reached, and whose combined value list is empty (`v` the empty text) or the one text `v`:
if the setter call `fl.set(v)` rejects its input by recording a conversion error `cause` on
the descriptor and handing back no error, then the step stores that descriptor, with its
error, at position `k`, leaves the error slot empty and `Values` as they were, and does
not end the run: the run goes on with the tokens after the collected values.  And when a
run enters the validation pass with a descriptor assigned and carrying a conversion error
`cause`, the buffer of the validation pass contains the line
"... assigned argument `<name>` invalid: <cause>" and the error slot holds `fmt.Errorf` of
that buffer used as the format; with `fmt` as Go renders a format without operands, the
text is the buffer, and so contains the line, when the buffer holds no `%`. -/
theorem parse_conversion_error_deferred (E : Env F V) (fields : List F) (args : List Str) :
    (∀ i k t, args[i]? = some t → Event.flagToken i ∈ (parse E fields args).trace →
      lookup (bareName t) (initFlagSet E fields (newFlagSet V)).flags = some k →
      ∃ fl, (stateAt E fields args i).slice[k]? = some fl ∧
        ∀ v cause,
          ((inlineValues t ++ collect args i = [] ∧ v = []) ∨
            inlineValues t ++ collect args i = [v]) →
          (E.set fl v).2 = none → (E.set fl v).1.err = some cause →
          (flagArg E i t (collect args i) (stateAt E fields args i)).1.slice
            = (stateAt E fields args i).slice.set k (E.set fl v).1 ∧
          (flagArg E i t (collect args i) (stateAt E fields args i)).1.Error = none ∧
          (flagArg E i t (collect args i) (stateAt E fields args i)).1.Values
            = (stateAt E fields args i).Values ∧
          (flagArg E i t (collect args i) (stateAt E fields args i)).2 = false ∧
          ¬ StoppedAt i (parse E fields args) ∧
          parse E fields args =
            finish E (scan E (i + 1) (args.drop (i + 1))
              (flagArg E i t (collect args i) (stateAt E fields args i)).1)) ∧
    (Event.validate ∈ (parse E fields args).trace →
      ∀ fl ∈ (parse E fields args).slice, ∀ cause, fl.assigned = true → fl.err = some cause →
        invalidLine E fl cause <:+: validationBuffer E (parse E fields args).slice ∧
        (parse E fields args).Error
          = some (.errorf (E.errorf0 (validationBuffer E (parse E fields args).slice))) ∧
        (E.errorf0 = Errorf0 → '%' ∉ validationBuffer E (parse E fields args).slice →
          ∃ text, (parse E fields args).Error = some (.errorf text) ∧
            text = validationBuffer E (parse E fields args).slice ∧
            invalidLine E fl cause <:+: text)) := by
  constructor
  · intro i k t ht hreach hreg
    obtain ⟨_, _, _, _, hfl, hb, _, hp⟩ := parse_reach_state E fields args i t ht hreach
    rw [← hfl] at hreg
    have hk : k < (stateAt E fields args i).slice.length := hb _ _ hreg
    refine ⟨_, List.getElem?_eq_getElem hk, ?_⟩
    intro v cause hv hnone hcause
    obtain ⟨h1, h2, h3, _, _, h6⟩ := flagArg_found_call E i k t v (collect args i)
      (stateAt E fields args i) _ hreg (List.getElem?_eq_getElem hk) hv
    rw [hnone] at h2 h3 h6
    rw [hcause] at h6
    have hpar : parse E fields args =
        finish E (scan E (i + 1) (args.drop (i + 1))
          (flagArg E i t (collect args i) (stateAt E fields args i)).1) := by
      rw [hp]
      cases hr : flagArg E i t (collect args i) (stateAt E fields args i) with
      | mk fs' b =>
        rw [hr] at h3
        simp only [Option.isSome_none] at h3
        subst h3
        rfl
    refine ⟨h1, h2, h6, h3, ?_, hpar⟩
    rw [hpar]
    exact finish_scan_not_stopped E i _ _
  · intro hval fl hmem cause ha he
    obtain ⟨_, _, herr, hp⟩ := parse_validated E fields args hval
    have hslice : (parse E fields args).slice
        = (scan E 0 args (initFlagSet E fields (newFlagSet V))).1.slice := by
      rw [hp]
      unfold validate
      simp only
      split <;> rfl
    have hpos : 0 < (validationBuffer E (parse E fields args).slice).length :=
      (validationBuffer_pos E _).mpr ⟨fl, hmem, Or.inr ⟨ha, by simp [he]⟩⟩
    have hErr : (parse E fields args).Error =
        some (.errorf (E.errorf0 (validationBuffer E (parse E fields args).slice))) := by
      rw [hslice] at hpos ⊢
      rw [hp]
      unfold validate
      simp only
      rw [if_pos hpos]
    have hin : invalidLine E fl cause <:+: validationBuffer E (parse E fields args).slice :=
      invalidLine_infix_buffer E _ [] fl cause hmem ha he
    refine ⟨hin, hErr, ?_⟩
    intro hfmt hno
    refine ⟨_, hErr, ?_, ?_⟩
    · rw [hfmt]
      exact Errorf0_of_no_percent _ hno
    · rw [hfmt, Errorf0_of_no_percent _ hno]
      exact hin

/-- The example of C6, with `fmt` as Go renders it: `["--count","x"]` against the integer
field `count`.  The setter records "cannot convert `x`" on the descriptor; the step stores
it, the run is not ended by the token, and the aggregate error is
"ERR! assigned argument `--count` invalid: cannot convert `x`". -/
theorem parse_conversion_error_deferred_witness :
    ¬ StoppedAt 0 (parse fmtEnv [countField] ["--count".toList, "x".toList]) ∧
    (parse fmtEnv [countField] ["--count".toList, "x".toList]).slice
      = [{ tag := { shortNames := ["-n".toList], longNames := ["--count".toList],
                    required := false },
           v := .int 0, assigned := true, err := some "cannot convert `x`".toList }] ∧
    (parse fmtEnv [countField] ["--count".toList, "x".toList]).Values = [] ∧
    (parse fmtEnv [countField] ["--count".toList, "x".toList]).Error
      = some (.errorf "ERR! assigned argument `--count` invalid: cannot convert `x`".toList) := by
  have h := parse_conversion_error_deferred fmtEnv [countField]
    ["--count".toList, "x".toList]
  refine ⟨?_, by decide, by decide, ?_⟩
  · obtain ⟨fl, hfl, hstep⟩ := h.1 0 0 "--count".toList (by decide) (by decide) (by decide)
    have hfl' : fl = { tag := { shortNames := ["-n".toList], longNames := ["--count".toList],
                                required := false },
                       v := .int 0, assigned := false, err := none } := by
      have h0 : (stateAt fmtEnv [countField] ["--count".toList, "x".toList] 0).slice[0]?
          = some { tag := { shortNames := ["-n".toList], longNames := ["--count".toList],
                            required := false },
                   v := .int 0, assigned := false, err := none } := by decide
      rw [h0] at hfl
      exact (Option.some.inj hfl).symm
    subst hfl'
    exact (hstep "x".toList "cannot convert `x`".toList (Or.inr (by decide))
      (by decide) (by decide)).2.2.2.2.1
  · obtain ⟨_, _, h3⟩ := h.2 (by decide)
      { tag := { shortNames := ["-n".toList], longNames := ["--count".toList],
                 required := false },
        v := .int 0, assigned := true, err := some "cannot convert `x`".toList }
      (by decide) "cannot convert `x`".toList (by decide) (by decide)
    obtain ⟨text, h4, h5, _⟩ := h3 rfl (by decide)
    rw [h4, h5]
    decide

/-- C7. For a record all of whose fields `newFlag` handles without error: `initFlagSet`
ends with the error "flag `name` repeat" if and only if the sequence of declared names
(field by field in declaration order, short names before long names) holds a name twice;
and `name` is the first name of that sequence that repeats an earlier one. So two fields
that declare the same name always make the build fail. -/
theorem initFlagSet_duplicate_name (E : Env F V) (fields : List F)
    (hok : ∀ f ∈ fields, (E.newFlag f).2 = none) :
    (initFlagSet E fields (newFlagSet V)).Error
        = (firstRepeat [] (allNames E fields)).map (fun n => GoError.errorf (repeatText n)) ∧
    ((∃ n, (initFlagSet E fields (newFlagSet V)).Error = some (.errorf (repeatText n)))
        ↔ ¬ (allNames E fields).Nodup) ∧
    (∀ n, firstRepeat [] (allNames E fields) = some n ↔
        ∃ pre post, allNames E fields = pre ++ n :: post ∧ pre.Nodup ∧ n ∈ pre) := by
  have hE : (initFlagSet E fields (newFlagSet V)).Error
      = (firstRepeat [] (allNames E fields)).map (fun n => GoError.errorf (repeatText n)) := by
    rw [initFlagSet_Error]
    exact initFields_firstRepeat E fields [] (newFlagSet V) hok rfl (by
      intro n
      simp [newFlagSet, lookup])
  refine ⟨hE, ?_, ?_⟩
  · rw [← firstRepeat_isSome, hE]
    cases firstRepeat [] (allNames E fields) with
    | none => simp
    | some n => simp
  · intro n
    rw [firstRepeat_eq_some]
    constructor
    · rintro ⟨pre, post, hl, hnd, _, hm⟩
      rcases hm with hm | hm
      · exact ⟨pre, post, hl, hnd, hm⟩
      · cases hm
    · rintro ⟨pre, post, hl, hnd, hm⟩
      exact ⟨pre, post, hl, hnd, by simp, Or.inl hm⟩

/-- An example of C7: the fields `count` (`-n`, `--count`) and `name` (`-n`, `--name`) both
declare `-n`; the build fails with "flag `-n` repeat". -/
theorem initFlagSet_duplicate_name_witness :
    (initFlagSet specEnv [countField, nameField] (newFlagSet Val)).Error
      = some (.errorf "flag `-n` repeat".toList) :=
  (initFlagSet_duplicate_name specEnv [countField, nameField] (by decide)).1.trans (by decide)

theorem length_filterMap_newFlag (E : Env F V) (fields : List F) :
    (fields.filterMap (fun f => (E.newFlag f).1)).length
      = fields.countP (fun f => (E.newFlag f).1.isSome) := by
  induction fields with
  | nil => rfl
  | cons f fields ih =>
    cases h : (E.newFlag f).1 with
    | none => simp [List.filterMap_cons, h, ih]
    | some fl => simp [List.filterMap_cons, h, ih]

/-- C8. For a record all of whose fields `newFlag` handles without error and whose
declared names are all distinct: `initFlagSet` leaves as ordered list the descriptors of
the fields that are not excluded, in declaration order (as many as there are such
fields); the keys of the name map are exactly the declared names, each leading to a
descriptor of the list that declares it; the error slot is empty; and `Usage` is the
rendering of that ordered list. -/
theorem initFlagSet_valid (E : Env F V) (fields : List F)
    (hok : ∀ f ∈ fields, (E.newFlag f).2 = none) (hnd : (allNames E fields).Nodup) :
    (initFlagSet E fields (newFlagSet V)).slice
        = fields.filterMap (fun f => (E.newFlag f).1) ∧
    (initFlagSet E fields (newFlagSet V)).slice.length
        = fields.countP (fun f => (E.newFlag f).1.isSome) ∧
    (∀ n, (lookup n (initFlagSet E fields (newFlagSet V)).flags).isSome = true
        ↔ n ∈ allNames E fields) ∧
    Owns (initFlagSet E fields (newFlagSet V)) ∧
    (initFlagSet E fields (newFlagSet V)).Error = none ∧
    (initFlagSet E fields (newFlagSet V)).Usage
        = E.usage (initFlagSet E fields (newFlagSet V)).slice := by
  have hfr : firstRepeat [] (allNames E fields) = none := by
    cases hx : firstRepeat [] (allNames E fields) with
    | none => rfl
    | some n =>
      have := (firstRepeat_isSome (allNames E fields)).mp (by rw [hx]; rfl)
      exact absurd hnd this
  have hkeys0 : KeysAre (newFlagSet V) [] := by
    intro n
    simp [newFlagSet, lookup]
  have hown0 : Owns (newFlagSet V) := by
    intro n k h
    simp [newFlagSet, lookup] at h
  obtain ⟨hb, hsl, he, hk, ho⟩ :=
    initFields_valid E fields [] (newFlagSet V) hok hfr rfl hkeys0 hown0
  have hinit : initFlagSet E fields (newFlagSet V)
      = { (initFields E fields (newFlagSet V)).1 with
          Usage := E.usage (initFields E fields (newFlagSet V)).1.slice } := by
    unfold initFlagSet
    cases hres : initFields E fields (newFlagSet V) with
    | mk fs' b =>
      rw [hres] at hb
      simp only at hb
      subst hb
      rfl
  have hslice : (initFlagSet E fields (newFlagSet V)).slice
      = fields.filterMap (fun f => (E.newFlag f).1) := by
    rw [hinit]
    simpa [newFlagSet] using hsl
  refine ⟨hslice, ?_, ?_, ?_, ?_, ?_⟩
  · rw [hslice, length_filterMap_newFlag]
  · intro n
    rw [hinit]
    have := hk n
    simpa using this
  · rw [hinit]
    exact ho
  · rw [hinit]
    exact he
  · rw [hinit]

/-- An example of C8: of the three fields `count`, an ignored one and `port`, two
descriptors are built, `--port` is a key of the name map, and there is no error. -/
theorem initFlagSet_valid_witness :
    (initFlagSet specEnv [countField, ignoredField, portField] (newFlagSet Val)).slice.length = 2 ∧
    (lookup "--port".toList
        (initFlagSet specEnv [countField, ignoredField, portField] (newFlagSet Val)).flags).isSome
      = true ∧
    (initFlagSet specEnv [countField, ignoredField, portField] (newFlagSet Val)).Error = none :=
  have h := initFlagSet_valid specEnv [countField, ignoredField, portField]
    (by decide) (by decide)
  ⟨h.2.1.trans (by decide), (h.2.2.1 "--port".toList).mpr (by decide), h.2.2.2.2.1⟩

/-- C9, as stated, fails: in `["-n","x","--count","5"]`, with `-n` and `--count` two names
of the one integer field, the run does not abort, `-n` occurs as the bare name of a found
flag token, the descriptor carries no conversion error at the end (the setter call for
`--count 5` succeeded), and yet `Values` has no entry for `-n`. -/
theorem parse_values_alias_missing :
    Event.validate ∈ (parse specEnv [countField]
        ["-n".toList, "x".toList, "--count".toList, "5".toList]).trace ∧
    Event.flagToken 0 ∈ (parse specEnv [countField]
        ["-n".toList, "x".toList, "--count".toList, "5".toList]).trace ∧
    lookup "-n".toList (initFlagSet specEnv [countField] (newFlagSet Val)).flags = some 0 ∧
    ((parse specEnv [countField]
        ["-n".toList, "x".toList, "--count".toList, "5".toList]).slice.map (fun fl => fl.err))
      = [none] ∧
    lookup "-n".toList (parse specEnv [countField]
        ["-n".toList, "x".toList, "--count".toList, "5".toList]).Values = none := by
  decide

/-- C9, amended.  In a run of `parse` that enters the validation pass (it does not
abort), let the token `t` at index `i` be processed as a flag token.
* If the bare name `n` of `t` is registered (descriptor `k`, which is `fl` when the token
  is reached) and no later flag token names `n`: the combined value list of `t` is empty
  or one text `v`, the setter call `fl.set(v)` handed back no error, and `Values[n]` after
  the run is the list of the one string form of the value that call left if it left the
  descriptor without a conversion error, and is what it was before the token otherwise.
* If the bare name of `t` is not registered (a cluster) and `c` is a byte of it that does
  not come again in it, `n` being `-c` (descriptor `k`), and no later flag token names `n`:
  the loop reaches `c` with the descriptor `fl` at `k`, the call `fl.set("")` handed back no
  error, and `Values[n]` after the run is the list of the one string form of the value that
  call left if it left the descriptor without a conversion error, and is what it was before
  the byte otherwise.
So the entry of a name is decided by its last occurrence, and every entry of `Values` is a
list of exactly one string. -/
theorem parse_values_last_wins (E : Env F V) (fields : List F) (args : List Str)
    (i : Nat) (t : Str) (ht : args[i]? = some t)
    (hreach : Event.flagToken i ∈ (parse E fields args).trace)
    (hval : Event.validate ∈ (parse E fields args).trace) :
    (∀ k, lookup (bareName t) (initFlagSet E fields (newFlagSet V)).flags = some k →
      (∀ u ∈ args.drop (i + 1), HasPrefix u dashOne = true → mentions (bareName t) u = false) →
      ∃ fl v, (stateAt E fields args i).slice[k]? = some fl ∧
        ((inlineValues t ++ collect args i = [] ∧ v = []) ∨
          inlineValues t ++ collect args i = [v]) ∧
        (E.set fl v).2 = none ∧
        lookup (bareName t) (parse E fields args).Values =
          if (E.set fl v).1.err.isNone then some [E.sprintV (E.set fl v).1.v]
          else lookup (bareName t) (stateAt E fields args i).Values) ∧
    (lookup (bareName t) (initFlagSet E fields (newFlagSet V)).flags = none →
      ∀ (cpre cpost : List Char) (c : Char) (k : Nat),
        TrimPrefix (bareName t) dashOne = cpre ++ c :: cpost → c ∉ cpost →
        lookup (dashOne ++ [c]) (initFlagSet E fields (newFlagSet V)).flags = some k →
        (∀ u ∈ args.drop (i + 1), HasPrefix u dashOne = true →
          mentions (dashOne ++ [c]) u = false) →
        (cluster E i cpre (stateAt E fields args i)).2 = false ∧
        ∃ fl, (cluster E i cpre (stateAt E fields args i)).1.slice[k]? = some fl ∧
          (E.set fl []).2 = none ∧
          lookup (dashOne ++ [c]) (parse E fields args).Values =
            if (E.set fl []).1.err.isNone then some [E.sprintV (E.set fl []).1.v]
            else lookup (dashOne ++ [c])
              (cluster E i cpre (stateAt E fields args i)).1.Values) ∧
    (∀ n vs, lookup n (parse E fields args).Values = some vs → vs.length = 1) := by
  obtain ⟨_, _, _, hE, hfl, hb, _, _⟩ := parse_reach_state E fields args i t ht hreach
  obtain ⟨hgo, hV⟩ := step_continues E fields args i t ht hreach hval
  refine ⟨?_, ?_, (parse_recorded E fields args).2⟩
  · intro k hreg hlater
    rw [← hfl] at hreg
    have hk : k < (stateAt E fields args i).slice.length := hb _ _ hreg
    have hget := List.getElem?_eq_getElem hk
    have hv : ∃ v, (inlineValues t ++ collect args i = [] ∧ v = []) ∨
        inlineValues t ++ collect args i = [v] := by
      match hm : inlineValues t ++ collect args i with
      | [] => exact ⟨[], Or.inl ⟨rfl, rfl⟩⟩
      | [v] => exact ⟨v, Or.inr rfl⟩
      | a :: b :: l =>
        exfalso
        have hfa := flagArg_found E i k t (collect args i) (stateAt E fields args i) hreg
        rw [hm] at hfa
        simp only [Option.isSome_some, if_true] at hfa
        rw [hfa] at hgo
        cases hgo
    obtain ⟨v, hv⟩ := hv
    obtain ⟨_, _, h3, _, _, h6⟩ := flagArg_found_call E i k t v (collect args i)
      (stateAt E fields args i) _ hreg hget hv
    rw [hgo] at h3
    have hnone : (E.set (stateAt E fields args i).slice[k] v).2 = none := by
      cases hs : (E.set (stateAt E fields args i).slice[k] v).2 with
      | none => rfl
      | some e => rw [hs] at h3; cases h3
    refine ⟨_, v, hget, hv, hnone, ?_⟩
    rw [hV, scan_lookup_absent E _ _ _ _ hlater, h6, hnone]
    cases he : (E.set (stateAt E fields args i).slice[k] v).1.err with
    | none =>
      simp only [Option.isSome_none, Bool.or_self, Bool.false_eq_true, if_false,
        Option.isNone_none, if_true]
      exact lookup_insert_self _ _ _
    | some c =>
      simp only [Option.isSome_none, Option.isSome_some, Bool.false_or, if_true,
        Option.isNone_some, Bool.false_eq_true, if_false]
  · intro hnot cpre cpost c k hchars hcnot hreg hlater
    rw [← hfl] at hnot hreg
    have hfa := flagArg_unknown E i t (collect args i) (stateAt E fields args i) hnot
    have hlong : HasPrefix (bareName t) dashTwo = false := by
      cases hl : HasPrefix (bareName t) dashTwo with
      | false => rfl
      | true =>
        rw [hl] at hfa
        simp only [if_true] at hfa
        rw [hfa] at hgo
        cases hgo
    rw [hlong, hchars, cluster_append] at hfa
    simp only [Bool.false_eq_true, if_false] at hfa
    have hpre : (cluster E i cpre (stateAt E fields args i)).2 = false := by
      cases hp : (cluster E i cpre (stateAt E fields args i)).2 with
      | false => rfl
      | true =>
        rw [hp] at hfa
        simp only [if_true] at hfa
        rw [hfa, hp] at hgo
        cases hgo
    rw [hpre] at hfa
    simp only [Bool.false_eq_true, if_false] at hfa
    have hkeep := cluster_keeps E i cpre (stateAt E fields args i)
    have hreg' : lookup (dashOne ++ [c])
        (cluster E i cpre (stateAt E fields args i)).1.flags = some k := by
      rw [hkeep.flags]
      exact hreg
    have hk : k < (cluster E i cpre (stateAt E fields args i)).1.slice.length :=
      (hkeep.bound hb) _ _ hreg'
    have hget := List.getElem?_eq_getElem hk
    have hcs := callSet_eq E i k [] (cluster E i cpre (stateAt E fields args i)).1 _ hget
    rw [cluster] at hfa
    simp only [hreg'] at hfa
    have hnone : (E.set (cluster E i cpre (stateAt E fields args i)).1.slice[k] []).2
        = none := by
      cases hs : (E.set (cluster E i cpre (stateAt E fields args i)).1.slice[k] []).2 with
      | none => rfl
      | some e =>
        have he : (callSet E i k [] (cluster E i cpre (stateAt E fields args i)).1).Error.isSome
            = true := by
          rw [hcs, hs]
          rfl
        rw [if_pos he] at hfa
        rw [hfa] at hgo
        cases hgo
    have he : ¬ (callSet E i k [] (cluster E i cpre (stateAt E fields args i)).1).Error.isSome
        = true := by
      rw [hcs, hnone]
      simp
    rw [if_neg he] at hfa
    refine ⟨hpre, _, hget, hnone, ?_⟩
    rw [hV, scan_lookup_absent E _ _ _ _ hlater, hfa,
      cluster_lookup_absent E _ i cpost _ (by
        intro x hx he
        have : x = c := by simpa using he
        exact hcnot (this ▸ hx)),
      recordValue_Values E i _ k _ (E.set (cluster E i cpre (stateAt E fields args i)).1.slice[k] []).1
        (by rw [hcs]; exact getElem?_set_at _ k _ _ hget),
      callSet_Values]
    split
    · exact lookup_insert_self _ _ _
    · rfl

/-- Examples of the amended C9.  In `["-n","1","-n","2"]` the later occurrence wins:
`Values["-n"]` is the list of `2`.  In `["-n","7","-n","x"]` the last call leaves a
conversion error on the descriptor, and `Values["-n"]` stays the list of `7`. -/
theorem parse_values_last_wins_witness :
    (∃ fl v, (stateAt specEnv [countField]
          ["-n".toList, "1".toList, "-n".toList, "2".toList] 2).slice[0]? = some fl ∧
        ((inlineValues "-n".toList
            ++ collect ["-n".toList, "1".toList, "-n".toList, "2".toList] 2 = [] ∧ v = []) ∨
          inlineValues "-n".toList
            ++ collect ["-n".toList, "1".toList, "-n".toList, "2".toList] 2 = [v]) ∧
        (specEnv.set fl v).2 = none ∧
        lookup (bareName "-n".toList) (parse specEnv [countField]
            ["-n".toList, "1".toList, "-n".toList, "2".toList]).Values =
          if (specEnv.set fl v).1.err.isNone then some [specEnv.sprintV (specEnv.set fl v).1.v]
          else lookup (bareName "-n".toList) (stateAt specEnv [countField]
            ["-n".toList, "1".toList, "-n".toList, "2".toList] 2).Values) ∧
    lookup "-n".toList (parse specEnv [countField]
        ["-n".toList, "1".toList, "-n".toList, "2".toList]).Values = some ["2".toList] ∧
    lookup "-n".toList (parse specEnv [countField]
        ["-n".toList, "7".toList, "-n".toList, "x".toList]).Values = some ["7".toList] ∧
    ((parse specEnv [countField]
        ["-n".toList, "7".toList, "-n".toList, "x".toList]).slice.map (fun fl => fl.err))
      = [some "cannot convert `x`".toList] :=
  ⟨(parse_values_last_wins specEnv [countField]
      ["-n".toList, "1".toList, "-n".toList, "2".toList] 2 "-n".toList
      (by decide) (by decide) (by decide)).1 0 (by decide) (by decide),
    by decide, by decide, by decide⟩

/-- C10, as stated, fails: in `["-ab"]` with `-a` registered and `-b` not, the run fails
with "unknown flag `-b`", but the setter of `-a` has been called (with the empty text) and
its descriptor is marked assigned. -/
theorem parse_cluster_partial :
    (parse specEnv [boolField 'a'] ["-ab".toList]).Error
      = some (.errorf "unknown flag `-b`".toList) ∧
    setCalls 0 (parse specEnv [boolField 'a'] ["-ab".toList]).trace = [(0, [])] ∧
    (parse specEnv [boolField 'a'] ["-ab".toList]).slice.map (fun fl => fl.assigned) = [true] := by
  decide

/-- C10, amended.  In a run of `parse` that reaches the token `t` at index `i`, whose bare
name is not registered and does not begin with `--`, and whose bytes after the `-` are
`pre`, all resolving to registered short names, then `c`, which does not resolve: the run
ends at this token, in the state the step left.  The setters of the first `m` bytes of
`pre` were called, one call with the empty text each, in the order of the bytes, at least
the first when `pre` is not empty, and the descriptors are as these calls left them (each
call's result stored at its position); every call but the last handed back no error; no
setter call is made for `c` or a later byte.  Either the last call handed back no error
either: then every setter of `pre` was called and the error is "unknown flag `-c`".  Or the
error is the one the last call handed back. -/
theorem parse_cluster_unknown_member (E : Env F V) (fields : List F) (args : List Str)
    (i : Nat) (t : Str) (idx : Char → Nat) (pre post : List Char) (c : Char)
    (ht : args[i]? = some t)
    (hreach : Event.flagToken i ∈ (parse E fields args).trace)
    (hnot : lookup (bareName t) (initFlagSet E fields (newFlagSet V)).flags = none)
    (hlong : HasPrefix (bareName t) dashTwo = false)
    (hchars : TrimPrefix (bareName t) dashOne = pre ++ c :: post)
    (hres : ∀ x ∈ pre,
      lookup (dashOne ++ [x]) (initFlagSet E fields (newFlagSet V)).flags = some (idx x))
    (hc : lookup (dashOne ++ [c]) (initFlagSet E fields (newFlagSet V)).flags = none) :
    StoppedAt i (parse E fields args) ∧
    parse E fields args = (flagArg E i t (collect args i) (stateAt E fields args i)).1 ∧
    ∃ m, m ≤ pre.length ∧ (pre ≠ [] → 0 < m) ∧
      setCalls i (parse E fields args).trace = (pre.take m).map (fun x => (idx x, [])) ∧
      (parse E fields args).slice
        = setEach E ((pre.take m).map idx) (stateAt E fields args i).slice ∧
      (∀ j x fl, j + 1 < m → pre[j]? = some x →
        (setEach E ((pre.take j).map idx) (stateAt E fields args i).slice)[idx x]? = some fl →
        (E.set fl []).2 = none) ∧
      ((m = pre.length ∧
          (parse E fields args).Error = some (.errorf (unknownText (dashOne ++ [c]))) ∧
          ∀ x fl, 0 < m → pre[m - 1]? = some x →
            (setEach E ((pre.take (m - 1)).map idx)
              (stateAt E fields args i).slice)[idx x]? = some fl →
            (E.set fl []).2 = none) ∨
        (0 < m ∧
          ∃ x fl e, pre[m - 1]? = some x ∧
            (setEach E ((pre.take (m - 1)).map idx)
              (stateAt E fields args i).slice)[idx x]? = some fl ∧
            (E.set fl []).2 = some e ∧
            (parse E fields args).Error = some (.returned e))) := by
  obtain ⟨_, _, _, hE, hfl, hb, hcs, hp⟩ := parse_reach_state E fields args i t ht hreach
  rw [← hfl] at hnot hc
  have hfa := flagArg_unknown E i t (collect args i) (stateAt E fields args i) hnot
  rw [hlong, hchars] at hfa
  simp only [Bool.false_eq_true, if_false] at hfa
  obtain ⟨h2, m, hm, hpos, hcalls, hslice, hearly, hend⟩ :=
    cluster_unknown_state E i idx pre post c (stateAt E fields args i) hb hE
      (by
        intro x hx
        rw [hfl]
        exact hres x hx) hc
  rw [← hfa] at h2 hcalls hslice hend
  rw [hcs, List.nil_append] at hcalls
  have hpar : parse E fields args
      = (flagArg E i t (collect args i) (stateAt E fields args i)).1 := by
    rw [hp]
    cases hr : flagArg E i t (collect args i) (stateAt E fields args i) with
    | mk fs' b =>
      rw [hr] at h2
      simp only at h2
      subst h2
      rfl
  refine ⟨?_, hpar, m, hm, hpos, ?_, ?_, hearly, ?_⟩
  · rw [hpar]
    exact step_stoppedAt E fields args i t ht _
  · rw [hpar]
    exact hcalls
  · rw [hpar]
    exact hslice
  · rw [hpar]
    exact hend

/-- An example of the amended C10: in `["-abz","x"]` with `-a`, `-b` registered and `-z`
not, the run ends at the token in the state the step left; the setters of `-a` and `-b`
were called, both descriptors are assigned with the value the setter stored, and the error
is "unknown flag `-z`". -/
theorem parse_cluster_unknown_member_witness :
    StoppedAt 0 (parse specEnv [boolField 'a', boolField 'b'] ["-abz".toList, "x".toList]) ∧
    parse specEnv [boolField 'a', boolField 'b'] ["-abz".toList, "x".toList]
      = (flagArg specEnv 0 "-abz".toList (collect ["-abz".toList, "x".toList] 0)
          (stateAt specEnv [boolField 'a', boolField 'b']
            ["-abz".toList, "x".toList] 0)).1 ∧
    setCalls 0 (parse specEnv [boolField 'a', boolField 'b']
        ["-abz".toList, "x".toList]).trace = [(0, []), (1, [])] ∧
    (parse specEnv [boolField 'a', boolField 'b']
        ["-abz".toList, "x".toList]).slice.map (fun fl => (fl.v, fl.assigned))
      = [(.bool true, true), (.bool true, true)] ∧
    (parse specEnv [boolField 'a', boolField 'b'] ["-abz".toList, "x".toList]).Error
      = some (.errorf "unknown flag `-z`".toList) :=
  have h := parse_cluster_unknown_member specEnv [boolField 'a', boolField 'b']
    ["-abz".toList, "x".toList] 0 "-abz".toList (fun x => x.toNat - 97) ['a', 'b'] [] 'z'
    (by decide) (by decide) (by decide) (by decide) (by decide) (by decide) (by decide)
  ⟨h.1, h.2.1, by decide, by decide, by decide⟩

/-- C12, as stated, fails on a nil target.  The nil interface value is a target that is
not a pointer, and a nil pointer is not a pointer to a struct; on both, reflection panics
(lines 53 and 55, 76 and 77) before `Parse` can set an error and before `Usage` can return
the empty string. -/
theorem Parse_nil_panics :
    Parse specEnv ["--count".toList, "5".toList] (Target.nilInterface : Target Field) = none ∧
    Parse specEnv ["--count".toList, "5".toList] (Target.nilPointer : Target Field) = none ∧
    Usage specEnv (Target.nilInterface : Target Field) = none ∧
    Usage specEnv (Target.nilPointer : Target Field) = none :=
  ⟨rfl, rfl, rfl, rfl⟩

/-- C12, amended.  A failure before the scan, on a target that is not nil: for a value
that is not a pointer `Parse` returns the fresh flag set with the error "type of object is
not a pointer"; for a pointer to a value that is not a struct, with the error "object
pointer does not indirect a struct"; for a pointer to a struct on which `initFlagSet`
leaves an error, the flag set as `initFlagSet` left it, with that error.  In the three
cases the result is the same for every token list and its trace is empty: no token was
examined as a flag token and no setter call was made for a token.  `Usage` returns the
empty string for a value that is not a pointer and for a pointer to a value that is not a
struct.  On the nil interface value and on a nil pointer `Parse` and `Usage` panic. -/
theorem Parse_build_failure (E : Env F V) (args : List Str) :
    (Parse E args (Target.notPointer : Target F)
        = some { newFlagSet V with
            Error := some (.errorf "type of object is not a pointer".toList) }) ∧
    (Parse E args (Target.pointerToOther : Target F)
        = some { newFlagSet V with
            Error := some (.errorf "object pointer does not indirect a struct".toList) }) ∧
    (∀ fields e, (initFlagSet E fields (newFlagSet V)).Error = some e →
      Parse E args (Target.pointerToStruct fields)
        = some (initFlagSet E fields (newFlagSet V)) ∧
      (initFlagSet E fields (newFlagSet V)).trace = [] ∧
      ∀ args', Parse E args' (Target.pointerToStruct fields)
        = Parse E args (Target.pointerToStruct fields)) ∧
    (∀ fields, (initFlagSet E fields (newFlagSet V)).Error = none →
      Parse E args (Target.pointerToStruct fields) = some (parse E fields args)) ∧
    Usage E (Target.notPointer : Target F) = some [] ∧
    Usage E (Target.pointerToOther : Target F) = some [] ∧
    (∀ fields, Usage E (Target.pointerToStruct fields)
      = some (initFlagSet E fields (newFlagSet V)).Usage) ∧
    Parse E args (Target.nilInterface : Target F) = none ∧
    Parse E args (Target.nilPointer : Target F) = none ∧
    Usage E (Target.nilInterface : Target F) = none ∧
    Usage E (Target.nilPointer : Target F) = none := by
  refine ⟨rfl, rfl, ?_, fun _ _ => rfl, rfl, rfl, fun _ => rfl, rfl, rfl, rfl, rfl⟩
  intro fields e he
  have hp : ∀ a : List Str, Parse E a (Target.pointerToStruct fields)
      = some (initFlagSet E fields (newFlagSet V)) := by
    intro a
    show some (parse E fields a) = _
    rw [parse_eq, he]
    rfl
  refine ⟨hp args, ?_, fun a => by rw [hp a, hp args]⟩
  rw [initFlagSet_trace]
  rfl

/-- An example of C12: the fields `count` and `name` both declare `-n`, so for the tokens
`["--count","5"]` `Parse` returns the flag set of `initFlagSet`, with the error
"flag `-n` repeat" and an empty trace. -/
theorem Parse_build_failure_witness :
    Parse specEnv ["--count".toList, "5".toList] (Target.pointerToStruct [countField, nameField])
      = some (initFlagSet specEnv [countField, nameField] (newFlagSet Val)) ∧
    (initFlagSet specEnv [countField, nameField] (newFlagSet Val)).Error
      = some (.errorf "flag `-n` repeat".toList) ∧
    (initFlagSet specEnv [countField, nameField] (newFlagSet Val)).trace = [] :=
  have h := (Parse_build_failure specEnv ["--count".toList, "5".toList]).2.2.1
    [countField, nameField] (.errorf "flag `-n` repeat".toList) (by decide)
  ⟨h.1, by decide, h.2.1⟩

theorem shift_of_validate_only (d : Nat) (fs : FlagSet V)
    (h : ∀ e ∈ fs.trace, e = Event.validate) : fs.shift d = fs := by
  have hm : fs.trace.map (Event.shift d) = fs.trace := by
    have : ∀ tr : List Event, (∀ e ∈ tr, e = Event.validate) → tr.map (Event.shift d) = tr := by
      intro tr
      induction tr with
      | nil => intro _; rfl
      | cons e tr ih =>
        intro htr
        have he := htr e (List.mem_cons_self _ _)
        subst he
        rw [List.map_cons, ih (fun x hx => htr x (List.mem_cons_of_mem _ hx))]
        rfl
    exact this fs.trace h
  unfold FlagSet.shift
  rw [hm]

theorem parse_nil_trace (E : Env F V) (fields : List F) :
    ∀ e ∈ (parse E fields []).trace, e = Event.validate := by
  have htr : (initFlagSet E fields (newFlagSet V)).trace = [] := by
    rw [initFlagSet_trace]
    rfl
  rw [parse_eq]
  split
  · rw [htr]
    simp
  · intro e he
    rcases finish_trace E (scan E 0 [] (initFlagSet E fields (newFlagSet V))) with h | h
    · rw [h] at he
      simp only [scan] at he
      rw [htr] at he
      cases he
    · rw [h] at he
      simp only [scan] at he
      rw [htr] at he
      simpa using he

/-- C13. For every list `p` of tokens none of which begins with `-` and every token list
`rest`: the run of `parse` on `p ++ rest` is the run on `rest`, only with the token
indices of the trace moved up by the length of `p`; so the setter calls, the `Values` map,
the error slot and the descriptors are the same.  In particular a token list without a
token that begins with `-` gives no setter call and exactly the result of the empty
token list. -/
theorem parse_ignores_leading_tokens (E : Env F V) (fields : List F) (p rest : List Str)
    (hp : ∀ a ∈ p, HasPrefix a dashOne = false) :
    parse E fields (p ++ rest) = (parse E fields rest).shift p.length ∧
    allCalls (parse E fields (p ++ rest)).trace = allCalls (parse E fields rest).trace ∧
    (parse E fields (p ++ rest)).Values = (parse E fields rest).Values ∧
    (parse E fields (p ++ rest)).Error = (parse E fields rest).Error ∧
    (parse E fields (p ++ rest)).slice = (parse E fields rest).slice ∧
    allCalls (parse E fields p).trace = [] ∧
    parse E fields p = parse E fields [] := by
  have h := parse_noDash_append E fields p rest hp
  have h0 := parse_noDash_append E fields p [] hp
  rw [List.append_nil, shift_of_validate_only _ _ (parse_nil_trace E fields)] at h0
  refine ⟨h, ?_, by rw [h]; rfl, by rw [h]; rfl, by rw [h]; rfl, ?_, h0⟩
  · rw [h]
    exact allCalls_shift _ _
  · rw [h0]
    have : ∀ tr : List Event, (∀ e ∈ tr, e = Event.validate) → allCalls tr = [] := by
      intro tr
      induction tr with
      | nil => intro _; rfl
      | cons e tr ih =>
        intro htr
        have he := htr e (List.mem_cons_self _ _)
        subst he
        exact ih (fun x hx => htr x (List.mem_cons_of_mem _ hx))
    exact this _ (parse_nil_trace E fields)

/-- An example of C13: the tokens `["a","b"]` before `["--count","5"]` change nothing but
the token index, and `["a","b"]` alone gives the result of no token at all. -/
theorem parse_ignores_leading_tokens_witness :
    allCalls (parse specEnv [countField]
        (["a".toList, "b".toList] ++ ["--count".toList, "5".toList])).trace
      = allCalls (parse specEnv [countField] ["--count".toList, "5".toList]).trace ∧
    parse specEnv [countField] ["a".toList, "b".toList] = parse specEnv [countField] [] :=
  have h := parse_ignores_leading_tokens specEnv [countField] ["a".toList, "b".toList]
    ["--count".toList, "5".toList] (by decide)
  ⟨h.2.1, h.2.2.2.2.2.2⟩

/-- C17. Processing a found flag token (lines 144–189, `flagArg`) writes `Values` at no key
other than the bare name written in the token: in whatever state the token `t` is
processed, if its bare name is registered, then the entry of every other key `m` (a name
of another descriptor, or another name of the same descriptor) is after the step what it
was before.  In a run of `parse` on `pre ++ t :: post`, `t` beginning with `-`, in which
the tokens of `pre` did not end the run, the step is taken in the state the scan of `pre`
left, and the run continues from its result. -/
theorem flagArg_found_touches_one_key (E : Env F V) (t : Str) :
    (∀ (i k : Nat) (values : List Str) (fs : FlagSet V),
      lookup (bareName t) fs.flags = some k →
      ∀ m, m ≠ bareName t →
        lookup m (flagArg E i t values fs).1.Values = lookup m fs.Values) ∧
    (∀ (fields : List F) (pre post : List Str),
      HasPrefix t dashOne = true →
      (initFlagSet E fields (newFlagSet V)).Error = none →
      (scan E 0 pre (initFlagSet E fields (newFlagSet V))).2 = false →
      parse E fields (pre ++ t :: post) =
        finish E
          (match flagArg E pre.length t (post.takeWhile noDash)
              { (scan E 0 pre (initFlagSet E fields (newFlagSet V))).1 with
                trace := (scan E 0 pre (initFlagSet E fields (newFlagSet V))).1.trace
                  ++ [Event.flagToken pre.length] } with
            | (fs', true) => (fs', true)
            | (fs', false) => scan E (pre.length + 1) post fs')) := by
  constructor
  · intro i k values fs hreg m hm
    exact flagArg_found_lookup_ne E i k t values fs hreg m hm
  · intro fields pre post hdash herr hgo
    rw [parse_eq, herr, scan_append_dash E 0 pre post t _ hdash, hgo]
    simp only [Option.isSome_none, Bool.false_eq_true, if_false, Nat.zero_add]
    rw [scan.eq_2]
    have hd : ¬ (!HasPrefix t dashOne) = true := by simp [hdash]
    rw [if_neg hd]

/-- The example of C17: the field with the names `-n` and `--num` and the default `7`.
The step for the token `-n` with the value `5` leaves the entry of `--num` as
`initFlagSet` wrote it, and after `parse` on `["-n","5"]` the entry of `-n` is `["5"]`
while the entry of `--num` still is `["7"]`. -/
theorem flagArg_found_touches_one_key_witness :
    lookup "--num".toList
        (flagArg specEnv 0 "-n".toList ["5".toList]
          { initFlagSet specEnv [numField] (newFlagSet Val) with
            trace := [Event.flagToken 0] }).1.Values
      = lookup "--num".toList (initFlagSet specEnv [numField] (newFlagSet Val)).Values ∧
    lookup "--num".toList (initFlagSet specEnv [numField] (newFlagSet Val)).Values
      = some ["7".toList] ∧
    lookup "-n".toList (parse specEnv [numField] ["-n".toList, "5".toList]).Values
      = some ["5".toList] ∧
    lookup "--num".toList (parse specEnv [numField] ["-n".toList, "5".toList]).Values
      = some ["7".toList] :=
  ⟨(flagArg_found_touches_one_key specEnv "-n".toList).1 0 0 ["5".toList]
      { initFlagSet specEnv [numField] (newFlagSet Val) with trace := [Event.flagToken 0] }
      (by decide) "--num".toList (by decide),
    by decide, by decide, by decide⟩

/-- C15. The values collected after a flag token (lines 135–141) never hold a token that
begins with `-`; and every text that `parse` passes to a setter, for a token `arg` at
index `i`, is the empty text, or the inline part of `arg` (the token is the bare name, `=`,
and that text), or the token at index `i + 1`, which does not begin with `-`. -/
theorem parse_setter_arguments (E : Env F V) (fields : List F) (args : List Str) :
    (∀ i, ∀ v ∈ collect args i, HasPrefix v dashOne = false) ∧
    (∀ i k raw, Event.set i k raw ∈ (parse E fields args).trace →
      ∃ arg, args[i]? = some arg ∧ HasPrefix arg dashOne = true ∧
        (raw = [] ∨
          (inlineValues arg = [raw] ∧ arg = bareName arg ++ '=' :: raw) ∨
          (args[i + 1]? = some raw ∧ HasPrefix raw dashOne = false))) := by
  refine ⟨collect_noDash args, ?_⟩
  intro i k raw hmem
  obtain ⟨arg, harg, hdash, h⟩ := parse_setOK E fields args _ hmem
  refine ⟨arg, harg, hdash, ?_⟩
  rcases h with h | h
  · exact Or.inl h
  · right
    cases hin : inlineValues arg with
    | nil =>
      right
      rw [hin, List.nil_append] at h
      have hv : raw ∈ collect args i := by rw [h]; exact List.mem_singleton_self _
      refine ⟨?_, collect_noDash args i raw hv⟩
      have h0 : (collect args i)[0]? = some raw := by rw [h]; rfl
      unfold collect at h0 h
      cases hd : args.drop (i + 1) with
      | nil => rw [hd] at h; simp at h
      | cons a l =>
        rw [hd] at h
        rw [List.takeWhile_cons] at h
        split at h
        · simp only [List.cons.injEq] at h
          have := congrArg (fun l => l[0]?) hd
          simp only [List.getElem?_drop, Nat.add_zero, List.getElem?_cons_zero] at this
          rw [this, h.1]
        · simp at h
    | cons v l =>
      left
      rw [hin] at h
      simp only [List.cons_append, List.cons.injEq, List.append_eq_nil] at h
      obtain ⟨hv, hl, _⟩ := h
      subst hv
      subst hl
      refine ⟨rfl, ?_⟩
      have hs := Split_eq arg
      rw [hin] at hs
      exact Split_pair arg '=' _ _ hs

/-- The examples of C15.  In `["--count","-5"]` the setter of `count` is called once, with
the empty text; `-5` is then processed as a flag token of its own and, not being
registered, ends the run with "unknown flag `-5`".  In `["--count=-5"]` the setter is
called with `-5`. -/
theorem parse_setter_arguments_witness :
    (∃ arg, ["--count".toList, "-5".toList][0]? = some arg ∧ HasPrefix arg dashOne = true ∧
      (([] : Str) = [] ∨
        (inlineValues arg = [[]] ∧ arg = bareName arg ++ '=' :: []) ∨
        (["--count".toList, "-5".toList][0 + 1]? = some [] ∧
          HasPrefix [] dashOne = false))) ∧
    allCalls (parse specEnv [countField] ["--count".toList, "-5".toList]).trace = [(0, [])] ∧
    Event.flagToken 1 ∈ (parse specEnv [countField] ["--count".toList, "-5".toList]).trace ∧
    (parse specEnv [countField] ["--count".toList, "-5".toList]).Error
      = some (.errorf "unknown flag `-5`".toList) ∧
    allCalls (parse specEnv [countField] ["--count=-5".toList]).trace
      = [(0, "-5".toList)] :=
  ⟨(parse_setter_arguments specEnv [countField] ["--count".toList, "-5".toList]).2 0 0 []
      (by decide),
    by decide, by decide, by decide, by decide⟩

/-- C16. In a run of `parse` on `pre ++ t :: post` that reaches the token `t` (the fields
build and the scan of `pre` does not return):
* if the bare name of `t` is `-` (`t` is `-` or begins with `-=`) and `-` is not
  registered, the step for `t` leaves every state as it is (no setter call, no error, no
  entry written); the run is the run that goes on, in the state the scan of `pre` left,
  behind the tokens after `t` that do not begin with `-`; it makes no setter call for `t`,
  does not end at `t`, and the token it goes on with, if there is one, begins with `-` and
  is processed as a flag token;
* if the bare name of `t` is `--` and `--` is not registered, the run ends at `t` with the
  error "unknown flag `--`" made by `parse`, in the state the scan of `pre` left. -/
theorem parse_lone_dash_dropped (E : Env F V) (fields : List F) (pre post : List Str)
    (t : Str)
    (herr : (initFlagSet E fields (newFlagSet V)).Error = none)
    (hgo : (scan E 0 pre (initFlagSet E fields (newFlagSet V))).2 = false) :
    (bareName t = dashOne →
      lookup dashOne (initFlagSet E fields (newFlagSet V)).flags = none →
      (t = dashOne ∨ ∃ r, t = '-' :: '=' :: r) ∧
      (∀ (i : Nat) (values : List Str) (fs : FlagSet V),
        lookup dashOne fs.flags = none → flagArg E i t values fs = (fs, false)) ∧
      parse E fields (pre ++ t :: post) =
        finish E
          (scan E (pre.length + 1 + (post.takeWhile noDash).length)
            (post.drop (post.takeWhile noDash).length)
            { (scan E 0 pre (initFlagSet E fields (newFlagSet V))).1 with
              trace := (scan E 0 pre (initFlagSet E fields (newFlagSet V))).1.trace
                ++ [Event.flagToken pre.length] }) ∧
      setCalls pre.length (parse E fields (pre ++ t :: post)).trace = [] ∧
      ¬ StoppedAt pre.length (parse E fields (pre ++ t :: post)) ∧
      (∀ t' rest, post.drop (post.takeWhile noDash).length = t' :: rest →
        HasPrefix t' dashOne = true ∧
        Event.flagToken (pre.length + 1 + (post.takeWhile noDash).length)
          ∈ (parse E fields (pre ++ t :: post)).trace)) ∧
    (bareName t = dashTwo →
      lookup dashTwo (initFlagSet E fields (newFlagSet V)).flags = none →
      parse E fields (pre ++ t :: post) =
        { (scan E 0 pre (initFlagSet E fields (newFlagSet V))).1 with
          trace := (scan E 0 pre (initFlagSet E fields (newFlagSet V))).1.trace
            ++ [Event.flagToken pre.length]
          Error := some (.errorf "unknown flag `--`".toList) }) := by
  have hfl := (scan_keeps E 0 pre (initFlagSet E fields (newFlagSet V))).flags
  constructor
  · intro hbare hreg
    have hdash : HasPrefix t dashOne = true := by
      have := bareName_isPrefix t
      rw [hbare] at this
      exact this
    have hstep : ∀ (i : Nat) (values : List Str) (fs : FlagSet V),
        lookup dashOne fs.flags = none → flagArg E i t values fs = (fs, false) :=
      fun i values fs h => flagArg_lone_dash E i t values fs hbare h
    have hp1 : parse E fields (pre ++ t :: post) =
        finish E (scan E (pre.length + 1) post
          { (scan E 0 pre (initFlagSet E fields (newFlagSet V))).1 with
            trace := (scan E 0 pre (initFlagSet E fields (newFlagSet V))).1.trace
              ++ [Event.flagToken pre.length] }) := by
      rw [parse_at_token E fields pre post t hdash herr hgo, scan.eq_2]
      have hd : ¬ (!HasPrefix t dashOne) = true := by simp [hdash]
      rw [if_neg hd, hstep _ _ _ (by rw [hfl]; exact hreg)]
    have hp : parse E fields (pre ++ t :: post) =
        finish E
          (scan E (pre.length + 1 + (post.takeWhile noDash).length)
            (post.drop (post.takeWhile noDash).length)
            { (scan E 0 pre (initFlagSet E fields (newFlagSet V))).1 with
              trace := (scan E 0 pre (initFlagSet E fields (newFlagSet V))).1.trace
                ++ [Event.flagToken pre.length] }) := by
      rw [hp1, ← scan_skip]
    refine ⟨(bareName_eq_dashOne t).mp hbare, hstep, hp, ?_, ?_, ?_⟩
    · rw [hp1, finish_setCalls,
        (scan_keeps E (pre.length + 1) post _).setCalls (Or.inl (Nat.lt_succ_self _))]
      show setCalls pre.length
        ((scan E 0 pre (initFlagSet E fields (newFlagSet V))).1.trace
          ++ [Event.flagToken pre.length]) = []
      rw [setCalls_append,
        (scan_keeps E 0 pre (initFlagSet E fields (newFlagSet V))).setCalls
          (Or.inr (by omega)),
        initFlagSet_trace]
      rfl
    · rw [hp1]
      exact finish_scan_not_stopped E pre.length post _
    · intro t' rest hrest
      have hd' := drop_takeWhile_head post t' rest hrest
      refine ⟨hd', ?_⟩
      rw [hp, hrest]
      exact finish_subset E _ _ (scan_head_event E _ t' rest _ hd')
  · intro hbare hreg
    have hdash2 : HasPrefix t dashTwo = true := by
      have := bareName_isPrefix t
      rw [hbare] at this
      exact this
    have hdash : HasPrefix t dashOne = true := by
      rcases t with _ | ⟨c, _ | ⟨d, rest⟩⟩
      · simp [HasPrefix, dashTwo, List.isPrefixOf] at hdash2
      · simp [HasPrefix, dashTwo, List.isPrefixOf] at hdash2
      · simp [HasPrefix, dashTwo, dashOne, List.isPrefixOf] at hdash2 ⊢
        exact hdash2.1
    rw [parse_at_token E fields pre post t hdash herr hgo, scan.eq_2]
    have hd : ¬ (!HasPrefix t dashOne) = true := by simp [hdash]
    rw [if_neg hd, flagArg_unknown E _ t _ _ (by rw [hbare]; show lookup dashTwo _ = none; rw [hfl]; exact hreg),
      hbare]
    rfl

/-- The examples of C16 with the field `--count`: in `["-","x","--count","5"]` the token
`-` and the value `x` are dropped without a setter call, the run goes on with `--count`
and ends without error, the setter of `count` having been called with `5`; the token
`--` alone ends the run with "unknown flag `--`". -/
theorem parse_lone_dash_dropped_witness :
    setCalls 0 (parse specEnv [countField]
      ([] ++ "-".toList :: ["x".toList, "--count".toList, "5".toList])).trace = [] ∧
    allCalls (parse specEnv [countField]
      ["-".toList, "x".toList, "--count".toList, "5".toList]).trace = [(0, "5".toList)] ∧
    (parse specEnv [countField]
      ["-".toList, "x".toList, "--count".toList, "5".toList]).Error = none ∧
    (parse specEnv [countField] ["--".toList]).Error
      = some (.errorf "unknown flag `--`".toList) :=
  ⟨((parse_lone_dash_dropped specEnv [countField] [] ["x".toList, "--count".toList, "5".toList]
      "-".toList (by decide) (by decide)).1 (by decide) (by decide)).2.2.2.1,
    by decide, by decide, by decide⟩

/-- C14. Let the fields `pre` before the field `f` build without failure (`newFlag`
reports no error on them and their names do not repeat), and let `f` be the first field
that fails: `newFlag` reports an error `e` on it, or it yields a descriptor `fl` one of
whose names repeats a name already taken (`n` the first such name).  Then `initFlagSet` on
`pre ++ f :: post` ends with the error of `f` (the error `newFlag` handed back, or "flag
`n` repeat"); `newFlag` was called for the fields of `pre` and for `f` and for no field of
`post`; the ordered list holds the descriptors of the non-excluded fields of `pre`, and
the descriptor of `f` after them when `f` failed by its name; `Usage` is left empty; and
the result is the one for the record cut off after `f`. -/
theorem initFlagSet_first_failure (E : Env F V) (pre post : List F) (f : F)
    (hok : ∀ g ∈ pre, (E.newFlag g).2 = none)
    (hfr : firstRepeat [] (allNames E pre) = none) :
    (∀ e, (E.newFlag f).2 = some e →
      (initFlagSet E (pre ++ f :: post) (newFlagSet V)).Error = some (.returned e) ∧
      (initFlagSet E (pre ++ f :: post) (newFlagSet V)).slice
        = pre.filterMap (fun g => (E.newFlag g).1) ∧
      (initFlagSet E (pre ++ f :: post) (newFlagSet V)).Usage = [] ∧
      (initFieldsCalls E (pre ++ f :: post) (newFlagSet V)).2 = pre ++ [f] ∧
      initFlagSet E (pre ++ f :: post) (newFlagSet V)
        = initFlagSet E (pre ++ [f]) (newFlagSet V)) ∧
    (∀ fl n, (E.newFlag f).2 = none → (E.newFlag f).1 = some fl →
      firstRepeat (allNames E pre).reverse (fl.tag.shortNames ++ fl.tag.longNames) = some n →
      (initFlagSet E (pre ++ f :: post) (newFlagSet V)).Error
        = some (.errorf (repeatText n)) ∧
      (initFlagSet E (pre ++ f :: post) (newFlagSet V)).slice
        = pre.filterMap (fun g => (E.newFlag g).1) ++ [fl] ∧
      (initFlagSet E (pre ++ f :: post) (newFlagSet V)).Usage = [] ∧
      (initFieldsCalls E (pre ++ f :: post) (newFlagSet V)).2 = pre ++ [f] ∧
      initFlagSet E (pre ++ f :: post) (newFlagSet V)
        = initFlagSet E (pre ++ [f]) (newFlagSet V)) := by
  have hkeys0 : KeysAre (newFlagSet V) [] := by
    intro n
    simp [newFlagSet, lookup]
  have hown0 : Owns (newFlagSet V) := by
    intro n k h
    simp [newFlagSet, lookup] at h
  obtain ⟨h2, hsl, _, hkeys, _⟩ :=
    initFields_valid E pre [] (newFlagSet V) hok hfr rfl hkeys0 hown0
  have hsl' : (initFields E pre (newFlagSet V)).1.slice
      = pre.filterMap (fun g => (E.newFlag g).1) := by
    rw [hsl]
    rfl
  have hus : (initFields E pre (newFlagSet V)).1.Usage = [] := by
    rw [initFields_Usage]
    rfl
  have happ : ∀ po, initFields E (pre ++ f :: po) (newFlagSet V)
      = initFields E (f :: po) (initFields E pre (newFlagSet V)).1 := by
    intro po
    rw [initFields_append, h2]
    simp
  have hcalls : ∀ po, (initFieldsCalls E (pre ++ f :: po) (newFlagSet V)).2
      = pre ++ (initFieldsCalls E (f :: po) (initFields E pre (newFlagSet V)).1).2 := by
    intro po
    rw [initFieldsCalls_append, h2]
    simp
  have hinit : ∀ po, (initFields E (f :: po) (initFields E pre (newFlagSet V)).1).2 = true →
      initFlagSet E (pre ++ f :: po) (newFlagSet V)
        = (initFields E (f :: po) (initFields E pre (newFlagSet V)).1).1 := by
    intro po hb
    unfold initFlagSet
    rw [happ]
    cases hres : initFields E (f :: po) (initFields E pre (newFlagSet V)).1 with
    | mk fs' b =>
      rw [hres] at hb
      simp only at hb
      subst hb
      rfl
  constructor
  · intro e he
    have hA := fun po => (initFields_cons_error E f po (initFields E pre (newFlagSet V)).1 e he).1
    have hB := (initFields_cons_error E f post (initFields E pre (newFlagSet V)).1 e he).2
    have hI : ∀ po, initFlagSet E (pre ++ f :: po) (newFlagSet V)
        = { (initFields E pre (newFlagSet V)).1 with Error := some (.returned e) } := by
      intro po
      rw [hinit po (by rw [hA po]), hA po]
    refine ⟨by rw [hI post], ?_, ?_, ?_, ?_⟩
    · rw [hI post]
      exact hsl'
    · rw [hI post]
      exact hus
    · rw [hcalls post, hB]
    · rw [hI post, hI []]
  · intro fl n hf hfl hrep
    have hkeys' : KeysAre (initFields E pre (newFlagSet V)).1 (allNames E pre).reverse := by
      have := hkeys
      rwa [List.append_nil] at this
    have hR := fun po => initFields_cons_repeat E f po (initFields E pre (newFlagSet V)).1 fl
      (allNames E pre).reverse n hf hfl hkeys' hrep
    have hI : ∀ po, initFlagSet E (pre ++ f :: po) (newFlagSet V)
        = (initFields E [f] (initFields E pre (newFlagSet V)).1).1 := by
      intro po
      rw [hinit po (hR po).1, (hR po).2.1]
    obtain ⟨hb, heq, herr, hslice, husage, hc⟩ := hR post
    refine ⟨?_, ?_, ?_, ?_, ?_⟩
    · rw [hinit post hb]
      exact herr
    · rw [hinit post hb, hslice, hsl']
    · rw [hinit post hb, husage]
      exact hus
    · rw [hcalls post, hc]
    · rw [hI post, hI []]

/-- The examples of C14.  After the field `count`, the field `name` repeats `-n`: the build
ends with "flag `-n` repeat", `newFlag` was not called for the field `port` behind it,
the list holds the descriptors of `count` and `name`, and `Usage` is empty.  After
`count`, the field `bad` has a default that does not convert: the build ends with the
error of `newFlag`, the list holds the descriptor of `count` only. -/
theorem initFlagSet_first_failure_witness :
    ((initFlagSet specEnv ([countField] ++ nameField :: [portField]) (newFlagSet Val)).Error
        = some (.errorf (repeatText "-n".toList)) ∧
      (initFlagSet specEnv ([countField] ++ nameField :: [portField]) (newFlagSet Val)).slice
        = [countField].filterMap (fun g => (specEnv.newFlag g).1) ++
          [{ tag := { shortNames := ["-n".toList], longNames := ["--name".toList],
                      required := false },
             v := .str [], assigned := false, err := none }] ∧
      (initFlagSet specEnv ([countField] ++ nameField :: [portField]) (newFlagSet Val)).Usage
        = [] ∧
      (initFieldsCalls specEnv ([countField] ++ nameField :: [portField]) (newFlagSet Val)).2
        = [countField] ++ [nameField] ∧
      initFlagSet specEnv ([countField] ++ nameField :: [portField]) (newFlagSet Val)
        = initFlagSet specEnv ([countField] ++ [nameField]) (newFlagSet Val)) ∧
    (initFlagSet specEnv [countField, badField, portField] (newFlagSet Val)).Error
      = some (.returned "cannot convert `x`".toList) ∧
    ((initFlagSet specEnv [countField, badField, portField] (newFlagSet Val)).slice.map
      (fun fl => fl.tag.longNames)) = [["--count".toList]] ∧
    (initFieldsCalls specEnv [countField, badField, portField] (newFlagSet Val)).2
      = [countField, badField] :=
  ⟨(initFlagSet_first_failure specEnv [countField] [portField] nameField (by decide)
      (by decide)).2
      { tag := { shortNames := ["-n".toList], longNames := ["--name".toList],
                 required := false },
        v := .str [], assigned := false, err := none }
      "-n".toList (by decide) (by decide) (by decide),
    by decide, by decide, by decide⟩

/-- C18. After an `initFlagSet` that ends without error: every descriptor of the ordered
list was made by `newFlag` for a field; each name `n` (short or long) of the descriptor at
position `k` leads to `k`, and its entry in `Values` is the list of the one string form of
the descriptor's value when the descriptor is assigned, and absent when it is not; and the
keys of `Values` are exactly the names of the assigned descriptors. -/
theorem initFlagSet_values (E : Env F V) (fields : List F)
    (hsucc : (initFlagSet E fields (newFlagSet V)).Error = none) :
    (∀ fl ∈ (initFlagSet E fields (newFlagSet V)).slice,
      ∃ f ∈ fields, (E.newFlag f).1 = some fl) ∧
    (∀ k fl, (initFlagSet E fields (newFlagSet V)).slice[k]? = some fl →
      ∀ n ∈ fl.tag.shortNames ++ fl.tag.longNames,
        lookup n (initFlagSet E fields (newFlagSet V)).flags = some k ∧
        lookup n (initFlagSet E fields (newFlagSet V)).Values
          = if fl.assigned then some [E.sprintV fl.v] else none) ∧
    (∀ n, (lookup n (initFlagSet E fields (newFlagSet V)).Values).isSome = true ↔
      ∃ fl ∈ (initFlagSet E fields (newFlagSet V)).slice,
        fl.assigned = true ∧ n ∈ fl.tag.shortNames ++ fl.tag.longNames) := by
  have h2 : (initFields E fields (newFlagSet V)).2 = false := by
    cases hb : (initFields E fields (newFlagSet V)).2 with
    | false => rfl
    | true =>
      have := initFields_returned E fields (newFlagSet V) hb
      rw [← initFlagSet_Error, hsucc] at this
      cases this
  have hinit : initFlagSet E fields (newFlagSet V)
      = { (initFields E fields (newFlagSet V)).1 with
          Usage := E.usage (initFields E fields (newFlagSet V)).1.slice } := by
    unfold initFlagSet
    cases hres : initFields E fields (newFlagSet V) with
    | mk fs' b =>
      rw [hres] at h2
      simp only at h2
      subst h2
      rfl
  have hfull : Full (initFlagSet E fields (newFlagSet V)) := by
    rw [hinit]
    exact initFields_full E fields (newFlagSet V) h2 (by
      intro k fl hk
      simp [newFlagSet] at hk)
  have hvb : ValuesBuilt E (initFlagSet E fields (newFlagSet V)) := by
    rw [hinit]
    exact initFields_valuesBuilt E fields (newFlagSet V) newFlagSet_Bound (by
      intro n
      rfl)
  have hpos : ∀ k fl, (initFlagSet E fields (newFlagSet V)).slice[k]? = some fl →
      ∀ n ∈ fl.tag.shortNames ++ fl.tag.longNames,
        lookup n (initFlagSet E fields (newFlagSet V)).flags = some k ∧
        lookup n (initFlagSet E fields (newFlagSet V)).Values
          = if fl.assigned then some [E.sprintV fl.v] else none := by
    intro k fl hk n hn
    have hl := hfull k fl hk n hn
    refine ⟨hl, ?_⟩
    rw [hvb n, hl]
    simp only [Option.some_bind, hk]
  refine ⟨?_, hpos, ?_⟩
  · intro fl hfl
    rw [hinit] at hfl
    rcases initFields_from E fields (newFlagSet V) fl hfl with h | h
    · simp [newFlagSet] at h
    · exact h
  · intro n
    constructor
    · intro hsome
      rw [hvb n] at hsome
      cases hl : lookup n (initFlagSet E fields (newFlagSet V)).flags with
      | none =>
        rw [hl] at hsome
        cases hsome
      | some k =>
        rw [hl] at hsome
        simp only [Option.some_bind] at hsome
        cases hk : (initFlagSet E fields (newFlagSet V)).slice[k]? with
        | none =>
          rw [hk] at hsome
          cases hsome
        | some fl =>
          rw [hk] at hsome
          simp only [Option.some_bind] at hsome
          have ha : fl.assigned = true := by
            by_cases ha : fl.assigned = true
            · exact ha
            · rw [if_neg ha] at hsome
              cases hsome
          have hown : Owns (initFlagSet E fields (newFlagSet V)) := by
            rw [hinit]
            exact initFields_owns E fields (newFlagSet V) (by
              intro m j hj
              simp [newFlagSet, lookup] at hj)
          obtain ⟨fl', hk', hn⟩ := hown n k hl
          rw [hk] at hk'
          cases hk'
          exact ⟨fl, List.getElem?_mem hk, ha, hn⟩
    · rintro ⟨fl, hmem, ha, hn⟩
      obtain ⟨k, hk⟩ := List.getElem?_of_mem hmem
      rw [(hpos k fl hk n hn).2, if_pos ha]
      rfl

/-- An example of C18, the fields `num` (`-n`, `--num`, default `7`) and `port` (no
default): both names of `num` have the entry `["7"]`, `--port` has none, and `Values` has
no other key. -/
theorem initFlagSet_values_witness :
    (lookup "--num".toList (initFlagSet specEnv [numField, portField] (newFlagSet Val)).flags
        = some 0 ∧
      lookup "--num".toList (initFlagSet specEnv [numField, portField] (newFlagSet Val)).Values
        = if ({ tag := { shortNames := ["-n".toList], longNames := ["--num".toList],
                         required := false },
                v := .int 7, assigned := true, err := none } : flag Val).assigned
          then some [specEnv.sprintV (.int 7)] else none) ∧
    (initFlagSet specEnv [numField, portField] (newFlagSet Val)).Values
      = [("-n".toList, ["7".toList]), ("--num".toList, ["7".toList])] ∧
    lookup "--port".toList (initFlagSet specEnv [numField, portField] (newFlagSet Val)).Values
      = none :=
  ⟨(initFlagSet_values specEnv [numField, portField] (by decide)).2.1 0
      { tag := { shortNames := ["-n".toList], longNames := ["--num".toList],
                 required := false },
        v := .int 7, assigned := true, err := none }
      (by decide) "--num".toList (by decide),
    by decide, by decide⟩

/-- C19. The loop of `parse` ends for every token list and every record: started at an
index `i`, it gives the same result for every number of iterations allowed that is at
least the number of tokens from `i` on (`parse` allows `len(args)` of them from index 0),
namely the result of the recursion on the tokens that remain.  The tokens processed as
flag tokens in a run are, in this order, the tokens that begin with `-` from the first
on, each once and by strictly growing index (all of them when the run enters the
validation pass, and those up to the one at which the run ended otherwise); the events
after those of a flag token `i` belong to tokens behind the values collected for `i`; and
the setter calls made outside the cluster loop are at most as many as the tokens that
begin with `-`. -/
theorem parse_terminates (E : Env F V) (fields : List F) (args : List Str) :
    (∀ (fuel fuel' i : Nat) (fs : FlagSet V),
      args.length - i ≤ fuel → args.length - i ≤ fuel' →
      scanLoop E args fuel i fs = scanLoop E args fuel' i fs ∧
      scanLoop E args fuel i fs = scan E i (args.drop i) fs) ∧
    flagTokens (parse E fields args).trace <+: dashIndices 0 args ∧
    (flagTokens (parse E fields args).trace).Pairwise (fun a b => a < b) ∧
    (Event.validate ∈ (parse E fields args).trace →
      flagTokens (parse E fields args).trace = dashIndices 0 args) ∧
    (∀ j, j ∈ dashIndices 0 args ↔ ∃ a, args[j]? = some a ∧ HasPrefix a dashOne = true) ∧
    (∀ i, Event.flagToken i ∈ (parse E fields args).trace →
      ∀ e ∈ (parse E fields args).trace, ∀ j, e.tok = some j → i < j →
        i + (collect args i).length < j) ∧
    (foundCalls (initFlagSet E fields (newFlagSet V)).flags args
        (parse E fields args).trace).length
      ≤ args.countP (fun a => HasPrefix a dashOne) := by
  have htr : (initFlagSet E fields (newFlagSet V)).trace = [] := by
    rw [initFlagSet_trace]
    rfl
  obtain ⟨new, hnew, hpre, hall⟩ :=
    scan_flagTokens E 0 args (initFlagSet E fields (newFlagSet V))
  rw [htr] at hnew
  have hprefix : flagTokens (parse E fields args).trace <+: dashIndices 0 args := by
    rw [parse_eq]
    split
    · rw [htr]
      exact List.nil_prefix
    · rw [finish_flagTokens, hnew]
      exact hpre
  refine ⟨?_, hprefix, ?_, ?_, ?_, parse_trace_gap E fields args, ?_⟩
  · intro fuel fuel' i fs h h'
    exact ⟨(scanLoop_eq_scan E args fuel i fs h).trans (scanLoop_eq_scan E args fuel' i fs h').symm,
      scanLoop_eq_scan E args fuel i fs h⟩
  · exact (dashIndices_sorted 0 args).sublist hprefix.sublist
  · intro hval
    obtain ⟨_, h2, _, hp⟩ := parse_validated E fields args hval
    rw [hp]
    have : flagTokens (validate E (scan E 0 args (initFlagSet E fields (newFlagSet V))).1).trace
        = flagTokens (scan E 0 args (initFlagSet E fields (newFlagSet V))).1.trace := by
      unfold validate
      simp only
      split <;> simp [flagTokens_append, flagTokens]
    rw [this, hnew, hall h2]
    rfl
  · intro j
    rw [mem_dashIndices]
    simp
  · rw [← dashIndices_length 0 args]
    have hlen : (flagTokens (parse E fields args).trace).length ≤ (dashIndices 0 args).length :=
      hprefix.length_le
    refine Nat.le_trans ?_ hlen
    rw [parse_eq]
    split
    · rw [htr]
      exact Nat.zero_le _
    · have hs := scan_foundCalls_le E (initFlagSet E fields (newFlagSet V)).flags args 0 args
        (initFlagSet E fields (newFlagSet V)) rfl rfl
      rw [htr] at hs
      rw [finish_flagTokens]
      have hf : foundCalls (initFlagSet E fields (newFlagSet V)).flags args
          (finish E (scan E 0 args (initFlagSet E fields (newFlagSet V)))).trace
          = foundCalls (initFlagSet E fields (newFlagSet V)).flags args
            (scan E 0 args (initFlagSet E fields (newFlagSet V))).1.trace := by
        rcases finish_trace E (scan E 0 args (initFlagSet E fields (newFlagSet V))) with h | h
        · rw [h]
        · rw [h, foundCalls_snoc]
          simp [isFoundCall]
      rw [hf]
      simpa [foundCalls, flagTokens] using hs

/-- An example of C19: in `["x","--count","5","-n","7"]` the tokens at the indices 1 and 3
begin with `-`; both are processed, in this order, the run enters the validation pass, and
two setter calls are made. -/
theorem parse_terminates_witness :
    flagTokens (parse specEnv [countField]
        ["x".toList, "--count".toList, "5".toList, "-n".toList, "7".toList]).trace
      = dashIndices 0 ["x".toList, "--count".toList, "5".toList, "-n".toList, "7".toList] ∧
    dashIndices 0 ["x".toList, "--count".toList, "5".toList, "-n".toList, "7".toList]
      = [1, 3] ∧
    allCalls (parse specEnv [countField]
        ["x".toList, "--count".toList, "5".toList, "-n".toList, "7".toList]).trace
      = [(0, "5".toList), (0, "7".toList)] :=
  ⟨(parse_terminates specEnv [countField]
      ["x".toList, "--count".toList, "5".toList, "-n".toList, "7".toList]).2.2.2.1 (by decide),
    by decide, by decide⟩

theorem specLines_pos (E : Env F V) (fls : List (flag V)) :
    ∀ l ∈ specLines E fls, 0 < l.length := by
  intro l hl
  unfold specLines at hl
  rw [List.mem_flatMap] at hl
  obtain ⟨fl, _, hfl⟩ := hl
  exact specLinesOf_pos E fl l hfl

/-- C11, at a cause text that holds `%`.  In every run that enters the validation pass
with at least one line, the text that line 208 hands to `fmt.Errorf` is what the claim
describes: the lines of the descriptors (at most one each), in the order of the list,
joined by single newlines.  But it is handed over as the format: the error text is that
text as `fmt` renders a format without operands, which is the text itself when it holds no
`%` and differs from it otherwise.  For the field `--count` and the tokens
`["--count","5%"]` the line is "... invalid: cannot convert `5%`", and the text of
`FlagSet.Error` is "... invalid: cannot convert `5%!`(MISSING)". -/
theorem parse_validation_text_percent :
    (∀ (G W : Type) (E : Env G W) (fields : List G) (args : List Str),
      Event.validate ∈ (parse E fields args).trace →
      specLines E (parse E fields args).slice ≠ [] →
      (parse E fields args).Error
        = some (.errorf (E.errorf0 (joinLines (specLines E (parse E fields args).slice))))) ∧
    (∀ (G W : Type) (E : Env G W) (fl : flag W), (specLinesOf E fl).length ≤ 1) ∧
    (∀ s : Str, '%' ∉ s → Errorf0 s = s) ∧
    (∀ s : Str, (doPrintf (s.length + 1) s).isSome = true) ∧
    Event.validate ∈ (parse fmtEnv [countField] ["--count".toList, "5%".toList]).trace ∧
    joinLines (specLines fmtEnv
        (parse fmtEnv [countField] ["--count".toList, "5%".toList]).slice)
      = "ERR! assigned argument `--count` invalid: cannot convert `5%`".toList ∧
    (parse fmtEnv [countField] ["--count".toList, "5%".toList]).Error
      = some (.errorf
          "ERR! assigned argument `--count` invalid: cannot convert `5%!`(MISSING)".toList) := by
  refine ⟨?_, fun G W E fl => specLinesOf_length E fl, Errorf0_of_no_percent,
    fun s => doPrintf_isSome _ s (Nat.lt_succ_self _), by decide, by decide, by decide⟩
  intro G W E fields args hval hne
  obtain ⟨_, _, _, hp⟩ := parse_validated E fields args hval
  have hslice : (parse E fields args).slice
      = (scan E 0 args (initFlagSet E fields (newFlagSet W))).1.slice := by
    rw [hp]
    unfold validate
    simp only
    split <;> rfl
  rw [hslice] at hne ⊢
  rw [hp]
  unfold validate
  simp only
  rw [validationBuffer_eq_joinLines,
    if_pos (joinLines_pos _ hne (specLines_pos E _))]

end Claims

end Cli
